import Mathlib

/-!
Verification of the netlist-IR core of the PyRTL example repository
(`src/PyRTL/ipynb-examples/example7-synth-timing.ipynb`).  The repository
ships only the notebook that drives the passes (`pyrtl.synthesize`,
`pyrtl.optimize`, `pyrtl.TimingAnalysis`, `pyrtl.area_estimation`); the
pass implementations themselves are not under `src/`.  Following the
specification (spec.md sections 3 and 4), the netlist graph, the
synthesizer, the optimizer, the timing analyzer and the area estimator
are modelled from the spec below, and the claims are settled against
this model.
-/

set_option maxRecDepth 10000

/-- Modelled from the spec (section 3, Wire): the kind of a wire.  `inp` is an
Input wire (external driver), `cst v` a Const wire carrying the fixed value
`v`, `regOut` a Register-output wire, `memOut` a Memory-output wire, and
`normal` an internal or Output wire produced by exactly one net. -/
inductive WK : Type
  | inp : WK
  | cst : Nat → WK
  | regOut : WK
  | memOut : WK
  | normal : WK
deriving DecidableEq, Repr

/-- Modelled from the spec (section 3, Wire): a named (by numeric id), fixed
bitwidth signal. -/
structure Wire : Type where
  wid : Nat
  width : Nat
  kind : WK
deriving DecidableEq, Repr

/-- Modelled from the spec (section 3, Net): the operation kind of a net.
Bitwise and/or/xor/not, concatenation, bit selection, addition (a
pre-synthesis composite op), register update and memory access.  `notg`
carries the bitwidth of its operand, `catg` the widths of its operands
(least significant first), `selg` the list of selected bit positions. -/
inductive Op : Type
  | andg : Op
  | org : Op
  | xorg : Op
  | notg : Nat → Op
  | catg : List Nat → Op
  | selg : List Nat → Op
  | addg : Op
  | regg : Op
  | memg : Op
deriving DecidableEq, Repr

/-- Modelled from the spec (section 3, Net): an operation node with an ordered
list of input wires and one output wire, all referenced by wire id. -/
structure Net : Type where
  op : Op
  ins : List Nat
  out : Nat
deriving DecidableEq, Repr

/-- Modelled from the spec (section 3, Netlist Graph): the set of all wires and
nets of one design plus the designated Output wires.  Nets are kept in
insertion order, which for a well-formed graph is a topological order of the
combinational subgraph. -/
structure Graph : Type where
  wires : List Wire
  nets : List Net
  outputs : List Nat
deriving DecidableEq, Repr

def Graph.wire? (g : Graph) (i : Nat) : Option Wire :=
  g.wires.find? (fun w => w.wid = i)

/-- Width of the wire with id `i` (0 when no such wire exists). -/
def widthOf (g : Graph) (i : Nat) : Nat :=
  match g.wire? i with
  | some w => w.width
  | none => 0

/-- A wire is a timing/value source when it is an Input, Const,
Register-output or Memory-output wire. -/
def isSourceB (g : Graph) (i : Nat) : Bool :=
  match g.wire? i with
  | some w => match w.kind with
    | .normal => false
    | _ => true
  | none => false

def maxWid (g : Graph) : Nat := g.wires.foldl (fun a w => max a w.wid) 0

/-! ### Combinational semantics

A valuation assigns an optional value to every wire id.  Source wires get
their value from the environment (Inputs, Register outputs, Memory outputs)
or from their stored constant; net outputs are filled in by folding over the
nets in insertion order. -/

def Val : Type := List (Nat × Nat)

/-- Look up the value recorded for wire id `i` (latest entry wins). -/
def Val.get? (v : Val) (i : Nat) : Option Nat :=
  (List.find? (fun p => p.1 = i) v).map (fun p => p.2)

/-- Value of low-endian bit list: `bitsToNat [b0, b1, ...] = b0 + 2*b1 + ...`. -/
def bitsToNat : List Bool → Nat
  | [] => 0
  | b :: bs => (if b then 1 else 0) + 2 * bitsToNat bs

/-- Semantics of a `selg bits` net: result bit `j` is bit `bits[j]` of `x`. -/
def selBits (x : Nat) (bits : List Nat) : Nat :=
  bitsToNat (bits.map (fun b => x.testBit b))

/-- Semantics of a `catg ws` net (operands least significant first). -/
def catVals : List Nat → List Nat → Nat
  | w :: ws, x :: xs => x + 2 ^ w * catVals ws xs
  | _, _ => 0

/-- Evaluate one net under a valuation; `none` when an operand has no value
yet, the net is sequential (register/memory), or the net is malformed. -/
def evalNet (v : Val) (n : Net) : Option Nat :=
  match n.op with
  | .andg =>
    match n.ins with
    | [a, b] => do pure (Nat.land (← v.get? a) (← v.get? b))
    | _ => none
  | .org =>
    match n.ins with
    | [a, b] => do pure (Nat.lor (← v.get? a) (← v.get? b))
    | _ => none
  | .xorg =>
    match n.ins with
    | [a, b] => do pure (Nat.xor (← v.get? a) (← v.get? b))
    | _ => none
  | .notg w =>
    match n.ins with
    | [a] => do pure (Nat.xor (← v.get? a) (2 ^ w - 1))
    | _ => none
  | .addg =>
    match n.ins with
    | [a, b] => do pure ((← v.get? a) + (← v.get? b))
    | _ => none
  | .selg bits =>
    match n.ins with
    | [a] => do pure (selBits (← v.get? a) bits)
    | _ => none
  | .catg ws => do pure (catVals ws (← n.ins.mapM (fun a => v.get? a)))
  | .regg => none
  | .memg => none

/-- Process one net: when it evaluates, record the value on its output wire. -/
def stepNet (n : Net) (v : Val) : Val :=
  match evalNet v n with
  | some x => (n.out, x) :: v
  | none => v

def runNets (ns : List Net) (v : Val) : Val :=
  ns.foldl (fun v n => stepNet n v) v

/-- The initial value entry contributed by one wire: Input, Register-output
and Memory-output wires take their value from the environment, Const wires
their stored value; all values are reduced modulo `2 ^ width`. -/
def srcVal (env : Nat → Nat) (w : Wire) : Option (Nat × Nat) :=
  match w.kind with
  | .inp => some (w.wid, env w.wid % 2 ^ w.width)
  | .cst x => some (w.wid, x % 2 ^ w.width)
  | .regOut => some (w.wid, env w.wid % 2 ^ w.width)
  | .memOut => some (w.wid, env w.wid % 2 ^ w.width)
  | .normal => none

/-- Initial valuation of the source wires. -/
def initList (g : Graph) (env : Nat → Nat) : Val :=
  g.wires.filterMap (srcVal env)

def finalVal (g : Graph) (env : Nat → Nat) (i : Nat) : Option Nat :=
  (runNets g.nets (initList g env)).get? i

/-- Observable behavior: the values of the designated Output wires, as a
function of the assignment `env` to the source wires. -/
def behavior (g : Graph) (env : Nat → Nat) : List (Option Nat) :=
  g.outputs.map (finalVal g env)

/-! ### Well-formedness (spec section 3 invariants and section 4.1) -/

def nodupB : List Nat → Bool
  | [] => true
  | x :: xs => (!xs.contains x) && nodupB xs

def isCombB (o : Op) : Bool :=
  match o with
  | .regg => false
  | .memg => false
  | _ => true

def hasWire (g : Graph) (i : Nat) : Bool := (g.wire? i).isSome

def kindIs (g : Graph) (i : Nat) (k : WK) : Bool :=
  match g.wire? i with
  | some w => w.kind = k
  | none => false

/-- Width/arity/kind contract of a single net (spec section 4.1: arity/width
contract of each operation). -/
def netOkB (g : Graph) (n : Net) : Bool :=
  match n.op with
  | .andg =>
    match n.ins with
    | [a, b] =>
      hasWire g a && hasWire g b && kindIs g n.out .normal &&
        (widthOf g a = widthOf g n.out) && (widthOf g b = widthOf g n.out)
    | _ => false
  | .org =>
    match n.ins with
    | [a, b] =>
      hasWire g a && hasWire g b && kindIs g n.out .normal &&
        (widthOf g a = widthOf g n.out) && (widthOf g b = widthOf g n.out)
    | _ => false
  | .xorg =>
    match n.ins with
    | [a, b] =>
      hasWire g a && hasWire g b && kindIs g n.out .normal &&
        (widthOf g a = widthOf g n.out) && (widthOf g b = widthOf g n.out)
    | _ => false
  | .notg w =>
    match n.ins with
    | [a] =>
      hasWire g a && kindIs g n.out .normal &&
        (widthOf g a = w) && (widthOf g n.out = w)
    | _ => false
  | .addg =>
    match n.ins with
    | [a, b] =>
      hasWire g a && hasWire g b && kindIs g n.out .normal &&
        (widthOf g a = widthOf g b) && (widthOf g n.out = widthOf g a + 1)
    | _ => false
  | .selg bits =>
    match n.ins with
    | [a] =>
      hasWire g a && kindIs g n.out .normal &&
        bits.all (fun b => b < widthOf g a) && (widthOf g n.out = bits.length)
    | _ => false
  | .catg ws =>
    n.ins.all (hasWire g) && kindIs g n.out .normal &&
      (n.ins.length = ws.length) &&
      (n.ins.zip ws).all (fun p => widthOf g p.1 = p.2) &&
      (widthOf g n.out = ws.sum)
  | .regg =>
    match n.ins with
    | [a] =>
      hasWire g a && kindIs g n.out .regOut && (widthOf g n.out = widthOf g a)
    | _ => false
  | .memg =>
    n.ins.all (hasWire g) && kindIs g n.out .memOut

/-- Topological order check: every input of every net, scanned in insertion
order, is a source wire or the output of an earlier net (spec section 3:
the combinational subgraph is a DAG between sequential boundaries). -/
def topoB (g : Graph) : List Net → List Nat → Bool
  | [], _ => true
  | n :: ns, avail =>
    n.ins.all (fun a => isSourceB g a || avail.contains a) &&
      topoB g ns (n.out :: avail)

/-- Well-formedness of a graph, modelled from the spec (section 3 invariants):
distinct wire ids, single driver per wire, positive widths, per-net
width/arity contracts, topological insertion order, existing outputs. -/
def Graph.wfB (g : Graph) : Bool :=
  nodupB (g.wires.map (fun w => w.wid)) &&
  nodupB (g.nets.map (fun n => n.out)) &&
  g.wires.all (fun w => 1 ≤ w.width) &&
  g.nets.all (fun n => netOkB g n) &&
  topoB g g.nets [] &&
  g.outputs.all (fun o => hasWire g o)

def Graph.WF (g : Graph) : Prop := g.wfB = true

instance (g : Graph) : Decidable g.WF := by
  unfold Graph.WF
  infer_instance

/-! ### The concrete example graph of the notebook

`const_wire = Const(6, bitwidth=4); in_wire2 = Input(bitwidth=4);
out_wire = Output(bitwidth=5); out_wire <<= const_wire + in_wire2`. -/

def exampleGraph : Graph :=
  { wires := [⟨0, 4, .cst 6⟩, ⟨1, 4, .inp⟩, ⟨2, 5, .normal⟩]
    nets := [⟨.addg, [0, 1], 2⟩]
    outputs := [2] }

/-! ### Synthesizer (spec section 4.2)

Modelled from the spec: lower composite or multi-bit combinational nets to
single-bit {and, or, xor, not} gates plus the width-only primitives
{concatenation, bit-selection}; registers and memories are kept atomic.
Fresh wires (all of width 1) are allocated from a counter starting above
every existing wire id. -/

/-- Per-bit chain for a two-operand gate: for each bit `i`, select bit `i` of
both operands and apply the 1-bit gate.  Returns the generated nets, the ids
of the per-bit result wires (least significant first) and the next fresh id. -/
def binChain (op : Op) (a b : Nat) (f : Nat) : Nat → List Net × List Nat × Nat
  | 0 => ([], [], f)
  | i + 1 =>
    let r := binChain op a b f i
    (r.1 ++ [⟨.selg [i], [a], r.2.2⟩, ⟨.selg [i], [b], r.2.2 + 1⟩,
             ⟨op, [r.2.2, r.2.2 + 1], r.2.2 + 2⟩],
     r.2.1 ++ [r.2.2 + 2], r.2.2 + 3)

/-- Per-bit chain for a `not`: select each bit and invert it. -/
def notChain (a : Nat) (f : Nat) : Nat → List Net × List Nat × Nat
  | 0 => ([], [], f)
  | i + 1 =>
    let r := notChain a f i
    (r.1 ++ [⟨.selg [i], [a], r.2.2⟩, ⟨.notg 1, [r.2.2], r.2.2 + 1⟩],
     r.2.1 ++ [r.2.2 + 1], r.2.2 + 2)

/-- Ripple-carry chain for addition covering bits `0..i`: a half adder for
bit 0, full adders (xor/and/or clusters) above.  Returns the generated nets,
the sum-bit wire ids (least significant first), the carry-out wire id and the
next fresh id. -/
def addChain (a b : Nat) (f : Nat) : Nat → List Net × List Nat × Nat × Nat
  | 0 =>
    ([⟨.selg [0], [a], f⟩, ⟨.selg [0], [b], f + 1⟩,
      ⟨.xorg, [f, f + 1], f + 2⟩, ⟨.andg, [f, f + 1], f + 3⟩],
     [f + 2], f + 3, f + 4)
  | i + 1 =>
    let r := addChain a b f i
    let f' := r.2.2.2
    let c := r.2.2.1
    (r.1 ++ [⟨.selg [i + 1], [a], f'⟩, ⟨.selg [i + 1], [b], f' + 1⟩,
             ⟨.xorg, [f', f' + 1], f' + 2⟩, ⟨.xorg, [f' + 2, c], f' + 3⟩,
             ⟨.andg, [f', f' + 1], f' + 4⟩, ⟨.andg, [f' + 2, c], f' + 5⟩,
             ⟨.org, [f' + 4, f' + 5], f' + 6⟩],
     r.2.1 ++ [f' + 3], f' + 6, f' + 7)

/-- Expansion of a wide two-operand gate: per-bit chain plus the concatenation
reassembling the per-bit results onto the original output wire. -/
def expandBin (op : Op) (a b o f nb : Nat) : List Net × Nat :=
  let r := binChain op a b f nb
  (r.1 ++ [⟨.catg (List.replicate nb 1), r.2.1, o⟩], r.2.2)

def expandNot (a o f w : Nat) : List Net × Nat :=
  let r := notChain a f w
  (r.1 ++ [⟨.catg (List.replicate w 1), r.2.1, o⟩], r.2.2)

/-- Expansion of an `n+1`-bit addition (`m = n`): ripple-carry chain, then the
concatenation of the sum bits and the final carry onto the output wire. -/
def expandAdd (a b o f m : Nat) : List Net × Nat :=
  let r := addChain a b f m
  (r.1 ++ [⟨.catg (List.replicate (m + 2) 1), r.2.1 ++ [r.2.2.1], o⟩], r.2.2.2)

/-- Synthesize one net: 1-bit gates, concatenations, selections, registers and
memories are kept; wider gates and additions are expanded. -/
def synthNet (g : Graph) (f : Nat) (n : Net) : List Net × Nat :=
  match n.op with
  | .andg =>
    match n.ins with
    | [a, b] =>
      if widthOf g n.out = 1 then ([n], f)
      else expandBin .andg a b n.out f (widthOf g n.out)
    | _ => ([n], f)
  | .org =>
    match n.ins with
    | [a, b] =>
      if widthOf g n.out = 1 then ([n], f)
      else expandBin .org a b n.out f (widthOf g n.out)
    | _ => ([n], f)
  | .xorg =>
    match n.ins with
    | [a, b] =>
      if widthOf g n.out = 1 then ([n], f)
      else expandBin .xorg a b n.out f (widthOf g n.out)
    | _ => ([n], f)
  | .notg w =>
    match n.ins with
    | [a] => if w = 1 then ([n], f) else expandNot a n.out f w
    | _ => ([n], f)
  | .addg =>
    match n.ins with
    | [a, b] =>
      match widthOf g a with
      | 0 => ([n], f)
      | m + 1 => expandAdd a b n.out f m
    | _ => ([n], f)
  | _ => ([n], f)

def synthNets (g : Graph) : List Net → Nat → List Net × Nat
  | [], f => ([], f)
  | n :: ns, f =>
    let r1 := synthNet g f n
    let r2 := synthNets g ns r1.2
    (r1.1 ++ r2.1, r2.2)

/-- The 1-bit internal wires with ids `a, a+1, ..., b-1`. -/
def wiresOf (a b : Nat) : List Wire :=
  (List.range (b - a)).map (fun j => ⟨a + j, 1, .normal⟩)

/-- Modelled from the spec (section 4.2): the synthesis pass.  Rewrites every
composite net into its bit-sliced expansion over fresh 1-bit wires, keeping
registers and memories (and already-single-bit gates) untouched. -/
def synthesize (g : Graph) : Graph :=
  ⟨g.wires ++ wiresOf (maxWid g + 1) (synthNets g g.nets (maxWid g + 1)).2,
   (synthNets g g.nets (maxWid g + 1)).1, g.outputs⟩

/-! ### Optimizer (spec section 4.3)

Modelled from the spec: a fixed-point pipeline of constant propagation,
duplicate-net merging (common subexpressions) and dead-logic elimination.
Each sub-pass scans the nets once; the outer loop repeats the pipeline until
one full iteration performs zero mutations. -/

/-- The constant value carried by wire `i`, when `i` is a Const wire. -/
def constVal? (g : Graph) (i : Nat) : Option Nat :=
  match g.wire? i with
  | some w =>
    match w.kind with
    | .cst x => some (x % 2 ^ w.width)
    | _ => none
  | none => none

/-- The valuation holding exactly the Const wires' values. -/
def constList (g : Graph) : Val :=
  g.wires.filterMap (fun w =>
    match w.kind with
    | .cst x => some (w.wid, x % 2 ^ w.width)
    | _ => none)

/-- A (combinational) net whose inputs are all Const wires evaluates to this
constant; `none` when the net is not constant-foldable. -/
def cpropNet (g : Graph) (n : Net) : Option Nat :=
  evalNet (constList g) n

/-- The reassignments performed by constant propagation: output wire id and
computed constant of every constant-foldable net. -/
def cpropFolded (g : Graph) : List (Nat × Nat) :=
  g.nets.filterMap (fun n => (cpropNet g n).map (fun x => (n.out, x)))

/-- Constant propagation (one sweep): every net whose inputs are all Const
wires is evaluated and removed, and its output wire becomes a Const wire
carrying the computed value; consumers now read that Const directly. -/
def cprop (g : Graph) : Graph :=
  { wires := g.wires.map (fun w =>
      match List.find? (fun p => p.1 = w.wid) (cpropFolded g) with
      | some p => ⟨w.wid, w.width, .cst p.2⟩
      | none => w)
    nets := g.nets.filter (fun n => (cpropNet g n).isNone)
    outputs := g.outputs }

/-- Substitution of wire ids (used when consumers of a duplicate net's output
are rewired to the earlier net's output). -/
def substW (σ : List (Nat × Nat)) (i : Nat) : Nat :=
  match List.find? (fun p => p.1 = i) σ with
  | some p => p.2
  | none => i

def Net.subst (σ : List (Nat × Nat)) (n : Net) : Net :=
  ⟨n.op, n.ins.map (substW σ), n.out⟩

/-- Duplicate-net merging (one sweep): a combinational net with the same
operation and the same ordered inputs as an earlier kept net is removed and
all later consumers of its output are rewired to the earlier net's output.
Nets driving designated Output wires are kept. -/
def cseAux (outs : List Nat) : List Net → List Net → List (Nat × Nat) → List Net
  | [], _, _ => []
  | n :: ns, seen, σ =>
    match isCombB (n.subst σ).op && !(outs.contains (n.subst σ).out),
        List.find? (fun p => p.op = (n.subst σ).op ∧ p.ins = (n.subst σ).ins) seen with
    | true, some p => cseAux outs ns seen (((n.subst σ).out, p.out) :: σ)
    | true, none => n.subst σ :: cseAux outs ns (n.subst σ :: seen) σ
    | false, _ => n.subst σ :: cseAux outs ns (n.subst σ :: seen) σ

def cse (g : Graph) : Graph :=
  ⟨g.wires, cseAux g.outputs g.nets [] [], g.outputs⟩

/-- Dead-logic elimination (one sweep): a combinational net whose output wire
has zero consumers and is not a designated Output is removed. -/
def deadElim (g : Graph) : Graph :=
  ⟨g.wires,
   g.nets.filter (fun n =>
     !isCombB n.op || n.out ∈ g.outputs || g.nets.any (fun m => n.out ∈ m.ins)),
   g.outputs⟩

/-- One full iteration of the optimizer pipeline. -/
def optStep (g : Graph) : Graph := deadElim (cse (cprop g))

def optLoop : Nat → Graph → Graph
  | 0, g => g
  | fuel + 1, g =>
    if optStep g = g then g else optLoop fuel (optStep g)

/-- Modelled from the spec (section 4.3): the optimization pass, iterating the
pipeline of sub-passes to a fixed point.  A fuel of one more than the net
count always suffices (each mutating iteration removes at least one net). -/
def optimize (g : Graph) : Graph := optLoop (g.nets.length + 1) g

/-! ### Timing Analyzer (spec section 4.4)

Modelled from the spec: arrival time 0 at every timing source
(Input/Const/Register-output/Memory-output wire); each combinational net,
processed in topological (insertion) order, sets its output wire's arrival
time to the maximum of its input arrival times plus the net's delay.  The
predecessor achieving the maximum (earliest-listed on ties) is tracked for
critical-path reconstruction. -/

/-- Arrival-time state: the times recorded so far and, per combinational net
output, the input wire that achieved the maximum. -/
structure TState : Type where
  times : List (Nat × Nat)
  preds : List (Nat × Nat)
deriving DecidableEq, Repr

def lookupN (l : List (Nat × Nat)) (i : Nat) : Option Nat :=
  (List.find? (fun p => p.1 = i) l).map (fun p => p.2)

def listMax : List Nat → Nat
  | [] => 0
  | x :: xs => max x (listMax xs)

def arrStep (d : Op → Nat) (st : TState) (n : Net) : TState :=
  if isCombB n.op then
    match n.ins.mapM (lookupN st.times) with
    | some ts =>
      let m := listMax ts
      match List.find? (fun a => lookupN st.times a = some m) n.ins with
      | some p => ⟨(n.out, m + d n.op) :: st.times, (n.out, p) :: st.preds⟩
      | none => ⟨(n.out, m + d n.op) :: st.times, st.preds⟩
    | none => st
  else st

def initTimes (g : Graph) : List (Nat × Nat) :=
  g.wires.filterMap (fun w =>
    match w.kind with
    | .normal => none
    | _ => some (w.wid, 0))

def timingState (g : Graph) (d : Op → Nat) : TState :=
  g.nets.foldl (arrStep d) ⟨initTimes g, []⟩

/-- Arrival time of wire `i` under delay model `d`. -/
def arrival (g : Graph) (d : Op → Nat) (i : Nat) : Option Nat :=
  lookupN (timingState g d).times i

/-- Maximum combinational delay: the largest arrival time of any wire. -/
def maxDelay (g : Graph) (d : Op → Nat) : Nat :=
  listMax (g.wires.map (fun w => ((arrival g d w.wid).getD 0)))

/-- The sink wire: the first wire (in deterministic order) whose arrival time
attains the maximum combinational delay. -/
def sinkWire (g : Graph) (d : Op → Nat) : Nat :=
  match List.find? (fun w => (arrival g d w.wid).getD 0 = maxDelay g d) g.wires with
  | some w => w.wid
  | none => 0

/-- Follow max-predecessor links backward, producing the wire sequence from
the ultimate timing source to `i`. -/
def pathFrom (preds : List (Nat × Nat)) : Nat → Nat → List Nat
  | 0, i => [i]
  | fuel + 1, i =>
    match lookupN preds i with
    | some p => pathFrom preds fuel p ++ [i]
    | none => [i]

/-- The critical path: the wire sequence from a timing source to the sink
wire with the globally maximum arrival time. -/
def criticalPath (g : Graph) (d : Op → Nat) : List Nat :=
  pathFrom (timingState g d).preds g.nets.length (sinkWire g d)

/-- The unit delay model: every combinational net costs one delay unit. -/
def unitD : Op → Nat := fun _ => 1

/-- A purely combinational chain of `k` unit-delay nets: wire 0 is the Input,
net `i` is a 1-bit inverter from wire `i` to wire `i+1`. -/
def chainGraph (k : Nat) : Graph :=
  { wires := ⟨0, 1, .inp⟩ :: (List.range k).map (fun i => ⟨i + 1, 1, .normal⟩)
    nets := (List.range k).map (fun i => ⟨.notg 1, [i], i + 1⟩)
    outputs := [k] }

/-! ### Cyclicity check (spec sections 4.4 and 7)

Modelled from the spec: the Timing Analyzer topologically orders the
combinational subgraph and fails with `CyclicCombinationalLogic` when no
such order exists. -/

inductive TimingErr : Type
  | cyclicCombinationalLogic : TimingErr
deriving DecidableEq, Repr

def insAvailB (avail : List Nat) (n : Net) : Bool :=
  n.ins.all (fun a => avail.contains a)

def sourceIds (g : Graph) : List Nat :=
  (g.wires.filter (fun w =>
    match w.kind with
    | .normal => false
    | _ => true)).map (fun w => w.wid)

/-- Kahn-style topological ordering: repeatedly process every net whose
inputs are all available; fail when no remaining net is processable. -/
def kahnE : Nat → List Net → List Nat → Except TimingErr (List Net)
  | 0, rem, _ => if rem.isEmpty then .ok [] else .error .cyclicCombinationalLogic
  | fuel + 1, rem, avail =>
    if rem.isEmpty then .ok []
    else
      let ready := rem.filter (insAvailB avail)
      if ready.isEmpty then .error .cyclicCombinationalLogic
      else
        match kahnE fuel (rem.filter (fun n => !insAvailB avail n))
            (avail ++ ready.map (fun n => n.out)) with
        | .ok rest => .ok (ready ++ rest)
        | .error e => .error e

/-- The defensive structural check of the Timing Analyzer. -/
def timingSort (g : Graph) : Except TimingErr (List Net) :=
  kahnE g.nets.length g.nets (sourceIds g)

/-- A combinational dependence edge: net `m` produces (on a non-source wire)
one of the inputs of net `n`. -/
def edgeN (g : Graph) (m n : Net) : Prop :=
  m ∈ g.nets ∧ n ∈ g.nets ∧ m.out ∈ n.ins ∧ isSourceB g m.out = false

/-- The purely combinational subgraph contains a cycle: some net reaches
itself through one or more dependence edges. -/
def HasCombCycle (g : Graph) : Prop :=
  ∃ n, Relation.TransGen (edgeN g) n n

/-! ### Area Estimator (spec section 4.5)

Modelled from the spec: logic area is the sum, over combinational nets, of a
per-gate-type unit cost, scaled linearly by the technology parameter; memory
area is a per-bit cost summed over Register/Memory primitives, scaled the
same way. -/

def logicCost : Op → ℚ
  | .andg => 1
  | .org => 1
  | .xorg => 3 / 2
  | .notg _ => 1 / 2
  | .catg _ => 0
  | .selg _ => 0
  | .addg => 4
  | .regg => 0
  | .memg => 0

def memCost (g : Graph) (n : Net) : ℚ :=
  match n.op with
  | .regg => 4 * (widthOf g n.out : ℚ)
  | .memg => 16 * (widthOf g n.out : ℚ)
  | _ => 0

/-- Modelled from the spec (section 4.5): returns the pair
(logic area, memory area) for technology parameter `tech`. -/
def area_estimation (g : Graph) (tech : ℚ) : ℚ × ℚ :=
  (tech * (g.nets.map (fun n => logicCost n.op)).sum,
   tech * (g.nets.map (memCost g)).sum)

/-! ### Front-end construction steps used by the notebook (spec sections 4.1
and 6): adding wires and nets with structural checks, the addition operator
of the construction API, and Output designation. -/

inductive SErr : Type
  | duplicateName : SErr
  | multipleDrivers : SErr
  | widthMismatch : SErr
  | missingWire : SErr
deriving DecidableEq, Repr

/-- Modelled from the spec (section 4.1): add a wire; fails with
DuplicateName when the id collides. -/
def addWire (g : Graph) (w : Wire) : Except SErr Graph :=
  if hasWire g w.wid then .error .duplicateName
  else .ok ⟨g.wires ++ [w], g.nets, g.outputs⟩

/-- Modelled from the spec (section 4.1): add a net; fails with WidthMismatch
when operand widths violate the operation contract and with MultipleDrivers
when the output wire already has a producer. -/
def addNet (g : Graph) (n : Net) : Except SErr Graph :=
  if ¬ netOkB g n then .error .widthMismatch
  else if g.nets.any (fun m => m.out = n.out) then .error .multipleDrivers
  else .ok ⟨g.wires, g.nets ++ [n], g.outputs⟩

/-- Modelled from the spec (front-end `+` operator, out of core scope but
fixed by the concrete scenario of section 8): adding two wires of the same
bitwidth `n` produces a fresh result wire of bitwidth `n + 1` driven by an
addition net. -/
def frontAdd (g : Graph) (a b : Nat) : Except SErr (Graph × Nat) :=
  match g.wire? a, g.wire? b with
  | some wa, some wb =>
    if wa.width = wb.width then
      let o := maxWid g + 1
      match addWire g ⟨o, wa.width + 1, .normal⟩ with
      | .ok g1 =>
        match addNet g1 ⟨.addg, [a, b], o⟩ with
        | .ok g2 => .ok (g2, o)
        | .error e => .error e
      | .error e => .error e
    else .error .widthMismatch
  | _, _ => .error .missingWire

/-- Modelled from the spec (front-end `Output(bitwidth=w)` plus `<<=`):
designate wire `i` as an Output of declared width `w`; fails with
WidthMismatch when the driving wire's width differs. -/
def markOutput (g : Graph) (i w : Nat) : Except SErr Graph :=
  match g.wire? i with
  | some wi =>
    if wi.width = w then .ok ⟨g.wires, g.nets, g.outputs ++ [i]⟩
    else .error .widthMismatch
  | none => .error .missingWire

/-- The notebook's construction sequence: Const(6, 4), Input(4), their sum,
designated as a 5-bit Output. -/
def buildExample : Except SErr Graph :=
  match addWire ⟨[], [], []⟩ ⟨0, 4, .cst 6⟩ with
  | .ok g0 =>
    match addWire g0 ⟨1, 4, .inp⟩ with
    | .ok g1 =>
      match frontAdd g1 0 1 with
      | .ok r => markOutput r.1 r.2 5
      | .error e => .error e
    | .error e => .error e
  | .error e => .error e

/-! ## Basic lemmas -/

theorem runNets_append (l1 l2 : List Net) (v : Val) :
    runNets (l1 ++ l2) v = runNets l2 (runNets l1 v) := by
  simp [runNets, List.foldl_append]

theorem runNets_cons (n : Net) (l : List Net) (v : Val) :
    runNets (n :: l) v = runNets l (stepNet n v) := rfl

theorem foldl_max_init (l : List Wire) (b : Nat) :
    b ≤ List.foldl (fun a (w : Wire) => max a w.wid) b l := by
  induction l generalizing b with
  | nil => simp
  | cons y ys ihy => exact le_trans (le_max_left b y.wid) (ihy (max b y.wid))

theorem foldl_max_mem (l : List Wire) (w : Wire) (hw : w ∈ l) (b : Nat) :
    w.wid ≤ List.foldl (fun a (w : Wire) => max a w.wid) b l := by
  induction l generalizing b with
  | nil => cases hw
  | cons x xs ih =>
    rcases List.mem_cons.mp hw with h | h
    · subst h
      exact le_trans (le_max_right b w.wid) (foldl_max_init xs (max b w.wid))
    · exact ih h (max b x.wid)

theorem maxWid_mem (g : Graph) (w : Wire) (hw : w ∈ g.wires) : w.wid ≤ maxWid g :=
  foldl_max_mem g.wires w hw 0

theorem wire?_mem (g : Graph) (i : Nat) (w : Wire) (h : g.wire? i = some w) :
    w ∈ g.wires ∧ w.wid = i := by
  unfold Graph.wire? at h
  refine ⟨List.mem_of_find?_eq_some h, ?_⟩
  have := List.find?_some h
  simpa using this

theorem wire?_le_maxWid (g : Graph) (i : Nat) (w : Wire) (h : g.wire? i = some w) :
    i ≤ maxWid g := by
  obtain ⟨hm, hi⟩ := wire?_mem g i w h
  simpa [hi] using maxWid_mem g w hm

theorem wire?_none_of_gt (g : Graph) (i : Nat) (h : maxWid g < i) : g.wire? i = none := by
  cases hfind : g.wire? i with
  | none => rfl
  | some w => exact absurd (wire?_le_maxWid g i w hfind) (by omega)

/-! ## Area Estimator: claim C5 -/

theorem logicCost_nonneg (o : Op) : 0 ≤ logicCost o := by
  cases o <;> simp [logicCost] <;> norm_num

theorem memCost_nonneg (g : Graph) (n : Net) : 0 ≤ memCost g n := by
  unfold memCost
  cases n.op <;> simp

/-- Claim C5: for a fixed netlist the Area Estimator scales linearly in the
technology parameter (area at `2 * x` is componentwise twice the area at
`x`), returns a pair of non-negative components, and returns memory area
zero when the graph contains no Register or Memory primitive. -/
theorem area_estimation_linear (g : Graph) (x : ℚ) (hx : 0 ≤ x) :
    area_estimation g (2 * x) =
      (2 * (area_estimation g x).1, 2 * (area_estimation g x).2) ∧
    0 ≤ (area_estimation g x).1 ∧ 0 ≤ (area_estimation g x).2 ∧
    ((∀ n ∈ g.nets, n.op ≠ .regg ∧ n.op ≠ .memg) → (area_estimation g x).2 = 0) := by
  refine ⟨?_, ?_, ?_, ?_⟩
  · simp [area_estimation]
    constructor <;> ring
  · exact mul_nonneg hx (List.sum_nonneg (by
      intro q hq
      simp only [List.mem_map] at hq
      obtain ⟨n, _, rfl⟩ := hq
      exact logicCost_nonneg n.op))
  · exact mul_nonneg hx (List.sum_nonneg (by
      intro q hq
      simp only [List.mem_map] at hq
      obtain ⟨n, _, rfl⟩ := hq
      exact memCost_nonneg g n))
  · intro h
    have : (g.nets.map (memCost g)).sum = 0 := by
      apply List.sum_eq_zero
      intro q hq
      simp only [List.mem_map] at hq
      obtain ⟨n, hn, rfl⟩ := hq
      obtain ⟨h1, h2⟩ := h n hn
      unfold memCost
      cases hop : n.op <;> simp_all
    simp [area_estimation, this]

theorem area_estimation_linear_witness :
    0 ≤ (65 : ℚ) ∧
    (area_estimation exampleGraph (2 * 65) =
      (2 * (area_estimation exampleGraph 65).1, 2 * (area_estimation exampleGraph 65).2) ∧
    0 ≤ (area_estimation exampleGraph 65).1 ∧ 0 ≤ (area_estimation exampleGraph 65).2 ∧
    ((∀ n ∈ exampleGraph.nets, n.op ≠ .regg ∧ n.op ≠ .memg) →
      (area_estimation exampleGraph 65).2 = 0)) :=
  ⟨by norm_num, area_estimation_linear exampleGraph 65 (by norm_num)⟩

/-! ## Well-formedness projections -/

theorem wf_parts (g : Graph) (h : g.WF) :
    nodupB (g.wires.map (fun w => w.wid)) = true ∧
    nodupB (g.nets.map (fun n => n.out)) = true ∧
    (∀ w ∈ g.wires, 1 ≤ w.width) ∧
    (∀ n ∈ g.nets, netOkB g n = true) ∧
    topoB g g.nets [] = true ∧
    (∀ o ∈ g.outputs, hasWire g o = true) := by
  unfold Graph.WF Graph.wfB at h
  simp only [Bool.and_eq_true, List.all_eq_true, decide_eq_true_eq] at h
  tauto

theorem netOk_out_hasWire (g : Graph) (n : Net) (h : netOkB g n = true) :
    hasWire g n.out = true := by
  cases hw : g.wire? n.out with
  | some w => simp [hasWire, hw]
  | none =>
    exfalso
    unfold netOkB at h
    split at h <;> (try split at h) <;> simp_all [kindIs, hw]

theorem hasWire_le_maxWid (g : Graph) (i : Nat) (h : hasWire g i = true) :
    i ≤ maxWid g := by
  unfold hasWire at h
  cases hw : g.wire? i with
  | some w => exact wire?_le_maxWid g i w hw
  | none => rw [hw] at h; cases h

/-! ## Front-end construction: claim C10 -/

theorem wire?_append_wires (ws1 ws2 : List Wire) (ns : List Net) (os : List Nat) (i : Nat) :
    Graph.wire? ⟨ws1 ++ ws2, ns, os⟩ i =
      (List.find? (fun w => w.wid = i) ws1).or (List.find? (fun w => w.wid = i) ws2) := by
  simp [Graph.wire?, List.find?_append]

/-- Claim C10: combining two wires of the same bitwidth `n` with the front
end's addition operator yields a result wire of bitwidth `n + 1`, and in
particular the notebook's construction (4-bit Const plus 4-bit Input feeding
an addition that drives a 5-bit Output) succeeds with no WidthMismatch,
producing exactly `exampleGraph`. -/
theorem frontAdd_width (g : Graph) (a b : Nat) (wa wb : Wire) (hwf : g.WF)
    (ha : g.wire? a = some wa) (hb : g.wire? b = some wb) (hw : wa.width = wb.width) :
    (∃ g2, frontAdd g a b = Except.ok (g2, maxWid g + 1) ∧
      widthOf g2 (maxWid g + 1) = wa.width + 1) ∧
    buildExample = Except.ok exampleGraph := by
  constructor
  · set o := maxWid g + 1 with ho
    have hno : g.wire? o = none := wire?_none_of_gt g o (by omega)
    have hafind : List.find? (fun w => w.wid = a) g.wires = some wa := ha
    have hbfind : List.find? (fun w => w.wid = b) g.wires = some wb := hb
    have hnofind : List.find? (fun w => w.wid = o) g.wires = none := hno
    set w0 : Wire := ⟨o, wa.width + 1, .normal⟩ with hw0
    set g1 : Graph := ⟨g.wires ++ [w0], g.nets, g.outputs⟩ with hg1
    set nn : Net := ⟨.addg, [a, b], o⟩ with hnn
    set g2 : Graph := ⟨g.wires ++ [w0], g.nets ++ [nn], g.outputs⟩ with hg2
    have hw1a : g1.wire? a = some wa := by
      rw [hg1, wire?_append_wires, hafind]; rfl
    have hw1b : g1.wire? b = some wb := by
      rw [hg1, wire?_append_wires, hbfind]; rfl
    have hw1o : g1.wire? o = some w0 := by
      rw [hg1, wire?_append_wires, hnofind]
      simp [Option.or, hw0]
    have hok : netOkB g1 nn = true := by
      unfold netOkB
      rw [hnn]
      simp only [hasWire, kindIs, widthOf, hw1a, hw1b, hw1o, Option.isSome_some, hw0, hw,
        Bool.and_eq_true, decide_eq_true_eq]
      simp
    have hnodriver : g1.nets.any (fun m => m.out = o) = false := by
      rw [List.any_eq_false]
      intro n hn
      simp only [decide_eq_true_eq]
      intro hout
      have hok2 := (wf_parts g hwf).2.2.2.1 n hn
      have := hasWire_le_maxWid g n.out (netOk_out_hasWire g n hok2)
      omega
    have haddw : addWire g w0 = .ok g1 := by
      unfold addWire
      simp [hasWire, hno, hg1]
    have haddn : addNet g1 nn = .ok g2 := by
      unfold addNet
      rw [hok, hnodriver]
      simp [hg2, hg1, hnn]
    refine ⟨g2, ?_, ?_⟩
    · unfold frontAdd
      rw [ha, hb]
      dsimp only
      rw [if_pos hw, ← hw0, haddw]
      dsimp only
      rw [← hnn, haddn]
    · have : g2.wire? o = some w0 := by
        rw [hg2, wire?_append_wires, hnofind]
        simp [Option.or, hw0]
      simp [widthOf, this, hw0]
  · rfl

theorem frontAdd_width_witness :
    exampleGraph.WF ∧ exampleGraph.wire? 0 = some ⟨0, 4, .cst 6⟩ ∧
    exampleGraph.wire? 1 = some ⟨1, 4, .inp⟩ ∧
    (Wire.mk 0 4 (.cst 6)).width = (Wire.mk 1 4 .inp).width ∧
    ((∃ g2, frontAdd exampleGraph 0 1 = Except.ok (g2, maxWid exampleGraph + 1) ∧
      widthOf g2 (maxWid exampleGraph + 1) = (Wire.mk 0 4 (.cst 6)).width + 1) ∧
    buildExample = Except.ok exampleGraph) :=
  ⟨by decide, by decide, by decide, by decide,
   frontAdd_width exampleGraph 0 1 ⟨0, 4, .cst 6⟩ ⟨1, 4, .inp⟩
     (by decide) (by decide) (by decide) (by decide)⟩

/-! ## Optimizer counting and fixed point: claims C6 and C8 -/

theorem cprop_nets_le (g : Graph) : (cprop g).nets.length ≤ g.nets.length :=
  List.length_filter_le _ _

theorem cseAux_length_le (outs : List Nat) :
    ∀ (ns seen : List Net) (σ : List (Nat × Nat)),
      (cseAux outs ns seen σ).length ≤ ns.length := by
  intro ns
  induction ns with
  | nil => intro seen σ; simp [cseAux]
  | cons n ns ih =>
    intro seen σ
    unfold cseAux
    split
    · exact le_trans (ih _ _) (Nat.le_succ _)
    · simpa using Nat.succ_le_succ (ih _ _)
    · simpa using Nat.succ_le_succ (ih _ _)

theorem cse_nets_le (g : Graph) : (cse g).nets.length ≤ g.nets.length :=
  cseAux_length_le g.outputs g.nets [] []

theorem deadElim_nets_le (g : Graph) : (deadElim g).nets.length ≤ g.nets.length :=
  List.length_filter_le _ _

theorem optStep_nets_le (g : Graph) : (optStep g).nets.length ≤ g.nets.length := by
  unfold optStep
  calc (deadElim (cse (cprop g))).nets.length
      ≤ (cse (cprop g)).nets.length := deadElim_nets_le _
    _ ≤ (cprop g).nets.length := cse_nets_le _
    _ ≤ g.nets.length := cprop_nets_le _

theorem substW_nil (i : Nat) : substW [] i = i := by
  simp [substW, List.find?]

theorem Net.subst_nil (n : Net) : Net.subst [] n = n := by
  unfold Net.subst
  rw [List.map_id'' substW_nil]

theorem cprop_eq_of_length (g : Graph) (h : (cprop g).nets.length = g.nets.length) :
    cprop g = g := by
  have hall : ∀ n ∈ g.nets, (cpropNet g n).isNone = true := by
    have := (List.filter_length_eq_length (p := fun n => (cpropNet g n).isNone)
      (l := g.nets)).mp h
    simpa using this
  have hfolded : cpropFolded g = [] := by
    unfold cpropFolded
    rw [List.filterMap_eq_nil_iff]
    intro n hn
    have := hall n hn
    cases hcp : cpropNet g n with
    | none => rfl
    | some x => rw [hcp] at this; simp at this
  have hmap : g.wires.map (fun w =>
      match List.find? (fun p => p.1 = w.wid) ([] : List (Nat × Nat)) with
      | some p => Wire.mk w.wid w.width (.cst p.2)
      | none => w) = g.wires := by
    apply List.map_id''
    intro w
    simp [List.find?]
  have hfilter : g.nets.filter (fun n => (cpropNet g n).isNone) = g.nets := by
    rw [List.filter_eq_self]
    intro n hn
    exact hall n hn
  unfold cprop
  rw [hfolded, hmap, hfilter]

theorem cseAux_eq_of_length (outs : List Nat) :
    ∀ (ns seen : List Net) (σ : List (Nat × Nat)),
      (cseAux outs ns seen σ).length = ns.length →
      cseAux outs ns seen σ = ns.map (Net.subst σ) := by
  intro ns
  induction ns with
  | nil => intro seen σ _; simp [cseAux]
  | cons n ns ih =>
    intro seen σ h
    unfold cseAux at h ⊢
    split at h
    · rename_i p heq1 heq2
      exfalso
      have hle := cseAux_length_le outs ns seen (((Net.subst σ n).out, p.out) :: σ)
      rw [List.length_cons] at h
      omega
    · simp only [List.length_cons, Nat.add_right_cancel_iff] at h
      rw [List.map_cons, ih _ _ h]
    · simp only [List.length_cons, Nat.add_right_cancel_iff] at h
      rw [List.map_cons, ih _ _ h]

theorem cse_eq_of_length (g : Graph) (h : (cse g).nets.length = g.nets.length) :
    cse g = g := by
  have : cseAux g.outputs g.nets [] [] = g.nets.map (Net.subst []) :=
    cseAux_eq_of_length g.outputs g.nets [] [] h
  unfold cse
  rw [this, List.map_id'' Net.subst_nil]

theorem deadElim_eq_of_length (g : Graph)
    (h : (deadElim g).nets.length = g.nets.length) : deadElim g = g := by
  have hall := (List.filter_length_eq_length.mp h)
  unfold deadElim
  rw [List.filter_eq_self.mpr hall]

theorem optStep_eq_of_length (g : Graph)
    (h : (optStep g).nets.length = g.nets.length) : optStep g = g := by
  have h1 : (cprop g).nets.length = g.nets.length := by
    have := cprop_nets_le g
    have := cse_nets_le (cprop g)
    have := deadElim_nets_le (cse (cprop g))
    unfold optStep at h
    omega
  have hc : cprop g = g := cprop_eq_of_length g h1
  unfold optStep at h ⊢
  rw [hc] at h ⊢
  have h2 : (cse g).nets.length = g.nets.length := by
    have := cse_nets_le g
    have := deadElim_nets_le (cse g)
    omega
  have hs : cse g = g := cse_eq_of_length g h2
  rw [hs] at h ⊢
  exact deadElim_eq_of_length g h

theorem optStep_lt_of_ne (g : Graph) (h : optStep g ≠ g) :
    (optStep g).nets.length < g.nets.length := by
  rcases Nat.lt_or_ge (optStep g).nets.length g.nets.length with hlt | hge
  · exact hlt
  · exact absurd (optStep_eq_of_length g (Nat.le_antisymm (optStep_nets_le g) hge)) h

theorem optLoop_fix (fuel : Nat) :
    ∀ g : Graph, g.nets.length < fuel → optStep (optLoop fuel g) = optLoop fuel g := by
  induction fuel with
  | zero => intro g h; omega
  | succ fuel ih =>
    intro g h
    unfold optLoop
    by_cases hfix : optStep g = g
    · rw [if_pos hfix, hfix]
    · rw [if_neg hfix]
      exact ih (optStep g) (by
        have := optStep_lt_of_ne g hfix
        omega)

theorem optimize_is_fix (g : Graph) : optStep (optimize g) = optimize g :=
  optLoop_fix (g.nets.length + 1) g (by omega)

/-- Claim C6: the optimize pass is idempotent — optimizing an already
optimized graph returns it unchanged (same nets, wires and outputs), because
the fixed-point loop stops as soon as one full iteration mutates nothing. -/
theorem optimize_idempotent (g : Graph) : optimize (optimize g) = optimize g := by
  have h : optStep (optLoop (g.nets.length + 1) g) = optLoop (g.nets.length + 1) g :=
    optimize_is_fix g
  conv_lhs => unfold optimize optLoop
  rw [if_pos h]
  rfl

theorem iterate_fix_of_fix (k : Nat) (g : Graph) (h : optStep g = g) :
    optStep^[k] g = g := by
  induction k with
  | zero => rfl
  | succ k ih => rw [Function.iterate_succ_apply, h, ih]

theorem iterate_optStep_fix (k : Nat) :
    ∀ g : Graph, g.nets.length ≤ k → optStep (optStep^[k] g) = optStep^[k] g := by
  induction k with
  | zero =>
    intro g h
    have h0 : (optStep g).nets.length = g.nets.length := by
      have := optStep_nets_le g
      omega
    simpa using optStep_eq_of_length g h0
  | succ k ih =>
    intro g h
    rw [Function.iterate_succ_apply]
    by_cases hfix : optStep g = g
    · rw [hfix, iterate_fix_of_fix k g hfix, hfix]
    · exact ih (optStep g) (by
        have := optStep_lt_of_ne g hfix
        omega)

/-- Claim C8: the net count never increases across any optimizer sub-pass
(constant propagation, duplicate merging, dead-logic elimination) nor across
a full pipeline iteration, and the fixed-point loop terminates within a
number of iterations bounded by the initial net count: after at most
`g.nets.length` applications of the pipeline, a further application mutates
nothing. -/
theorem optimizer_monotone_terminates (g : Graph) :
    ((cprop g).nets.length ≤ g.nets.length ∧
     (cse g).nets.length ≤ g.nets.length ∧
     (deadElim g).nets.length ≤ g.nets.length ∧
     (optStep g).nets.length ≤ g.nets.length) ∧
    optStep (optStep^[g.nets.length] g) = optStep^[g.nets.length] g :=
  ⟨⟨cprop_nets_le g, cse_nets_le g, deadElim_nets_le g, optStep_nets_le g⟩,
   iterate_optStep_fix g.nets.length g (Nat.le_refl _)⟩

/-! ## The synthesized form: single-bit gates only -/

/-- One net is in bit-blasted form: {and,or,xor,not} gates have 1-bit
operands and result, selection/concatenation/register/memory nets are
allowed as-is, and composite additions are forbidden. -/
def netBitOkB (g : Graph) (n : Net) : Bool :=
  match n.op with
  | .andg => n.ins.all (fun a => widthOf g a = 1) && (widthOf g n.out = 1)
  | .org => n.ins.all (fun a => widthOf g a = 1) && (widthOf g n.out = 1)
  | .xorg => n.ins.all (fun a => widthOf g a = 1) && (widthOf g n.out = 1)
  | .notg w => (w = 1) && n.ins.all (fun a => widthOf g a = 1) && (widthOf g n.out = 1)
  | .selg _ => true
  | .catg _ => true
  | .regg => true
  | .memg => true
  | .addg => false

/-- Every net of the graph is in bit-blasted form. -/
def bitBlastedB (g : Graph) : Bool := g.nets.all (netBitOkB g)

/-! ## The concrete scenario: claim C2 -/

/-- Claim C2 counterexample: on the notebook's graph (4-bit Const 6 plus
4-bit Input into a 5-bit Output), the synthesized net set contains
bit-selection nets (not only 1-bit gates and concatenation), and a
subsequent optimize DOES reduce the net count (the bit-selections of the
constant operand are constant-folded), contradicting the claim that no
further reduction occurs. -/
theorem example_optimize_reduces :
    ((synthesize exampleGraph).nets.any
      (fun n => match n.op with | .selg _ => true | _ => false) = true) ∧
    ¬ ((optimize (synthesize exampleGraph)).nets.length =
        (synthesize exampleGraph).nets.length) := by
  constructor
  · decide
  · decide

/-- Claim C2 (amended): after synthesize, the net set of the example graph
consists only of 1-bit {and,or,xor,not} gates, bit selections and
concatenations (the ripple-carry form); a subsequent optimize strictly
reduces the net count (folding the constant operand's bit selections; the
addition itself cannot be constant-folded since one operand is a non-constant
Input); and for all 16 Input values the Output equals 6 + Input before
synthesis, after synthesis and after optimization. -/
theorem example_synth_behavior :
    bitBlastedB (synthesize exampleGraph) = true ∧
    (optimize (synthesize exampleGraph)).nets.length <
      (synthesize exampleGraph).nets.length ∧
    (∀ v : Fin 16,
      behavior exampleGraph (fun _ => v.1) = [some (6 + v.1)] ∧
      behavior (synthesize exampleGraph) (fun _ => v.1) = [some (6 + v.1)] ∧
      behavior (optimize (synthesize exampleGraph)) (fun _ => v.1) = [some (6 + v.1)]) := by
  refine ⟨by decide, by decide, by decide⟩

/-! ## Timing analysis: claim C4 -/

theorem nodupB_cons (x : Nat) (xs : List Nat) :
    nodupB (x :: xs) = true ↔ x ∉ xs ∧ nodupB xs = true := by
  simp [nodupB, List.contains]

theorem topoB_cons (g : Graph) (n : Net) (ns : List Net) (A : List Nat) :
    topoB g (n :: ns) A = true ↔
      (∀ a ∈ n.ins, isSourceB g a = true ∨ a ∈ A) ∧ topoB g ns (n.out :: A) = true := by
  simp [topoB, List.all_eq_true, List.contains]

theorem lookupN_cons (p : Nat × Nat) (l : List (Nat × Nat)) (i : Nat) :
    lookupN (p :: l) i = if p.1 = i then some p.2 else lookupN l i := by
  unfold lookupN
  rcases h : (decide (p.1 = i)) with _ | _
  · simp only [List.find?]
    rw [h]
    simp only [decide_eq_false_iff_not] at h
    rw [if_neg h]
  · simp only [List.find?]
    rw [h]
    simp only [decide_eq_true_eq] at h
    rw [if_pos h]
    rfl

theorem lookupN_filterMap_not_mem (e : Wire → Option (Nat × Nat))
    (hk : ∀ w p, e w = some p → p.1 = w.wid) :
    ∀ (ws : List Wire) (i : Nat), (∀ w ∈ ws, w.wid ≠ i) →
      lookupN (ws.filterMap e) i = none := by
  intro ws
  induction ws with
  | nil => intro i _; rfl
  | cons w ws ih =>
    intro i hne
    rw [List.filterMap_cons]
    cases he : e w with
    | none => exact ih i (fun w' hw' => hne w' (List.mem_cons_of_mem w hw'))
    | some p =>
      rw [lookupN_cons]
      rw [if_neg (by
        rw [hk w p he]
        exact hne w (List.mem_cons_self w ws))]
      exact ih i (fun w' hw' => hne w' (List.mem_cons_of_mem w hw'))

theorem lookupN_filterMap (e : Wire → Option (Nat × Nat))
    (hk : ∀ w p, e w = some p → p.1 = w.wid) :
    ∀ (ws : List Wire) (i : Nat),
      nodupB (ws.map (fun w => w.wid)) = true →
      lookupN (ws.filterMap e) i =
        (match List.find? (fun w => w.wid = i) ws with
         | some w => (e w).map (fun p => p.2)
         | none => none) := by
  intro ws
  induction ws with
  | nil => intro i _; rfl
  | cons w ws ih =>
    intro i hnd
    rw [List.map_cons] at hnd
    obtain ⟨hnotin, hnd'⟩ := (nodupB_cons _ _).mp hnd
    rw [List.filterMap_cons]
    by_cases hwid : w.wid = i
    · rw [List.find?_cons_of_pos _ (by simpa using hwid)]
      show _ = Option.map (fun p => p.2) (e w)
      cases he : e w with
      | none =>
        rw [Option.map_none']
        apply lookupN_filterMap_not_mem e hk
        intro w' hw' hwe
        refine hnotin ?_
        have hww : w'.wid = w.wid := by rw [hwe, hwid]
        rw [← hww]
        exact List.mem_map_of_mem (fun w => w.wid) hw'
      | some p =>
        rw [lookupN_cons, if_pos (by rw [hk w p he, hwid])]
        rfl
    · rw [List.find?_cons_of_neg _ (by simpa using hwid)]
      cases he : e w with
      | none => exact ih i hnd'
      | some p =>
        rw [lookupN_cons, if_neg (by rw [hk w p he]; exact hwid)]
        exact ih i hnd'

theorem mapM_lookup_isSome (f : Nat → Option Nat) :
    ∀ (l : List Nat), (∀ a ∈ l, (f a).isSome = true) →
      ∃ ts, l.mapM f = some ts := by
  intro l
  induction l with
  | nil => intro _; exact ⟨[], rfl⟩
  | cons a l ih =>
    intro h
    obtain ⟨x, hx⟩ := Option.isSome_iff_exists.mp (h a (List.mem_cons_self a l))
    obtain ⟨ts, hts⟩ := ih (fun a' ha' => h a' (List.mem_cons_of_mem a ha'))
    exact ⟨x :: ts, by rw [List.mapM_cons, hx, hts]; rfl⟩

theorem kindIs_normal_not_source (g : Graph) (i : Nat)
    (h : kindIs g i .normal = true) : isSourceB g i = false := by
  unfold kindIs at h
  unfold isSourceB
  cases hw : g.wire? i with
  | none => rw [hw] at h
  | some w =>
    rw [hw] at h
    simp only [decide_eq_true_eq] at h
    show (match w.kind with
      | WK.normal => false
      | _ => true) = false
    rw [h]

theorem kindIs_not_normal_source (g : Graph) (i : Nat) (k : WK) (hk : k ≠ .normal)
    (h : kindIs g i k = true) : isSourceB g i = true := by
  unfold kindIs at h
  unfold isSourceB
  cases hw : g.wire? i with
  | none => rw [hw] at h; exact Bool.noConfusion h
  | some w =>
    rw [hw] at h
    simp only [decide_eq_true_eq] at h
    show (match w.kind with
      | WK.normal => false
      | _ => true) = true
    rw [h]
    cases k with
    | normal => exact absurd rfl hk
    | inp => rfl
    | cst x => rfl
    | regOut => rfl
    | memOut => rfl

theorem netOk_comb_out_kind (g : Graph) (n : Net) (hok : netOkB g n = true)
    (hcomb : isCombB n.op = true) : kindIs g n.out .normal = true := by
  obtain ⟨op, ins, o⟩ := n
  cases op with
  | andg =>
    simp only [netOkB] at hok
    split at hok
    · simp only [Bool.and_eq_true] at hok
      exact hok.1.1.2
    · cases hok
  | org =>
    simp only [netOkB] at hok
    split at hok
    · simp only [Bool.and_eq_true] at hok
      exact hok.1.1.2
    · cases hok
  | xorg =>
    simp only [netOkB] at hok
    split at hok
    · simp only [Bool.and_eq_true] at hok
      exact hok.1.1.2
    · cases hok
  | notg w =>
    simp only [netOkB] at hok
    split at hok
    · simp only [Bool.and_eq_true] at hok
      exact hok.1.1.2
    · cases hok
  | addg =>
    simp only [netOkB] at hok
    split at hok
    · simp only [Bool.and_eq_true] at hok
      exact hok.1.1.2
    · cases hok
  | selg bits =>
    simp only [netOkB] at hok
    split at hok
    · simp only [Bool.and_eq_true] at hok
      exact hok.1.1.2
    · cases hok
  | catg ws =>
    simp only [netOkB, Bool.and_eq_true] at hok
    exact hok.1.1.1.2
  | regg => simp [isCombB] at hcomb
  | memg => simp [isCombB] at hcomb

theorem netOk_comb_out_not_source (g : Graph) (n : Net) (hok : netOkB g n = true)
    (hcomb : isCombB n.op = true) : isSourceB g n.out = false :=
  kindIs_normal_not_source g n.out (netOk_comb_out_kind g n hok hcomb)

theorem netOk_seq_out_source (g : Graph) (n : Net) (hok : netOkB g n = true)
    (hseq : isCombB n.op = false) : isSourceB g n.out = true := by
  obtain ⟨op, ins, o⟩ := n
  cases op with
  | andg => simp [isCombB] at hseq
  | org => simp [isCombB] at hseq
  | xorg => simp [isCombB] at hseq
  | notg w => simp [isCombB] at hseq
  | addg => simp [isCombB] at hseq
  | selg bits => simp [isCombB] at hseq
  | catg ws => simp [isCombB] at hseq
  | regg =>
    simp only [netOkB] at hok
    split at hok
    · simp only [Bool.and_eq_true] at hok
      exact kindIs_not_normal_source g o .regOut (by simp) hok.1.2
    · cases hok
  | memg =>
    simp only [netOkB, Bool.and_eq_true] at hok
    exact kindIs_not_normal_source g o .memOut (by simp) hok.2

theorem mapM_congr (f h : Nat → Option Nat) :
    ∀ (l : List Nat), (∀ a ∈ l, f a = h a) → l.mapM f = l.mapM h := by
  intro l
  induction l with
  | nil => intro _; rfl
  | cons a l ih =>
    intro hm
    rw [List.mapM_cons, List.mapM_cons, hm a (List.mem_cons_self a l),
      ih (fun a' ha' => hm a' (List.mem_cons_of_mem a ha'))]

theorem arrStep_seq (d : Op → Nat) (st : TState) (n : Net)
    (h : isCombB n.op = false) : arrStep d st n = st := by
  unfold arrStep
  rw [h]
  simp

theorem arrStep_times_comb (d : Op → Nat) (st : TState) (n : Net) (ts : List Nat)
    (hcomb : isCombB n.op = true)
    (hts : n.ins.mapM (lookupN st.times) = some ts) :
    (arrStep d st n).times = (n.out, listMax ts + d n.op) :: st.times := by
  unfold arrStep
  rw [hcomb, hts]
  simp only [if_true]
  cases List.find? (fun a => lookupN st.times a = some (listMax ts)) n.ins <;> rfl

theorem arr_run (g : Graph) (d : Op → Nat) :
    ∀ (ns : List Net) (A : List Nat) (st : TState),
      topoB g ns A = true →
      (∀ n ∈ ns, netOkB g n = true) →
      nodupB (ns.map (fun n => n.out)) = true →
      (∀ n ∈ ns, isCombB n.op = true → n.out ∉ A) →
      (∀ a, isSourceB g a = true ∨ a ∈ A → (lookupN st.times a).isSome = true) →
      ((∀ a, (isSourceB g a = true ∨ a ∈ A) →
          lookupN (List.foldl (arrStep d) st ns).times a = lookupN st.times a) ∧
       (∀ n ∈ ns, isCombB n.op = true →
         ∃ ts, n.ins.mapM (lookupN (List.foldl (arrStep d) st ns).times) = some ts ∧
           lookupN (List.foldl (arrStep d) st ns).times n.out =
             some (listMax ts + d n.op))) := by
  intro ns
  induction ns with
  | nil =>
    intro A st _ _ _ _ _
    exact ⟨fun a _ => rfl, fun n hn => absurd hn (List.not_mem_nil n)⟩
  | cons n ns ih =>
    intro A st htopo hok hnodup hdisj hsome
    obtain ⟨hins, htopo'⟩ := (topoB_cons g n ns A).mp htopo
    have hokn : netOkB g n = true := hok n (List.mem_cons_self n ns)
    rw [List.map_cons] at hnodup
    obtain ⟨houtnotin, hnodup'⟩ := (nodupB_cons _ _).mp hnodup
    cases hcomb : isCombB n.op with
    | false =>
      have hstep : arrStep d st n = st := arrStep_seq d st n hcomb
      have hsrc : isSourceB g n.out = true := netOk_seq_out_source g n hokn hcomb
      have hsome' : ∀ a, isSourceB g a = true ∨ a ∈ n.out :: A →
          (lookupN st.times a).isSome = true := by
        intro a ha
        rcases ha with h | h
        · exact hsome a (Or.inl h)
        · rcases List.mem_cons.mp h with h | h
          · rw [h]; exact hsome n.out (Or.inl hsrc)
          · exact hsome a (Or.inr h)
      have hdisj' : ∀ m ∈ ns, isCombB m.op = true → m.out ∉ n.out :: A := by
        intro m hm hmc
        rw [List.mem_cons]
        push_neg
        constructor
        · intro hout
          exact houtnotin (by
            rw [← hout]
            exact List.mem_map_of_mem (fun n => n.out) hm)
        · exact fun hA => hdisj m (List.mem_cons_of_mem n hm) hmc hA
      obtain ⟨hstab, hrun⟩ := ih (n.out :: A) st htopo'
        (fun m hm => hok m (List.mem_cons_of_mem n hm)) hnodup' hdisj' hsome'
      rw [List.foldl_cons, hstep]
      refine ⟨?_, ?_⟩
      · intro a ha
        apply hstab
        rcases ha with h | h
        · exact Or.inl h
        · exact Or.inr (List.mem_cons_of_mem _ h)
      · intro m hm hmc
        rcases List.mem_cons.mp hm with h | h
        · subst h; rw [hmc] at hcomb; cases hcomb
        · exact hrun m h hmc
    | true =>
      have hinssome : ∀ a ∈ n.ins, (lookupN st.times a).isSome = true := by
        intro a ha
        exact hsome a (hins a ha)
      obtain ⟨ts, hts⟩ := mapM_lookup_isSome (lookupN st.times) n.ins hinssome
      have hstep := arrStep_times_comb d st n ts hcomb hts
      have houtnosrc : isSourceB g n.out = false := netOk_comb_out_not_source g n hokn hcomb
      have houtnotA : n.out ∉ A := hdisj n (List.mem_cons_self n ns) hcomb
      set st' := arrStep d st n with hst'
      have hlook' : ∀ a, a ≠ n.out →
          lookupN st'.times a = lookupN st.times a := by
        intro a hne
        rw [hstep, lookupN_cons, if_neg (fun h => hne h.symm)]
      have hlookout : lookupN st'.times n.out = some (listMax ts + d n.op) := by
        rw [hstep, lookupN_cons, if_pos rfl]
      have hsome' : ∀ a, isSourceB g a = true ∨ a ∈ n.out :: A →
          (lookupN st'.times a).isSome = true := by
        intro a ha
        by_cases hne : a = n.out
        · subst hne; rw [hlookout]; rfl
        · rw [hlook' a hne]
          rcases ha with h | h
          · exact hsome a (Or.inl h)
          · rcases List.mem_cons.mp h with h | h
            · exact absurd h hne
            · exact hsome a (Or.inr h)
      have hdisj' : ∀ m ∈ ns, isCombB m.op = true → m.out ∉ n.out :: A := by
        intro m hm hmc
        rw [List.mem_cons]
        push_neg
        constructor
        · intro hout
          exact houtnotin (by
            rw [← hout]
            exact List.mem_map_of_mem (fun n => n.out) hm)
        · exact fun hA => hdisj m (List.mem_cons_of_mem n hm) hmc hA
      obtain ⟨hstab, hrun⟩ := ih (n.out :: A) st' htopo'
        (fun m hm => hok m (List.mem_cons_of_mem n hm)) hnodup' hdisj' hsome'
      have hnea : ∀ a, isSourceB g a = true ∨ a ∈ A → a ≠ n.out := by
        intro a ha hcontra
        subst hcontra
        rcases ha with h | h
        · rw [houtnosrc] at h; cases h
        · exact houtnotA h
      rw [List.foldl_cons, ← hst']
      refine ⟨?_, ?_⟩
      · intro a ha
        rw [hstab a (by
          rcases ha with h | h
          · exact Or.inl h
          · exact Or.inr (List.mem_cons_of_mem _ h))]
        exact hlook' a (hnea a ha)
      · intro m hm hmc
        rcases List.mem_cons.mp hm with h | h
        · subst h
          have hfinsame : ∀ a ∈ m.ins,
              lookupN (List.foldl (arrStep d) st' ns).times a = lookupN st.times a := by
            intro a ha
            have hsa := hins a ha
            rw [hstab a (by
              rcases hsa with h | h
              · exact Or.inl h
              · exact Or.inr (List.mem_cons_of_mem _ h))]
            exact hlook' a (hnea a hsa)
          refine ⟨ts, ?_, ?_⟩
          · rw [mapM_congr _ _ m.ins hfinsame, hts]
          · rw [hstab m.out (Or.inr (List.mem_cons_self _ _))]
            exact hlookout
        · exact hrun m h hmc

theorem chain_initTimes (k : Nat) : initTimes (chainGraph k) = [(0, 0)] := by
  unfold initTimes chainGraph
  rw [List.filterMap_cons]
  dsimp only
  have hrest : List.filterMap (fun w : Wire =>
      match w.kind with
      | WK.normal => none
      | _ => some (w.wid, 0))
      ((List.range k).map (fun i => (⟨i + 1, 1, .normal⟩ : Wire))) = [] := by
    rw [List.filterMap_eq_nil_iff]
    intro w hw
    rw [List.mem_map] at hw
    obtain ⟨i, _, rfl⟩ := hw
    rfl
  rw [hrest]

theorem chain_state (k : Nat) :
    (∀ i, lookupN (List.foldl (arrStep unitD) ⟨[(0, 0)], []⟩
        ((List.range k).map (fun i => (⟨.notg 1, [i], i + 1⟩ : Net)))).times i =
      (if i ≤ k then some i else none)) ∧
    (∀ i, lookupN (List.foldl (arrStep unitD) ⟨[(0, 0)], []⟩
        ((List.range k).map (fun i => (⟨.notg 1, [i], i + 1⟩ : Net)))).preds i =
      (if 1 ≤ i ∧ i ≤ k then some (i - 1) else none)) := by
  induction k with
  | zero =>
    constructor
    · intro i
      show lookupN [(0, 0)] i = _
      rw [lookupN_cons]
      by_cases h : i = 0
      · subst h; simp
      · rw [if_neg (fun hc => h hc.symm), if_neg (by omega)]
        rfl
    · intro i
      show lookupN [] i = _
      rw [if_neg (by omega)]
      rfl
  | succ k ih =>
    obtain ⟨iht, ihp⟩ := ih
    rw [List.range_succ, List.map_append]
    simp only [List.map_cons, List.map_nil]
    rw [List.foldl_append]
    set st := List.foldl (arrStep unitD) ⟨[(0, 0)], []⟩
        ((List.range k).map (fun i => (⟨.notg 1, [i], i + 1⟩ : Net))) with hst
    have hmapM : List.mapM (lookupN st.times) [k] = some [k] := by
      rw [List.mapM_cons, iht k, if_pos (Nat.le_refl k)]
      rfl
    have hfind : List.find? (fun a => lookupN st.times a = some (listMax [k])) [k] =
        some k := by
      apply List.find?_cons_of_pos
      rw [iht k, if_pos (Nat.le_refl k)]
      simp [listMax]
    have hstep : List.foldl (arrStep unitD) st [(⟨.notg 1, [k], k + 1⟩ : Net)] =
        ⟨(k + 1, listMax [k] + 1) :: st.times, (k + 1, k) :: st.preds⟩ := by
      rw [List.foldl_cons, List.foldl_nil]
      unfold arrStep
      rw [show isCombB (Net.mk (.notg 1) [k] (k+1)).op = true from rfl]
      simp only [if_true]
      rw [hmapM]
      dsimp only
      rw [hfind]
      rfl
    rw [hstep]
    have hmaxk : listMax [k] + 1 = k + 1 := by simp [listMax]
    constructor
    · intro i
      show lookupN ((k + 1, listMax [k] + 1) :: st.times) i = _
      rw [lookupN_cons]
      by_cases h : i = k + 1
      · subst h
        rw [if_pos rfl, if_pos (Nat.le_refl _), hmaxk]
      · rw [if_neg (fun hc => h hc.symm), iht i]
        by_cases h2 : i ≤ k
        · rw [if_pos h2, if_pos (by omega)]
        · rw [if_neg h2, if_neg (by omega)]
    · intro i
      show lookupN ((k + 1, k) :: st.preds) i = _
      rw [lookupN_cons]
      by_cases h : i = k + 1
      · subst h
        rw [if_pos rfl, if_pos (by omega)]
        simp
      · rw [if_neg (fun hc => h hc.symm), ihp i]
        by_cases h2 : 1 ≤ i ∧ i ≤ k
        · rw [if_pos h2, if_pos (by omega)]
        · rw [if_neg h2, if_neg (by omega)]

theorem chain_arrival (k i : Nat) :
    arrival (chainGraph k) unitD i = (if i ≤ k then some i else none) := by
  unfold arrival timingState
  rw [show (chainGraph k).nets =
      (List.range k).map (fun i => (⟨.notg 1, [i], i + 1⟩ : Net)) from rfl,
    chain_initTimes k]
  exact (chain_state k).1 i

theorem chain_preds (k i : Nat) :
    lookupN (timingState (chainGraph k) unitD).preds i =
      (if 1 ≤ i ∧ i ≤ k then some (i - 1) else none) := by
  unfold timingState
  rw [show (chainGraph k).nets =
      (List.range k).map (fun i => (⟨.notg 1, [i], i + 1⟩ : Net)) from rfl,
    chain_initTimes k]
  exact (chain_state k).2 i

theorem listMax_cons (x : Nat) (l : List Nat) : listMax (x :: l) = max x (listMax l) := rfl

theorem listMax_append_singleton (l : List Nat) (x : Nat) :
    listMax (l ++ [x]) = max (listMax l) x := by
  induction l with
  | nil => simp [listMax]
  | cons y l ih =>
    rw [List.cons_append, listMax_cons, listMax_cons, ih]
    omega

theorem listMax_range_map_succ (k : Nat) :
    listMax ((List.range k).map (fun i => i + 1)) = k := by
  induction k with
  | zero => rfl
  | succ k ih =>
    rw [List.range_succ, List.map_append]
    simp only [List.map_cons, List.map_nil]
    rw [listMax_append_singleton, ih]
    omega

theorem chain_maxDelay (k : Nat) : maxDelay (chainGraph k) unitD = k := by
  unfold maxDelay
  rw [show (chainGraph k).wires =
      (⟨0, 1, .inp⟩ : Wire) :: (List.range k).map (fun i => (⟨i + 1, 1, .normal⟩ : Wire))
    from rfl]
  rw [List.map_cons, listMax_cons, List.map_map]
  have : ((List.range k).map ((fun w : Wire => (arrival (chainGraph k) unitD w.wid).getD 0) ∘
      (fun i => (⟨i + 1, 1, .normal⟩ : Wire)))) = (List.range k).map (fun i => i + 1) := by
    apply List.map_congr_left
    intro i hi
    rw [List.mem_range] at hi
    show (arrival (chainGraph k) unitD (i + 1)).getD 0 = i + 1
    rw [chain_arrival k (i + 1), if_pos (by omega)]
    rfl
  rw [this, listMax_range_map_succ]
  show max ((arrival (chainGraph k) unitD 0).getD 0) k = k
  rw [chain_arrival k 0, if_pos (by omega)]
  simp

theorem find?_range_eq_some (q : Nat → Bool) (k m : Nat) (hm : m < k)
    (hq : ∀ j, j < k → (q j = true ↔ j = m)) :
    (List.range k).find? q = some m := by
  induction k with
  | zero => omega
  | succ k ih =>
    rw [List.range_succ, List.find?_append]
    by_cases hmk : m < k
    · rw [ih hmk (fun j hj => hq j (by omega))]
      rfl
    · have hmeq : m = k := by omega
      subst hmeq
      have hnone : (List.range m).find? q = none := by
        rw [List.find?_eq_none]
        intro j hj
        rw [List.mem_range] at hj
        intro hqj
        have := (hq j (by omega)).mp hqj
        omega
      rw [hnone]
      show Option.or none (List.find? q [m]) = some m
      rw [List.find?_cons_of_pos _ ((hq m (by omega)).mpr rfl)]
      rfl

theorem chain_sink (k : Nat) : sinkWire (chainGraph k) unitD = k := by
  unfold sinkWire
  rw [chain_maxDelay k]
  cases k with
  | zero =>
    rw [show (chainGraph 0).wires = [(⟨0, 1, .inp⟩ : Wire)] from rfl]
    rw [List.find?_cons_of_pos _ (by
      show decide ((arrival (chainGraph 0) unitD 0).getD 0 = 0) = true
      rw [chain_arrival 0 0, if_pos (by omega)]
      simp)]
  | succ k =>
    rw [show (chainGraph (k + 1)).wires =
        (⟨0, 1, .inp⟩ : Wire) ::
          (List.range (k + 1)).map (fun i => (⟨i + 1, 1, .normal⟩ : Wire)) from rfl]
    rw [List.find?_cons_of_neg _ (by
      show ¬ (decide ((arrival (chainGraph (k + 1)) unitD 0).getD 0 = k + 1) = true)
      rw [chain_arrival (k + 1) 0, if_pos (by omega)]
      simp)]
    rw [List.find?_map]
    have : (List.range (k + 1)).find?
        ((fun w : Wire => (arrival (chainGraph (k + 1)) unitD w.wid).getD 0 = k + 1) ∘
          (fun i => (⟨i + 1, 1, .normal⟩ : Wire))) = some k := by
      apply find?_range_eq_some _ _ k (by omega)
      intro j hj
      show (decide ((arrival (chainGraph (k + 1)) unitD (j + 1)).getD 0 = k + 1) = true) ↔ j = k
      rw [chain_arrival (k + 1) (j + 1), if_pos (by omega)]
      simp only [Option.getD_some, decide_eq_true_eq]
      omega
    rw [this]
    rfl

theorem pathFrom_chain_desc (preds : List (Nat × Nat)) (k : Nat)
    (hpred0 : lookupN preds 0 = none)
    (hpredS : ∀ j, j + 1 ≤ k → lookupN preds (j + 1) = some j) :
    ∀ (fuel j : Nat), j ≤ fuel → j ≤ k →
      pathFrom preds fuel j = List.range (j + 1) := by
  intro fuel
  induction fuel with
  | zero =>
    intro j hj _
    have : j = 0 := by omega
    subst this
    rfl
  | succ fuel ih =>
    intro j hj hjk
    cases j with
    | zero =>
      unfold pathFrom
      rw [hpred0]
      rfl
    | succ j =>
      unfold pathFrom
      rw [hpredS j hjk]
      dsimp only
      rw [ih j (by omega) (by omega), ← List.range_succ]

theorem chain_critical (k : Nat) :
    criticalPath (chainGraph k) unitD = List.range (k + 1) := by
  unfold criticalPath
  rw [chain_sink k]
  rw [show (chainGraph k).nets.length = k by
    simp [chainGraph]]
  exact pathFrom_chain_desc (timingState (chainGraph k) unitD).preds k
    (by rw [chain_preds]; simp)
    (fun j hj => by rw [chain_preds]; rw [if_pos (by omega)]; simp)
    k k (Nat.le_refl k) (Nat.le_refl k)

theorem initTimes_lookup (g : Graph) (hnd : nodupB (g.wires.map (fun w => w.wid)) = true)
    (i : Nat) (hsrc : isSourceB g i = true) :
    lookupN (initTimes g) i = some 0 := by
  unfold initTimes
  rw [lookupN_filterMap _ (by
    intro w p hp
    cases hk : w.kind <;> rw [hk] at hp <;> first
      | (injection hp with hp1; rw [← hp1])
      | cases hp)
    g.wires i hnd]
  rw [show (List.find? (fun w => decide (w.wid = i)) g.wires) = g.wire? i from rfl]
  unfold isSourceB at hsrc
  cases hw : g.wire? i with
  | none => rw [hw] at hsrc; exact Bool.noConfusion hsrc
  | some w =>
    rw [hw] at hsrc
    replace hsrc : (match w.kind with
      | WK.normal => false
      | _ => true) = true := hsrc
    show Option.map (fun p => (p : Nat × Nat).2)
      (match w.kind with
      | WK.normal => none
      | _ => some (w.wid, 0)) = some 0
    cases hk : w.kind <;> rw [hk] at hsrc <;> first
      | exact Bool.noConfusion hsrc
      | rfl

/-- Claim C4: the Timing Analyzer assigns arrival time 0 to every
Input, Const, Register-output and Memory-output wire; processes every
combinational net in topological (insertion) order, setting its output's
arrival time to the maximum of its input arrival times plus the net's delay;
and consequently, for a purely combinational chain of k unit-delay nets, the
maximum combinational delay is k and the critical path visits all k nets in
order (wires 0, 1, ..., k). -/
theorem timing_analysis (g : Graph) (d : Op → Nat) (hwf : g.WF) :
    (∀ i, isSourceB g i = true → arrival g d i = some 0) ∧
    (∀ n ∈ g.nets, isCombB n.op = true →
      ∃ ts, n.ins.mapM (arrival g d) = some ts ∧
        arrival g d n.out = some (listMax ts + d n.op)) ∧
    (∀ k, maxDelay (chainGraph k) unitD = k ∧
      criticalPath (chainGraph k) unitD = List.range (k + 1)) := by
  obtain ⟨hnd, hndo, _, hok, htopo, _⟩ := wf_parts g hwf
  have harr := arr_run g d g.nets [] ⟨initTimes g, []⟩ htopo hok hndo
    (fun n _ _ => List.not_mem_nil n.out)
    (fun a ha => by
      rcases ha with h | h
      · rw [show TState.times ⟨initTimes g, []⟩ = initTimes g from rfl,
          initTimes_lookup g hnd a h]
        rfl
      · exact absurd h (List.not_mem_nil a))
  obtain ⟨hstab, hrun⟩ := harr
  refine ⟨?_, ?_, ?_⟩
  · intro i hi
    show lookupN (timingState g d).times i = some 0
    unfold timingState
    rw [hstab i (Or.inl hi)]
    exact initTimes_lookup g hnd i hi
  · intro n hn hc
    obtain ⟨ts, hts1, hts2⟩ := hrun n hn hc
    exact ⟨ts, hts1, hts2⟩
  · intro k
    exact ⟨chain_maxDelay k, chain_critical k⟩

theorem timing_analysis_witness :
    exampleGraph.WF ∧
    (arrival exampleGraph unitD 0 = some 0 ∧
      maxDelay (chainGraph 3) unitD = 3 ∧
      criticalPath (chainGraph 3) unitD = List.range 4) := by
  have h := timing_analysis exampleGraph unitD (by decide)
  exact ⟨by decide, h.1 0 (by decide), (h.2.2 3).1, (h.2.2 3).2⟩

/-! ## Structure of the synthesized graph: claims C3 and C7 -/

theorem binChain_snd (op : Op) (a b f : Nat) :
    ∀ i, (binChain op a b f i).2.2 = f + 3 * i := by
  intro i
  induction i with
  | zero => rfl
  | succ i ih =>
    show (binChain op a b f i).2.2 + 3 = f + 3 * (i + 1)
    omega

theorem notChain_snd (a f : Nat) :
    ∀ i, (notChain a f i).2.2 = f + 2 * i := by
  intro i
  induction i with
  | zero => rfl
  | succ i ih =>
    show (notChain a f i).2.2 + 2 = f + 2 * (i + 1)
    omega

theorem addChain_snd (a b f : Nat) :
    ∀ i, (addChain a b f i).2.2.2 = f + 4 + 7 * i := by
  intro i
  induction i with
  | zero => rfl
  | succ i ih =>
    show (addChain a b f i).2.2.2 + 7 = f + 4 + 7 * (i + 1)
    omega

theorem synthNet_f_le (g : Graph) (f : Nat) (n : Net) : f ≤ (synthNet g f n).2 := by
  unfold synthNet
  cases hop : n.op <;> dsimp only
  case andg =>
    cases hins : n.ins with
    | nil => exact Nat.le_refl f
    | cons a t =>
      cases t with
      | nil => exact Nat.le_refl f
      | cons b t2 =>
        cases t2 with
        | nil =>
          dsimp only
          split
          · exact Nat.le_refl f
          · show f ≤ (binChain .andg a b f (widthOf g n.out)).2.2
            rw [binChain_snd]
            omega
        | cons c t3 => exact Nat.le_refl f
  case org =>
    cases hins : n.ins with
    | nil => exact Nat.le_refl f
    | cons a t =>
      cases t with
      | nil => exact Nat.le_refl f
      | cons b t2 =>
        cases t2 with
        | nil =>
          dsimp only
          split
          · exact Nat.le_refl f
          · show f ≤ (binChain .org a b f (widthOf g n.out)).2.2
            rw [binChain_snd]
            omega
        | cons c t3 => exact Nat.le_refl f
  case xorg =>
    cases hins : n.ins with
    | nil => exact Nat.le_refl f
    | cons a t =>
      cases t with
      | nil => exact Nat.le_refl f
      | cons b t2 =>
        cases t2 with
        | nil =>
          dsimp only
          split
          · exact Nat.le_refl f
          · show f ≤ (binChain .xorg a b f (widthOf g n.out)).2.2
            rw [binChain_snd]
            omega
        | cons c t3 => exact Nat.le_refl f
  case notg w =>
    cases hins : n.ins with
    | nil => exact Nat.le_refl f
    | cons a t =>
      cases t with
      | nil =>
        dsimp only
        split
        · exact Nat.le_refl f
        · show f ≤ (notChain a f w).2.2
          rw [notChain_snd]
          omega
      | cons b t2 => exact Nat.le_refl f
  case addg =>
    cases hins : n.ins with
    | nil => exact Nat.le_refl f
    | cons a t =>
      cases t with
      | nil => exact Nat.le_refl f
      | cons b t2 =>
        cases t2 with
        | nil =>
          dsimp only
          cases widthOf g a with
          | zero => exact Nat.le_refl f
          | succ m =>
            show f ≤ (addChain a b f m).2.2.2
            rw [addChain_snd]
            omega
        | cons c t3 => exact Nat.le_refl f
  case catg ws => exact Nat.le_refl f
  case selg bits => exact Nat.le_refl f
  case regg => exact Nat.le_refl f
  case memg => exact Nat.le_refl f

theorem synthNets_f_le (g : Graph) :
    ∀ (ns : List Net) (f : Nat), f ≤ (synthNets g ns f).2 := by
  intro ns
  induction ns with
  | nil => intro f; exact Nat.le_refl f
  | cons n ns ih =>
    intro f
    show f ≤ (synthNets g ns (synthNet g f n).2).2
    exact le_trans (synthNet_f_le g f n) (ih _)

/-- The synthesizer keeps a net untouched when it is already in the target
form (or malformed): 1-bit gates, width primitives, registers, memories. -/
def keepB (g : Graph) (n : Net) : Bool :=
  match n.op with
  | .andg =>
    match n.ins with
    | [_, _] => widthOf g n.out = 1
    | _ => true
  | .org =>
    match n.ins with
    | [_, _] => widthOf g n.out = 1
    | _ => true
  | .xorg =>
    match n.ins with
    | [_, _] => widthOf g n.out = 1
    | _ => true
  | .notg w =>
    match n.ins with
    | [_] => w = 1
    | _ => true
  | .addg =>
    match n.ins with
    | [a, _] => widthOf g a = 0
    | _ => true
  | _ => true

theorem synthNet_spec (g : Graph) (f : Nat) (n : Net) :
    (keepB g n = true ∧ synthNet g f n = ([n], f)) ∨
    (keepB g n = false ∧
      ((∃ a b, (n.op = .andg ∨ n.op = .org ∨ n.op = .xorg) ∧ n.ins = [a, b] ∧
         widthOf g n.out ≠ 1 ∧
         synthNet g f n = expandBin n.op a b n.out f (widthOf g n.out)) ∨
       (∃ a w, n.op = .notg w ∧ n.ins = [a] ∧ w ≠ 1 ∧
         synthNet g f n = expandNot a n.out f w) ∨
       (∃ a b m, n.op = .addg ∧ n.ins = [a, b] ∧ widthOf g a = m + 1 ∧
         synthNet g f n = expandAdd a b n.out f m))) := by
  unfold synthNet keepB
  cases hop : n.op <;> dsimp only
  case andg =>
    cases hins : n.ins with
    | nil => exact Or.inl ⟨rfl, rfl⟩
    | cons a t =>
      cases t with
      | nil => exact Or.inl ⟨rfl, rfl⟩
      | cons b t2 =>
        cases t2 with
        | nil =>
          dsimp only
          by_cases hw : widthOf g n.out = 1
          · rw [if_pos hw]
            exact Or.inl ⟨by rw [hw]; rfl, rfl⟩
          · rw [if_neg hw]
            refine Or.inr ⟨by simp [hw], Or.inl ⟨a, b, Or.inl rfl, rfl, hw, rfl⟩⟩
        | cons c t3 => exact Or.inl ⟨rfl, rfl⟩
  case org =>
    cases hins : n.ins with
    | nil => exact Or.inl ⟨rfl, rfl⟩
    | cons a t =>
      cases t with
      | nil => exact Or.inl ⟨rfl, rfl⟩
      | cons b t2 =>
        cases t2 with
        | nil =>
          dsimp only
          by_cases hw : widthOf g n.out = 1
          · rw [if_pos hw]
            exact Or.inl ⟨by rw [hw]; rfl, rfl⟩
          · rw [if_neg hw]
            refine Or.inr ⟨by simp [hw], Or.inl ⟨a, b, Or.inr (Or.inl rfl), rfl, hw, rfl⟩⟩
        | cons c t3 => exact Or.inl ⟨rfl, rfl⟩
  case xorg =>
    cases hins : n.ins with
    | nil => exact Or.inl ⟨rfl, rfl⟩
    | cons a t =>
      cases t with
      | nil => exact Or.inl ⟨rfl, rfl⟩
      | cons b t2 =>
        cases t2 with
        | nil =>
          dsimp only
          by_cases hw : widthOf g n.out = 1
          · rw [if_pos hw]
            exact Or.inl ⟨by rw [hw]; rfl, rfl⟩
          · rw [if_neg hw]
            refine Or.inr ⟨by simp [hw], Or.inl ⟨a, b, Or.inr (Or.inr rfl), rfl, hw, rfl⟩⟩
        | cons c t3 => exact Or.inl ⟨rfl, rfl⟩
  case notg w =>
    cases hins : n.ins with
    | nil => exact Or.inl ⟨rfl, rfl⟩
    | cons a t =>
      cases t with
      | nil =>
        dsimp only
        by_cases hw : w = 1
        · rw [if_pos hw]
          exact Or.inl ⟨by rw [hw]; rfl, rfl⟩
        · rw [if_neg hw]
          exact Or.inr ⟨by simp [hw], Or.inr (Or.inl ⟨a, w, rfl, rfl, hw, rfl⟩)⟩
      | cons b t2 => exact Or.inl ⟨rfl, rfl⟩
  case addg =>
    cases hins : n.ins with
    | nil => exact Or.inl ⟨rfl, rfl⟩
    | cons a t =>
      cases t with
      | nil => exact Or.inl ⟨rfl, rfl⟩
      | cons b t2 =>
        cases t2 with
        | nil =>
          dsimp only
          cases hwa : widthOf g a with
          | zero => exact Or.inl ⟨by simp, rfl⟩
          | succ m =>
            exact Or.inr ⟨by simp [hwa], Or.inr (Or.inr ⟨a, b, m, rfl, rfl, hwa, rfl⟩)⟩
        | cons c t3 => exact Or.inl ⟨rfl, rfl⟩
  case catg ws => exact Or.inl ⟨rfl, rfl⟩
  case selg bits => exact Or.inl ⟨rfl, rfl⟩
  case regg => exact Or.inl ⟨rfl, rfl⟩
  case memg => exact Or.inl ⟨rfl, rfl⟩

theorem wiresOf_find?_some (a b i : Nat) (h1 : a ≤ i) (h2 : i < b) :
    List.find? (fun w => w.wid = i) (wiresOf a b) = some ⟨i, 1, .normal⟩ := by
  unfold wiresOf
  rw [List.find?_map]
  have : (List.range (b - a)).find?
      ((fun w : Wire => w.wid = i) ∘ (fun j => (⟨a + j, 1, .normal⟩ : Wire))) =
      some (i - a) := by
    apply find?_range_eq_some _ _ (i - a) (by omega)
    intro j hj
    show (decide (a + j = i) = true) ↔ j = i - a
    rw [decide_eq_true_eq]
    omega
  rw [this]
  show some (⟨a + (i - a), 1, .normal⟩ : Wire) = some (⟨i, 1, .normal⟩ : Wire)
  rw [show a + (i - a) = i by omega]

theorem wiresOf_find?_none (a b i : Nat) (h : i < a ∨ b ≤ i) :
    List.find? (fun w => w.wid = i) (wiresOf a b) = none := by
  unfold wiresOf
  rw [List.find?_eq_none]
  intro w hw
  rw [List.mem_map] at hw
  obtain ⟨j, hj, rfl⟩ := hw
  rw [List.mem_range] at hj
  simp only [decide_eq_true_eq]
  omega

theorem synthesize_wires (g : Graph) :
    (synthesize g).wires =
      g.wires ++ wiresOf (maxWid g + 1) (synthNets g g.nets (maxWid g + 1)).2 := rfl

theorem synthesize_nets (g : Graph) :
    (synthesize g).nets = (synthNets g g.nets (maxWid g + 1)).1 := rfl

theorem synthesize_outputs (g : Graph) : (synthesize g).outputs = g.outputs := rfl

theorem wire?_synth_orig (g : Graph) (i : Nat) (hle : i ≤ maxWid g) :
    (synthesize g).wire? i = g.wire? i := by
  show Graph.wire? ⟨g.wires ++ _, _, _⟩ i = g.wire? i
  rw [wire?_append_wires]
  rw [wiresOf_find?_none _ _ i (Or.inl (by omega))]
  show Option.or (g.wire? i) none = g.wire? i
  cases g.wire? i <;> rfl

theorem widthOf_synth_orig (g : Graph) (i : Nat) (hle : i ≤ maxWid g) :
    widthOf (synthesize g) i = widthOf g i := by
  unfold widthOf
  rw [wire?_synth_orig g i hle]

theorem wire?_synth_fresh (g : Graph) (i : Nat) (h1 : maxWid g + 1 ≤ i)
    (h2 : i < (synthNets g g.nets (maxWid g + 1)).2) :
    (synthesize g).wire? i = some ⟨i, 1, .normal⟩ := by
  show Graph.wire? ⟨g.wires ++ _, _, _⟩ i = _
  rw [wire?_append_wires]
  rw [show (List.find? (fun w => w.wid = i) g.wires : Option Wire) = g.wire? i from rfl]
  rw [wire?_none_of_gt g i (by omega)]
  rw [wiresOf_find?_some _ _ i h1 h2]
  rfl

theorem widthOf_synth_fresh (g : Graph) (i : Nat) (h1 : maxWid g + 1 ≤ i)
    (h2 : i < (synthNets g g.nets (maxWid g + 1)).2) :
    widthOf (synthesize g) i = 1 := by
  unfold widthOf
  rw [wire?_synth_fresh g i h1 h2]

theorem netOk_elim_andg (g : Graph) (n : Net) (hop : n.op = .andg)
    (hok : netOkB g n = true) :
    ∃ a b, n.ins = [a, b] ∧ hasWire g a = true ∧ hasWire g b = true ∧
      kindIs g n.out .normal = true ∧
      widthOf g a = widthOf g n.out ∧ widthOf g b = widthOf g n.out := by
  unfold netOkB at hok
  rw [hop] at hok
  cases hins : n.ins with
  | nil => rw [hins] at hok; cases hok
  | cons a t =>
    cases t with
    | nil => rw [hins] at hok; cases hok
    | cons b t2 =>
      cases t2 with
      | nil =>
        rw [hins] at hok
        simp only [Bool.and_eq_true, decide_eq_true_eq] at hok
        exact ⟨a, b, rfl, hok.1.1.1.1, hok.1.1.1.2, hok.1.1.2, hok.1.2, hok.2⟩
      | cons c t3 => rw [hins] at hok; cases hok

theorem netOk_elim_org (g : Graph) (n : Net) (hop : n.op = .org)
    (hok : netOkB g n = true) :
    ∃ a b, n.ins = [a, b] ∧ hasWire g a = true ∧ hasWire g b = true ∧
      kindIs g n.out .normal = true ∧
      widthOf g a = widthOf g n.out ∧ widthOf g b = widthOf g n.out := by
  unfold netOkB at hok
  rw [hop] at hok
  cases hins : n.ins with
  | nil => rw [hins] at hok; cases hok
  | cons a t =>
    cases t with
    | nil => rw [hins] at hok; cases hok
    | cons b t2 =>
      cases t2 with
      | nil =>
        rw [hins] at hok
        simp only [Bool.and_eq_true, decide_eq_true_eq] at hok
        exact ⟨a, b, rfl, hok.1.1.1.1, hok.1.1.1.2, hok.1.1.2, hok.1.2, hok.2⟩
      | cons c t3 => rw [hins] at hok; cases hok

theorem netOk_elim_xorg (g : Graph) (n : Net) (hop : n.op = .xorg)
    (hok : netOkB g n = true) :
    ∃ a b, n.ins = [a, b] ∧ hasWire g a = true ∧ hasWire g b = true ∧
      kindIs g n.out .normal = true ∧
      widthOf g a = widthOf g n.out ∧ widthOf g b = widthOf g n.out := by
  unfold netOkB at hok
  rw [hop] at hok
  cases hins : n.ins with
  | nil => rw [hins] at hok; cases hok
  | cons a t =>
    cases t with
    | nil => rw [hins] at hok; cases hok
    | cons b t2 =>
      cases t2 with
      | nil =>
        rw [hins] at hok
        simp only [Bool.and_eq_true, decide_eq_true_eq] at hok
        exact ⟨a, b, rfl, hok.1.1.1.1, hok.1.1.1.2, hok.1.1.2, hok.1.2, hok.2⟩
      | cons c t3 => rw [hins] at hok; cases hok

theorem netOk_elim_notg (g : Graph) (n : Net) (w : Nat) (hop : n.op = .notg w)
    (hok : netOkB g n = true) :
    ∃ a, n.ins = [a] ∧ hasWire g a = true ∧ kindIs g n.out .normal = true ∧
      widthOf g a = w ∧ widthOf g n.out = w := by
  unfold netOkB at hok
  rw [hop] at hok
  cases hins : n.ins with
  | nil => rw [hins] at hok; cases hok
  | cons a t =>
    cases t with
    | nil =>
      rw [hins] at hok
      simp only [Bool.and_eq_true, decide_eq_true_eq] at hok
      exact ⟨a, rfl, hok.1.1.1, hok.1.1.2, hok.1.2, hok.2⟩
    | cons b t2 => rw [hins] at hok; cases hok

theorem netOk_elim_addg (g : Graph) (n : Net) (hop : n.op = .addg)
    (hok : netOkB g n = true) :
    ∃ a b, n.ins = [a, b] ∧ hasWire g a = true ∧ hasWire g b = true ∧
      kindIs g n.out .normal = true ∧
      widthOf g a = widthOf g b ∧ widthOf g n.out = widthOf g a + 1 := by
  unfold netOkB at hok
  rw [hop] at hok
  cases hins : n.ins with
  | nil => rw [hins] at hok; cases hok
  | cons a t =>
    cases t with
    | nil => rw [hins] at hok; cases hok
    | cons b t2 =>
      cases t2 with
      | nil =>
        rw [hins] at hok
        simp only [Bool.and_eq_true, decide_eq_true_eq] at hok
        exact ⟨a, b, rfl, hok.1.1.1.1, hok.1.1.1.2, hok.1.1.2, hok.1.2, hok.2⟩
      | cons c t3 => rw [hins] at hok; cases hok

theorem netOk_elim_selg (g : Graph) (n : Net) (bits : List Nat)
    (hop : n.op = .selg bits) (hok : netOkB g n = true) :
    ∃ a, n.ins = [a] ∧ hasWire g a = true ∧ kindIs g n.out .normal = true ∧
      (∀ j ∈ bits, j < widthOf g a) ∧ widthOf g n.out = bits.length := by
  unfold netOkB at hok
  rw [hop] at hok
  cases hins : n.ins with
  | nil => rw [hins] at hok; cases hok
  | cons a t =>
    cases t with
    | nil =>
      rw [hins] at hok
      simp only [Bool.and_eq_true, decide_eq_true_eq, List.all_eq_true] at hok
      exact ⟨a, rfl, hok.1.1.1, hok.1.1.2, hok.1.2, hok.2⟩
    | cons b t2 => rw [hins] at hok; cases hok

theorem netOk_elim_catg (g : Graph) (n : Net) (ws : List Nat)
    (hop : n.op = .catg ws) (hok : netOkB g n = true) :
    (∀ a ∈ n.ins, hasWire g a = true) ∧ kindIs g n.out .normal = true ∧
      n.ins.length = ws.length ∧
      (∀ p ∈ n.ins.zip ws, widthOf g p.1 = p.2) ∧
      widthOf g n.out = ws.sum := by
  unfold netOkB at hok
  rw [hop] at hok
  simp only [Bool.and_eq_true, decide_eq_true_eq, List.all_eq_true] at hok
  exact ⟨hok.1.1.1.1, hok.1.1.1.2, hok.1.1.2, hok.1.2, hok.2⟩

theorem binChain_bitOk (g' : Graph) (op : Op) (a b f : Nat)
    (hop : op = .andg ∨ op = .org ∨ op = .xorg) :
    ∀ i, (∀ j, f ≤ j → j < f + 3 * i → widthOf g' j = 1) →
      ∀ m ∈ (binChain op a b f i).1, netBitOkB g' m = true := by
  intro i
  induction i with
  | zero => intro _ m hm; cases hm
  | succ i ih =>
    intro hfresh m hm
    show netBitOkB g' m = true
    have hsnd := binChain_snd op a b f i
    rcases List.mem_append.mp hm with h | h
    · exact ih (fun j h1 h2 => hfresh j h1 (by omega)) m h
    · have hw1 : widthOf g' (binChain op a b f i).2.2 = 1 :=
        hfresh _ (by omega) (by omega)
      have hw2 : widthOf g' ((binChain op a b f i).2.2 + 1) = 1 :=
        hfresh _ (by omega) (by omega)
      have hw3 : widthOf g' ((binChain op a b f i).2.2 + 2) = 1 :=
        hfresh _ (by omega) (by omega)
      simp only [List.mem_cons, List.not_mem_nil, or_false] at h
      rcases h with h | h | h
      · rw [h]; rfl
      · rw [h]; rfl
      · rw [h]
        rcases hop with rfl | rfl | rfl <;>
          simp [netBitOkB, hw1, hw2, hw3]

theorem notChain_bitOk (g' : Graph) (a f : Nat) :
    ∀ i, (∀ j, f ≤ j → j < f + 2 * i → widthOf g' j = 1) →
      ∀ m ∈ (notChain a f i).1, netBitOkB g' m = true := by
  intro i
  induction i with
  | zero => intro _ m hm; cases hm
  | succ i ih =>
    intro hfresh m hm
    have hsnd := notChain_snd a f i
    rcases List.mem_append.mp hm with h | h
    · exact ih (fun j h1 h2 => hfresh j h1 (by omega)) m h
    · have hw1 : widthOf g' (notChain a f i).2.2 = 1 :=
        hfresh _ (by omega) (by omega)
      have hw2 : widthOf g' ((notChain a f i).2.2 + 1) = 1 :=
        hfresh _ (by omega) (by omega)
      simp only [List.mem_cons, List.not_mem_nil, or_false] at h
      rcases h with h | h
      · rw [h]; rfl
      · rw [h]
        simp [netBitOkB, hw1, hw2]

theorem addChain_carry_mem (a b f : Nat) :
    ∀ i, f ≤ (addChain a b f i).2.2.1 ∧ (addChain a b f i).2.2.1 < f + 4 + 7 * i := by
  intro i
  induction i with
  | zero =>
    show f ≤ f + 3 ∧ f + 3 < f + 4 + 7 * 0
    omega
  | succ i ih =>
    have hsnd := addChain_snd a b f i
    show f ≤ (addChain a b f i).2.2.2 + 6 ∧
      (addChain a b f i).2.2.2 + 6 < f + 4 + 7 * (i + 1)
    omega

theorem addChain_bitOk (g' : Graph) (a b f : Nat) :
    ∀ i, (∀ j, f ≤ j → j < f + 4 + 7 * i → widthOf g' j = 1) →
      ∀ m ∈ (addChain a b f i).1, netBitOkB g' m = true := by
  intro i
  induction i with
  | zero =>
    intro hfresh m hm
    have hw0 : widthOf g' f = 1 := hfresh _ (by omega) (by omega)
    have hw1 : widthOf g' (f + 1) = 1 := hfresh _ (by omega) (by omega)
    have hw2 : widthOf g' (f + 2) = 1 := hfresh _ (by omega) (by omega)
    have hw3 : widthOf g' (f + 3) = 1 := hfresh _ (by omega) (by omega)
    replace hm : m ∈ [(⟨.selg [0], [a], f⟩ : Net), ⟨.selg [0], [b], f + 1⟩,
      ⟨.xorg, [f, f + 1], f + 2⟩, ⟨.andg, [f, f + 1], f + 3⟩] := hm
    simp only [List.mem_cons, List.not_mem_nil, or_false] at hm
    rcases hm with h | h | h | h
    · rw [h]; rfl
    · rw [h]; rfl
    · rw [h]; simp [netBitOkB, hw0, hw1, hw2]
    · rw [h]; simp [netBitOkB, hw0, hw1, hw3]
  | succ i ih =>
    intro hfresh m hm
    have hsnd := addChain_snd a b f i
    obtain ⟨hc1, hc2⟩ := addChain_carry_mem a b f i
    rcases List.mem_append.mp hm with h | h
    · exact ih (fun j h1 h2 => hfresh j h1 (by omega)) m h
    · have hwc : widthOf g' (addChain a b f i).2.2.1 = 1 :=
        hfresh _ (by omega) (by omega)
      have hw0 : widthOf g' (addChain a b f i).2.2.2 = 1 :=
        hfresh _ (by omega) (by omega)
      have hw1 : widthOf g' ((addChain a b f i).2.2.2 + 1) = 1 :=
        hfresh _ (by omega) (by omega)
      have hw2 : widthOf g' ((addChain a b f i).2.2.2 + 2) = 1 :=
        hfresh _ (by omega) (by omega)
      have hw3 : widthOf g' ((addChain a b f i).2.2.2 + 3) = 1 :=
        hfresh _ (by omega) (by omega)
      have hw4 : widthOf g' ((addChain a b f i).2.2.2 + 4) = 1 :=
        hfresh _ (by omega) (by omega)
      have hw5 : widthOf g' ((addChain a b f i).2.2.2 + 5) = 1 :=
        hfresh _ (by omega) (by omega)
      have hw6 : widthOf g' ((addChain a b f i).2.2.2 + 6) = 1 :=
        hfresh _ (by omega) (by omega)
      simp only [List.mem_cons, List.not_mem_nil, or_false] at h
      rcases h with h | h | h | h | h | h | h
      · rw [h]; rfl
      · rw [h]; rfl
      · rw [h]; simp [netBitOkB, hw0, hw1, hw2]
      · rw [h]; simp [netBitOkB, hw2, hwc, hw3]
      · rw [h]; simp [netBitOkB, hw0, hw1, hw4]
      · rw [h]; simp [netBitOkB, hw2, hwc, hw5]
      · rw [h]; simp [netBitOkB, hw4, hw5, hw6]

theorem kindIs_hasWire (g : Graph) (i : Nat) (k : WK) (h : kindIs g i k = true) :
    hasWire g i = true := by
  unfold kindIs at h
  unfold hasWire
  cases hw : g.wire? i with
  | none => rw [hw] at h; cases h
  | some w => rfl

theorem expandBin_snd (op : Op) (a b o f nb : Nat) :
    (expandBin op a b o f nb).2 = f + 3 * nb := by
  unfold expandBin
  exact binChain_snd op a b f nb

theorem expandNot_snd (a o f w : Nat) :
    (expandNot a o f w).2 = f + 2 * w := by
  unfold expandNot
  exact notChain_snd a f w

theorem expandAdd_snd (a b o f m : Nat) :
    (expandAdd a b o f m).2 = f + 4 + 7 * m := by
  unfold expandAdd
  exact addChain_snd a b f m

theorem synthNet_bitOk (g g' : Graph) (f : Nat) (n : Net)
    (hok : netOkB g n = true)
    (hw1 : ∀ w ∈ g.wires, 1 ≤ w.width)
    (horig : ∀ i, hasWire g i = true → widthOf g' i = widthOf g i)
    (hfresh : ∀ j, f ≤ j → j < (synthNet g f n).2 → widthOf g' j = 1) :
    ∀ m ∈ (synthNet g f n).1, netBitOkB g' m = true := by
  rcases synthNet_spec g f n with ⟨hkeep, heq⟩ | ⟨hkeep, hcases⟩
  · rw [heq]
    intro m hm
    replace hm : m = n := by
      rcases List.mem_cons.mp hm with h | h
      · exact h
      · exact absurd h (List.not_mem_nil m)
    subst hm
    cases hop : m.op with
    | andg =>
      obtain ⟨a, b, hins, hwa, hwb, hko, hqa, hqb⟩ := netOk_elim_andg g m hop hok
      unfold keepB at hkeep
      rw [hop, hins] at hkeep
      simp only [decide_eq_true_eq] at hkeep
      unfold netBitOkB
      rw [hop, hins]
      have h1 : widthOf g' a = 1 := by rw [horig a hwa, hqa, hkeep]
      have h2 : widthOf g' b = 1 := by rw [horig b hwb, hqb, hkeep]
      have h3 : widthOf g' m.out = 1 := by
        rw [horig m.out (kindIs_hasWire g m.out .normal hko), hkeep]
      simp [h1, h2, h3]
    | org =>
      obtain ⟨a, b, hins, hwa, hwb, hko, hqa, hqb⟩ := netOk_elim_org g m hop hok
      unfold keepB at hkeep
      rw [hop, hins] at hkeep
      simp only [decide_eq_true_eq] at hkeep
      unfold netBitOkB
      rw [hop, hins]
      have h1 : widthOf g' a = 1 := by rw [horig a hwa, hqa, hkeep]
      have h2 : widthOf g' b = 1 := by rw [horig b hwb, hqb, hkeep]
      have h3 : widthOf g' m.out = 1 := by
        rw [horig m.out (kindIs_hasWire g m.out .normal hko), hkeep]
      simp [h1, h2, h3]
    | xorg =>
      obtain ⟨a, b, hins, hwa, hwb, hko, hqa, hqb⟩ := netOk_elim_xorg g m hop hok
      unfold keepB at hkeep
      rw [hop, hins] at hkeep
      simp only [decide_eq_true_eq] at hkeep
      unfold netBitOkB
      rw [hop, hins]
      have h1 : widthOf g' a = 1 := by rw [horig a hwa, hqa, hkeep]
      have h2 : widthOf g' b = 1 := by rw [horig b hwb, hqb, hkeep]
      have h3 : widthOf g' m.out = 1 := by
        rw [horig m.out (kindIs_hasWire g m.out .normal hko), hkeep]
      simp [h1, h2, h3]
    | notg w =>
      obtain ⟨a, hins, hwa, hko, hqa, hqo⟩ := netOk_elim_notg g m w hop hok
      unfold keepB at hkeep
      rw [hop, hins] at hkeep
      simp only [decide_eq_true_eq] at hkeep
      unfold netBitOkB
      rw [hop, hins]
      have h1 : widthOf g' a = 1 := by rw [horig a hwa, hqa, hkeep]
      have h3 : widthOf g' m.out = 1 := by
        rw [horig m.out (kindIs_hasWire g m.out .normal hko), hqo, hkeep]
      simp [h1, h3, hkeep]
    | addg =>
      exfalso
      obtain ⟨a, b, hins, hwa, hwb, hko, hqa, hqo⟩ := netOk_elim_addg g m hop hok
      unfold keepB at hkeep
      rw [hop, hins] at hkeep
      simp only [decide_eq_true_eq] at hkeep
      unfold hasWire at hwa
      cases hw : g.wire? a with
      | none => rw [hw] at hwa; cases hwa
      | some wa =>
        have hmem := (wire?_mem g a wa hw).1
        have := hw1 wa hmem
        have : widthOf g a = wa.width := by unfold widthOf; rw [hw]
        omega
    | selg bits =>
      unfold netBitOkB
      rw [hop]
    | catg ws =>
      unfold netBitOkB
      rw [hop]
    | regg =>
      unfold netBitOkB
      rw [hop]
    | memg =>
      unfold netBitOkB
      rw [hop]
  · rcases hcases with ⟨a, b, hop, hins, hw, heq⟩ | ⟨a, w, hop, hins, hw, heq⟩ |
      ⟨a, b, m0, hop, hins, hwa, heq⟩
    · intro m hm
      rw [heq] at hm
      have hfresh' : ∀ j, f ≤ j → j < f + 3 * widthOf g n.out → widthOf g' j = 1 := by
        intro j h1 h2
        apply hfresh j h1
        rw [heq, expandBin_snd]
        exact h2
      unfold expandBin at hm
      rcases List.mem_append.mp hm with h | h
      · exact binChain_bitOk g' n.op a b f hop (widthOf g n.out) hfresh' m h
      · replace h : m = ⟨.catg (List.replicate (widthOf g n.out) 1),
          (binChain n.op a b f (widthOf g n.out)).2.1, n.out⟩ := by
          rcases List.mem_cons.mp h with h | h
          · exact h
          · exact absurd h (List.not_mem_nil m)
        rw [h]
        rfl
    · intro m hm
      rw [heq] at hm
      have hfresh' : ∀ j, f ≤ j → j < f + 2 * w → widthOf g' j = 1 := by
        intro j h1 h2
        apply hfresh j h1
        rw [heq, expandNot_snd]
        exact h2
      unfold expandNot at hm
      rcases List.mem_append.mp hm with h | h
      · exact notChain_bitOk g' a f w hfresh' m h
      · replace h : m = ⟨.catg (List.replicate w 1), (notChain a f w).2.1, n.out⟩ := by
          rcases List.mem_cons.mp h with h | h
          · exact h
          · exact absurd h (List.not_mem_nil m)
        rw [h]
        rfl
    · intro m hm
      rw [heq] at hm
      have hfresh' : ∀ j, f ≤ j → j < f + 4 + 7 * m0 → widthOf g' j = 1 := by
        intro j h1 h2
        apply hfresh j h1
        rw [heq, expandAdd_snd]
        exact h2
      unfold expandAdd at hm
      rcases List.mem_append.mp hm with h | h
      · exact addChain_bitOk g' a b f m0 hfresh' m h
      · replace h : m = ⟨.catg (List.replicate (m0 + 2) 1),
          (addChain a b f m0).2.1 ++ [(addChain a b f m0).2.2.1], n.out⟩ := by
          rcases List.mem_cons.mp h with h | h
          · exact h
          · exact absurd h (List.not_mem_nil m)
        rw [h]
        rfl

theorem synthNets_bitOk (g g' : Graph)
    (hw1 : ∀ w ∈ g.wires, 1 ≤ w.width)
    (horig : ∀ i, hasWire g i = true → widthOf g' i = widthOf g i) :
    ∀ (ns : List Net) (f : Nat),
      (∀ n ∈ ns, netOkB g n = true) →
      (∀ j, f ≤ j → j < (synthNets g ns f).2 → widthOf g' j = 1) →
      ∀ m ∈ (synthNets g ns f).1, netBitOkB g' m = true := by
  intro ns
  induction ns with
  | nil => intro f _ _ m hm; cases hm
  | cons n ns ih =>
    intro f hok hfresh m hm
    have hle1 : f ≤ (synthNet g f n).2 := synthNet_f_le g f n
    have hle2 : (synthNet g f n).2 ≤ (synthNets g ns (synthNet g f n).2).2 :=
      synthNets_f_le g ns _
    have hsteps : (synthNets g (n :: ns) f).2 = (synthNets g ns (synthNet g f n).2).2 := rfl
    replace hm : m ∈ (synthNet g f n).1 ++ (synthNets g ns (synthNet g f n).2).1 := hm
    rcases List.mem_append.mp hm with h | h
    · exact synthNet_bitOk g g' f n (hok n (List.mem_cons_self n ns)) hw1 horig
        (fun j h1 h2 => hfresh j h1 (by omega)) m h
    · exact ih (synthNet g f n).2 (fun q hq => hok q (List.mem_cons_of_mem n hq))
        (fun j h1 h2 => hfresh j (by omega) (by rw [hsteps]; exact h2)) m h

theorem binChain_comb (op : Op) (a b f : Nat) (hop : isCombB op = true) :
    ∀ i, ∀ m ∈ (binChain op a b f i).1, isCombB m.op = true := by
  intro i
  induction i with
  | zero => intro m hm; cases hm
  | succ i ih =>
    intro m hm
    rcases List.mem_append.mp hm with h | h
    · exact ih m h
    · simp only [List.mem_cons, List.not_mem_nil, or_false] at h
      rcases h with h | h | h <;> rw [h] <;> first | rfl | exact hop

theorem notChain_comb (a f : Nat) :
    ∀ i, ∀ m ∈ (notChain a f i).1, isCombB m.op = true := by
  intro i
  induction i with
  | zero => intro m hm; cases hm
  | succ i ih =>
    intro m hm
    rcases List.mem_append.mp hm with h | h
    · exact ih m h
    · simp only [List.mem_cons, List.not_mem_nil, or_false] at h
      rcases h with h | h <;> rw [h] <;> rfl

theorem addChain_comb (a b f : Nat) :
    ∀ i, ∀ m ∈ (addChain a b f i).1, isCombB m.op = true := by
  intro i
  induction i with
  | zero =>
    intro m hm
    replace hm : m ∈ [(⟨.selg [0], [a], f⟩ : Net), ⟨.selg [0], [b], f + 1⟩,
      ⟨.xorg, [f, f + 1], f + 2⟩, ⟨.andg, [f, f + 1], f + 3⟩] := hm
    simp only [List.mem_cons, List.not_mem_nil, or_false] at hm
    rcases hm with h | h | h | h <;> rw [h] <;> rfl
  | succ i ih =>
    intro m hm
    rcases List.mem_append.mp hm with h | h
    · exact ih m h
    · simp only [List.mem_cons, List.not_mem_nil, or_false] at h
      rcases h with h | h | h | h | h | h | h <;> rw [h] <;> rfl

theorem synthNet_seq_filter (g : Graph) (f : Nat) (n : Net) :
    (synthNet g f n).1.filter (fun m => !isCombB m.op) =
      [n].filter (fun m => !isCombB m.op) := by
  rcases synthNet_spec g f n with ⟨_, heq⟩ | ⟨_, hcases⟩
  · rw [heq]
  · have hfilter : ∀ (l : List Net), (∀ m ∈ l, isCombB m.op = true) →
        l.filter (fun m => !isCombB m.op) = [] := by
      intro l hl
      rw [List.filter_eq_nil_iff]
      intro m hm
      rw [hl m hm]
      simp
    rcases hcases with ⟨a, b, hop, hins, hw, heq⟩ | ⟨a, w, hop, hins, hw, heq⟩ |
      ⟨a, b, m0, hop, hins, hwa, heq⟩
    · rw [heq]
      unfold expandBin
      rw [List.filter_append]
      rw [hfilter _ (binChain_comb n.op a b f (by
        rcases hop with h | h | h <;> rw [h] <;> rfl) (widthOf g n.out))]
      rw [hfilter _ (by
        intro m hm
        simp only [List.mem_cons, List.not_mem_nil, or_false] at hm
        rw [hm]
        rfl)]
      rw [hfilter [n] (by
        intro m hm
        simp only [List.mem_cons, List.not_mem_nil, or_false] at hm
        rw [hm]
        rcases hop with h | h | h <;> rw [h] <;> rfl)]
      rfl
    · rw [heq]
      unfold expandNot
      rw [List.filter_append]
      rw [hfilter _ (notChain_comb a f w)]
      rw [hfilter _ (by
        intro m hm
        simp only [List.mem_cons, List.not_mem_nil, or_false] at hm
        rw [hm]
        rfl)]
      rw [hfilter [n] (by
        intro m hm
        simp only [List.mem_cons, List.not_mem_nil, or_false] at hm
        rw [hm, hop]
        rfl)]
      rfl
    · rw [heq]
      unfold expandAdd
      rw [List.filter_append]
      rw [hfilter _ (addChain_comb a b f m0)]
      rw [hfilter _ (by
        intro m hm
        simp only [List.mem_cons, List.not_mem_nil, or_false] at hm
        rw [hm]
        rfl)]
      rw [hfilter [n] (by
        intro m hm
        simp only [List.mem_cons, List.not_mem_nil, or_false] at hm
        rw [hm, hop]
        rfl)]
      rfl

theorem synthNets_seq_filter (g : Graph) :
    ∀ (ns : List Net) (f : Nat),
      (synthNets g ns f).1.filter (fun m => !isCombB m.op) =
        ns.filter (fun m => !isCombB m.op) := by
  intro ns
  induction ns with
  | nil => intro f; rfl
  | cons n ns ih =>
    intro f
    show ((synthNet g f n).1 ++ (synthNets g ns (synthNet g f n).2).1).filter _ = _
    rw [List.filter_append, synthNet_seq_filter g f n, ih]
    show List.filter _ [n] ++ _ = List.filter _ (n :: ns)
    rw [List.filter_cons, List.filter_cons]
    by_cases h : (!isCombB n.op) = true
    · rw [if_pos h, if_pos h]
      rfl
    · rw [if_neg h, if_neg h]
      rfl

theorem synthesize_bitBlasted_aux (g : Graph) (hwf : g.WF) :
    bitBlastedB (synthesize g) = true := by
  obtain ⟨_, _, hw1, hok, _, _⟩ := wf_parts g hwf
  unfold bitBlastedB
  rw [List.all_eq_true]
  intro m hm
  rw [synthesize_nets] at hm
  exact synthNets_bitOk g (synthesize g) hw1
    (fun i hi => widthOf_synth_orig g i (hasWire_le_maxWid g i hi))
    g.nets (maxWid g + 1) hok
    (fun j h1 h2 => widthOf_synth_fresh g j h1 h2) m hm

/-- Claim C3: after synthesis of a well-formed graph, every
{and, or, xor, not} net has operands and result of exactly 1 bit, no
composite addition net remains (concatenation and bit-selection are the only
width-changing combinational primitives left), and the register and memory
nets are exactly those of the original graph, undecomposed. -/
theorem synthesize_single_bit (g : Graph) (hwf : g.WF) :
    bitBlastedB (synthesize g) = true ∧
    (synthesize g).nets.filter (fun n => !isCombB n.op) =
      g.nets.filter (fun n => !isCombB n.op) := by
  refine ⟨synthesize_bitBlasted_aux g hwf, ?_⟩
  rw [synthesize_nets]
  exact synthNets_seq_filter g g.nets (maxWid g + 1)

theorem synthesize_single_bit_witness :
    exampleGraph.WF ∧
    (bitBlastedB (synthesize exampleGraph) = true ∧
     (synthesize exampleGraph).nets.filter (fun n => !isCombB n.op) =
       exampleGraph.nets.filter (fun n => !isCombB n.op)) :=
  ⟨by decide, synthesize_single_bit exampleGraph (by decide)⟩

theorem netBitOk_keep (g' : Graph) (m : Net) (h : netBitOkB g' m = true) :
    keepB g' m = true := by
  cases hop : m.op with
  | andg =>
    unfold netBitOkB at h
    rw [hop] at h
    simp only [Bool.and_eq_true] at h
    unfold keepB
    rw [hop]
    cases hins : m.ins with
    | nil => rfl
    | cons a t =>
      cases t with
      | nil => rfl
      | cons b t2 =>
        cases t2 with
        | nil => exact h.2
        | cons c t3 => rfl
  | org =>
    unfold netBitOkB at h
    rw [hop] at h
    simp only [Bool.and_eq_true] at h
    unfold keepB
    rw [hop]
    cases hins : m.ins with
    | nil => rfl
    | cons a t =>
      cases t with
      | nil => rfl
      | cons b t2 =>
        cases t2 with
        | nil => exact h.2
        | cons c t3 => rfl
  | xorg =>
    unfold netBitOkB at h
    rw [hop] at h
    simp only [Bool.and_eq_true] at h
    unfold keepB
    rw [hop]
    cases hins : m.ins with
    | nil => rfl
    | cons a t =>
      cases t with
      | nil => rfl
      | cons b t2 =>
        cases t2 with
        | nil => exact h.2
        | cons c t3 => rfl
  | notg w =>
    unfold netBitOkB at h
    rw [hop] at h
    simp only [Bool.and_eq_true] at h
    unfold keepB
    rw [hop]
    cases hins : m.ins with
    | nil => rfl
    | cons a t =>
      cases t with
      | nil => exact h.1.1
      | cons b t2 => rfl
  | addg =>
    unfold netBitOkB at h
    rw [hop] at h
    cases h
  | selg bits => unfold keepB; rw [hop]
  | catg ws => unfold keepB; rw [hop]
  | regg => unfold keepB; rw [hop]
  | memg => unfold keepB; rw [hop]

theorem synthNet_keep_of (g' : Graph) (f : Nat) (m : Net) (h : keepB g' m = true) :
    synthNet g' f m = ([m], f) := by
  rcases synthNet_spec g' f m with ⟨_, heq⟩ | ⟨hk, _⟩
  · exact heq
  · rw [h] at hk
    cases hk

theorem synthNets_keep (g' : Graph) :
    ∀ (ns : List Net) (f : Nat), (∀ m ∈ ns, keepB g' m = true) →
      synthNets g' ns f = (ns, f) := by
  intro ns
  induction ns with
  | nil => intro f _; rfl
  | cons n ns ih =>
    intro f hkeep
    show ((synthNet g' f n).1 ++ (synthNets g' ns (synthNet g' f n).2).1,
      (synthNets g' ns (synthNet g' f n).2).2) = (n :: ns, f)
    rw [synthNet_keep_of g' f n (hkeep n (List.mem_cons_self n ns))]
    rw [ih f (fun m hm => hkeep m (List.mem_cons_of_mem n hm))]
    rfl

theorem wiresOf_self (a : Nat) : wiresOf a a = [] := by
  unfold wiresOf
  rw [Nat.sub_self]
  rfl

theorem synthesize_of_keep (X : Graph) (hkeep : ∀ m ∈ X.nets, keepB X m = true) :
    synthesize X = X := by
  show (⟨X.wires ++ wiresOf (maxWid X + 1) (synthNets X X.nets (maxWid X + 1)).2,
    (synthNets X X.nets (maxWid X + 1)).1, X.outputs⟩ : Graph) = X
  rw [synthNets_keep X X.nets (maxWid X + 1) hkeep]
  dsimp only
  rw [wiresOf_self, List.append_nil]

/-- Claim C7: the synthesize pass is idempotent on well-formed graphs —
running it again on an already-synthesized graph returns the same graph
unchanged (a no-op). -/
theorem synthesize_idempotent (g : Graph) (hwf : g.WF) :
    synthesize (synthesize g) = synthesize g := by
  have hbb := synthesize_bitBlasted_aux g hwf
  unfold bitBlastedB at hbb
  rw [List.all_eq_true] at hbb
  exact synthesize_of_keep (synthesize g)
    (fun m hm => netBitOk_keep (synthesize g) m (hbb m hm))

theorem synthesize_idempotent_witness :
    exampleGraph.WF ∧ synthesize (synthesize exampleGraph) = synthesize exampleGraph :=
  ⟨by decide, synthesize_idempotent exampleGraph (by decide)⟩

/-! ## Semantic infrastructure for behavior preservation: claim C1 -/

theorem get?_eq_lookupN (v : Val) (i : Nat) : Val.get? v i = lookupN v i := rfl

theorem get?_cons (p : Nat × Nat) (v : Val) (i : Nat) :
    Val.get? (p :: v) i = if p.1 = i then some p.2 else Val.get? v i := by
  rw [get?_eq_lookupN, lookupN_cons, get?_eq_lookupN]

theorem stepNet_some (n : Net) (v : Val) (x : Nat) (h : evalNet v n = some x) :
    stepNet n v = (n.out, x) :: v := by
  unfold stepNet
  rw [h]

theorem stepNet_none (n : Net) (v : Val) (h : evalNet v n = none) :
    stepNet n v = v := by
  unfold stepNet
  rw [h]

theorem stepNet_out (n : Net) (v : Val) (i : Nat) (hne : n.out ≠ i) :
    (stepNet n v).get? i = v.get? i := by
  unfold stepNet
  cases evalNet v n with
  | none => rfl
  | some x => rw [get?_cons, if_neg hne]

theorem runNets_stable (i : Nat) :
    ∀ (ns : List Net) (v : Val), (∀ n ∈ ns, n.out ≠ i) →
      (runNets ns v).get? i = v.get? i := by
  intro ns
  induction ns with
  | nil => intro v _; rfl
  | cons n ns ih =>
    intro v h
    rw [runNets_cons, ih (stepNet n v) (fun m hm => h m (List.mem_cons_of_mem n hm))]
    exact stepNet_out n v i (h n (List.mem_cons_self n ns))

theorem evalNet_congr (v w : Val) (n : Net)
    (h : ∀ a ∈ n.ins, v.get? a = w.get? a) : evalNet v n = evalNet w n := by
  obtain ⟨op, ins, o⟩ := n
  simp only at h
  cases op with
  | andg =>
    unfold evalNet
    cases ins with
    | nil => rfl
    | cons a t =>
      cases t with
      | nil => rfl
      | cons b t2 =>
        cases t2 with
        | nil =>
          dsimp only
          rw [h a (by simp), h b (by simp)]
        | cons c t3 => rfl
  | org =>
    unfold evalNet
    cases ins with
    | nil => rfl
    | cons a t =>
      cases t with
      | nil => rfl
      | cons b t2 =>
        cases t2 with
        | nil =>
          dsimp only
          rw [h a (by simp), h b (by simp)]
        | cons c t3 => rfl
  | xorg =>
    unfold evalNet
    cases ins with
    | nil => rfl
    | cons a t =>
      cases t with
      | nil => rfl
      | cons b t2 =>
        cases t2 with
        | nil =>
          dsimp only
          rw [h a (by simp), h b (by simp)]
        | cons c t3 => rfl
  | notg w0 =>
    unfold evalNet
    cases ins with
    | nil => rfl
    | cons a t =>
      cases t with
      | nil =>
        dsimp only
        rw [h a (by simp)]
      | cons b t2 => rfl
  | addg =>
    unfold evalNet
    cases ins with
    | nil => rfl
    | cons a t =>
      cases t with
      | nil => rfl
      | cons b t2 =>
        cases t2 with
        | nil =>
          dsimp only
          rw [h a (by simp), h b (by simp)]
        | cons c t3 => rfl
  | selg bits =>
    unfold evalNet
    cases ins with
    | nil => rfl
    | cons a t =>
      cases t with
      | nil =>
        dsimp only
        rw [h a (by simp)]
      | cons b t2 => rfl
  | catg ws =>
    unfold evalNet
    dsimp only
    rw [mapM_congr _ _ ins h]
  | regg => rfl
  | memg => rfl

theorem evalNet_andg_some (v : Val) (a b o x y : Nat)
    (hx : v.get? a = some x) (hy : v.get? b = some y) :
    evalNet v ⟨.andg, [a, b], o⟩ = some (Nat.land x y) := by
  unfold evalNet
  dsimp only
  rw [hx, hy]
  rfl

theorem evalNet_org_some (v : Val) (a b o x y : Nat)
    (hx : v.get? a = some x) (hy : v.get? b = some y) :
    evalNet v ⟨.org, [a, b], o⟩ = some (Nat.lor x y) := by
  unfold evalNet
  dsimp only
  rw [hx, hy]
  rfl

theorem evalNet_xorg_some (v : Val) (a b o x y : Nat)
    (hx : v.get? a = some x) (hy : v.get? b = some y) :
    evalNet v ⟨.xorg, [a, b], o⟩ = some (Nat.xor x y) := by
  unfold evalNet
  dsimp only
  rw [hx, hy]
  rfl

theorem evalNet_notg_some (v : Val) (w a o x : Nat) (hx : v.get? a = some x) :
    evalNet v ⟨.notg w, [a], o⟩ = some (Nat.xor x (2 ^ w - 1)) := by
  unfold evalNet
  dsimp only
  rw [hx]
  rfl

theorem evalNet_addg_some (v : Val) (a b o x y : Nat)
    (hx : v.get? a = some x) (hy : v.get? b = some y) :
    evalNet v ⟨.addg, [a, b], o⟩ = some (x + y) := by
  unfold evalNet
  dsimp only
  rw [hx, hy]
  rfl

theorem evalNet_selg_some (v : Val) (bits : List Nat) (a o x : Nat)
    (hx : v.get? a = some x) :
    evalNet v ⟨.selg bits, [a], o⟩ = some (selBits x bits) := by
  unfold evalNet
  dsimp only
  rw [hx]
  rfl

theorem evalNet_catg_some (v : Val) (ws : List Nat) (ins : List Nat) (o : Nat)
    (xs : List Nat) (hxs : ins.mapM (fun a => v.get? a) = some xs) :
    evalNet v ⟨.catg ws, ins, o⟩ = some (catVals ws xs) := by
  unfold evalNet
  dsimp only
  rw [hxs]
  rfl

theorem testBit_false_of_lt {x w : Nat} (h : x < 2 ^ w) :
    ∀ i, w ≤ i → x.testBit i = false := by
  intro i hi
  exact Nat.testBit_lt_two_pow (lt_of_lt_of_le h (Nat.pow_le_pow_right (by omega) hi))

theorem land_lt_two_pow {x w : Nat} (y : Nat) (h : x < 2 ^ w) :
    Nat.land x y < 2 ^ w := by
  apply Nat.lt_pow_two_of_testBit
  intro i hi
  rw [show Nat.land x y = x &&& y from rfl, Nat.testBit_and,
    testBit_false_of_lt h i hi]
  rfl

theorem lor_lt_two_pow {x y w : Nat} (hx : x < 2 ^ w) (hy : y < 2 ^ w) :
    Nat.lor x y < 2 ^ w := by
  apply Nat.lt_pow_two_of_testBit
  intro i hi
  rw [show Nat.lor x y = x ||| y from rfl, Nat.testBit_or,
    testBit_false_of_lt hx i hi, testBit_false_of_lt hy i hi]
  rfl

theorem xor_lt_two_pow {x y w : Nat} (hx : x < 2 ^ w) (hy : y < 2 ^ w) :
    Nat.xor x y < 2 ^ w := by
  apply Nat.lt_pow_two_of_testBit
  intro i hi
  rw [show Nat.xor x y = x ^^^ y from rfl, Nat.testBit_xor,
    testBit_false_of_lt hx i hi, testBit_false_of_lt hy i hi]
  rfl

theorem two_pow_sub_one_lt (w : Nat) : 2 ^ w - 1 < 2 ^ w := by
  have : 0 < 2 ^ w := Nat.pos_pow_of_pos w (by omega)
  omega

theorem bitsToNat_lt (l : List Bool) : bitsToNat l < 2 ^ l.length := by
  induction l with
  | nil => simp [bitsToNat]
  | cons b bs ih =>
    unfold bitsToNat
    rw [List.length_cons, Nat.pow_succ]
    cases b
    · rw [if_neg (by simp)]
      omega
    · rw [if_pos rfl]
      omega

theorem selBits_lt (x : Nat) (bits : List Nat) :
    selBits x bits < 2 ^ bits.length := by
  unfold selBits
  have := bitsToNat_lt (bits.map (fun b => x.testBit b))
  rwa [List.length_map] at this

theorem catVals_lt :
    ∀ (ws xs : List Nat), xs.length = ws.length →
      (∀ p ∈ xs.zip ws, p.1 < 2 ^ p.2) →
      catVals ws xs < 2 ^ ws.sum := by
  intro ws
  induction ws with
  | nil =>
    intro xs _ _
    cases xs <;> simp [catVals]
  | cons w ws ih =>
    intro xs hlen hbound
    cases xs with
    | nil => cases hlen
    | cons x xs =>
      show x + 2 ^ w * catVals ws xs < 2 ^ (w :: ws).sum
      have hx : x < 2 ^ w := hbound (x, w) (by simp [List.zip_cons_cons])
      have hc : catVals ws xs < 2 ^ ws.sum := by
        apply ih xs (by simpa using hlen)
        intro p hp
        exact hbound p (by simp [List.zip_cons_cons, hp])
      have hsum : (w :: ws).sum = w + ws.sum := by simp
      rw [hsum, Nat.pow_add]
      calc x + 2 ^ w * catVals ws xs
          < 2 ^ w + 2 ^ w * catVals ws xs := by omega
        _ = 2 ^ w * (catVals ws xs + 1) := by ring
        _ ≤ 2 ^ w * 2 ^ ws.sum := Nat.mul_le_mul_left _ (by omega)

theorem catg_eval_bound (g : Graph) (v : Val) :
    ∀ (ins ws : List Nat), ins.length = ws.length →
      (∀ p ∈ ins.zip ws, widthOf g p.1 = p.2) →
      (∀ a ∈ ins, ∃ x, v.get? a = some x ∧ x < 2 ^ widthOf g a) →
      ∃ xs, ins.mapM (fun a => v.get? a) = some xs ∧ catVals ws xs < 2 ^ ws.sum := by
  intro ins
  induction ins with
  | nil =>
    intro ws hlen _ _
    cases ws with
    | nil => exact ⟨[], rfl, by simp [catVals]⟩
    | cons w ws => cases hlen
  | cons a ins ih =>
    intro ws hlen hzip hval
    cases ws with
    | nil => cases hlen
    | cons w ws =>
      obtain ⟨x, hx, hxb⟩ := hval a (List.mem_cons_self a ins)
      obtain ⟨xs, hxs, hcb⟩ := ih ws (by simpa using hlen)
        (fun p hp => hzip p (by simp [List.zip_cons_cons, hp]))
        (fun a' ha' => hval a' (List.mem_cons_of_mem a ha'))
      refine ⟨x :: xs, ?_, ?_⟩
      · rw [List.mapM_cons, hx, hxs]
        rfl
      · have hwa : widthOf g a = w := hzip (a, w) (by simp [List.zip_cons_cons])
        show x + 2 ^ w * catVals ws xs < 2 ^ (w :: ws).sum
        rw [show (w :: ws).sum = w + ws.sum by simp, Nat.pow_add]
        rw [hwa] at hxb
        calc x + 2 ^ w * catVals ws xs
            < 2 ^ w + 2 ^ w * catVals ws xs := by omega
          _ = 2 ^ w * (catVals ws xs + 1) := by ring
          _ ≤ 2 ^ w * 2 ^ ws.sum := Nat.mul_le_mul_left _ (by omega)

theorem evalNet_wf (g : Graph) (n : Net) (v : Val)
    (hok : netOkB g n = true) (hcomb : isCombB n.op = true)
    (hins : ∀ a ∈ n.ins, ∃ x, v.get? a = some x ∧ x < 2 ^ widthOf g a) :
    ∃ x, evalNet v n = some x ∧ x < 2 ^ widthOf g n.out := by
  obtain ⟨op, ins, o⟩ := n
  simp only at hins hcomb ⊢
  cases op with
  | andg =>
    obtain ⟨a, b, heq, _, _, _, hqa, hqb⟩ := netOk_elim_andg g ⟨.andg, ins, o⟩ rfl hok
    simp only at heq hqa hqb
    subst heq
    obtain ⟨x, hx, hxb⟩ := hins a (by simp)
    obtain ⟨y, hy, _⟩ := hins b (by simp)
    refine ⟨Nat.land x y, evalNet_andg_some v a b o x y hx hy, ?_⟩
    rw [hqa] at hxb
    exact land_lt_two_pow y hxb
  | org =>
    obtain ⟨a, b, heq, _, _, _, hqa, hqb⟩ := netOk_elim_org g ⟨.org, ins, o⟩ rfl hok
    simp only at heq hqa hqb
    subst heq
    obtain ⟨x, hx, hxb⟩ := hins a (by simp)
    obtain ⟨y, hy, hyb⟩ := hins b (by simp)
    refine ⟨Nat.lor x y, evalNet_org_some v a b o x y hx hy, ?_⟩
    rw [hqa] at hxb
    rw [hqb] at hyb
    exact lor_lt_two_pow hxb hyb
  | xorg =>
    obtain ⟨a, b, heq, _, _, _, hqa, hqb⟩ := netOk_elim_xorg g ⟨.xorg, ins, o⟩ rfl hok
    simp only at heq hqa hqb
    subst heq
    obtain ⟨x, hx, hxb⟩ := hins a (by simp)
    obtain ⟨y, hy, hyb⟩ := hins b (by simp)
    refine ⟨Nat.xor x y, evalNet_xorg_some v a b o x y hx hy, ?_⟩
    rw [hqa] at hxb
    rw [hqb] at hyb
    exact xor_lt_two_pow hxb hyb
  | notg w =>
    obtain ⟨a, heq, _, _, hqa, hqo⟩ := netOk_elim_notg g ⟨.notg w, ins, o⟩ w rfl hok
    simp only at heq hqa hqo
    subst heq
    obtain ⟨x, hx, hxb⟩ := hins a (by simp)
    refine ⟨Nat.xor x (2 ^ w - 1), evalNet_notg_some v w a o x hx, ?_⟩
    rw [hqa] at hxb
    rw [hqo]
    exact xor_lt_two_pow hxb (two_pow_sub_one_lt w)
  | addg =>
    obtain ⟨a, b, heq, _, _, _, hqab, hqo⟩ := netOk_elim_addg g ⟨.addg, ins, o⟩ rfl hok
    simp only at heq hqab hqo
    subst heq
    obtain ⟨x, hx, hxb⟩ := hins a (by simp)
    obtain ⟨y, hy, hyb⟩ := hins b (by simp)
    refine ⟨x + y, evalNet_addg_some v a b o x y hx hy, ?_⟩
    rw [hqo, Nat.pow_succ]
    rw [← hqab] at hyb
    omega
  | selg bits =>
    obtain ⟨a, heq, _, _, _, hqo⟩ := netOk_elim_selg g ⟨.selg bits, ins, o⟩ bits rfl hok
    simp only at heq hqo
    subst heq
    obtain ⟨x, hx, _⟩ := hins a (by simp)
    refine ⟨selBits x bits, evalNet_selg_some v bits a o x hx, ?_⟩
    rw [hqo]
    exact selBits_lt x bits
  | catg ws =>
    obtain ⟨_, _, hlen, hzip, hqo⟩ := netOk_elim_catg g ⟨.catg ws, ins, o⟩ ws rfl hok
    simp only at hlen hzip hqo
    obtain ⟨xs, hxs, hb⟩ := catg_eval_bound g v ins ws hlen hzip hins
    refine ⟨catVals ws xs, evalNet_catg_some v ws ins o xs hxs, ?_⟩
    rw [hqo]
    exact hb
  | regg => rw [show isCombB Op.regg = false from rfl] at hcomb; cases hcomb
  | memg => rw [show isCombB Op.memg = false from rfl] at hcomb; cases hcomb

/-! ## Lookup lemmas for the initial and constant valuations -/

theorem initList_get? (g : Graph) (env : Nat → Nat)
    (hnd : nodupB (g.wires.map (fun w => w.wid)) = true) (i : Nat) :
    (initList g env).get? i =
      (match g.wire? i with
       | some w => (srcVal env w).map (fun p => p.2)
       | none => none) := by
  rw [get?_eq_lookupN]
  unfold initList
  rw [lookupN_filterMap (srcVal env) (by
    intro w p hp
    unfold srcVal at hp
    cases hk : w.kind <;> rw [hk] at hp <;> first
      | (injection hp with hp1; rw [← hp1])
      | cases hp)
    g.wires i hnd]
  rfl

theorem constList_get? (g : Graph)
    (hnd : nodupB (g.wires.map (fun w => w.wid)) = true) (i : Nat) :
    (constList g).get? i = constVal? g i := by
  rw [get?_eq_lookupN]
  unfold constList
  rw [lookupN_filterMap _ (by
    intro w p hp
    cases hk : w.kind <;> rw [hk] at hp <;> first
      | (injection hp with hp1; rw [← hp1])
      | cases hp)
    g.wires i hnd]
  rw [show (List.find? (fun w => decide (w.wid = i)) g.wires) = g.wire? i from rfl]
  unfold constVal?
  cases hw : g.wire? i with
  | none => rfl
  | some w =>
    show Option.map (fun p => (p : Nat × Nat).2)
      (match w.kind with
       | WK.cst x => some (w.wid, x % 2 ^ w.width)
       | _ => none) =
      (match w.kind with
       | WK.cst x => some (x % 2 ^ w.width)
       | _ => none)
    cases w.kind <;> rfl

theorem initList_source (g : Graph) (env : Nat → Nat)
    (hnd : nodupB (g.wires.map (fun w => w.wid)) = true) (i : Nat)
    (hsrc : isSourceB g i = true) :
    ∃ x, (initList g env).get? i = some x ∧ x < 2 ^ widthOf g i := by
  rw [initList_get? g env hnd i]
  unfold isSourceB at hsrc
  cases hw : g.wire? i with
  | none => rw [hw] at hsrc; cases hsrc
  | some w =>
    rw [hw] at hsrc
    have hwidth : widthOf g i = w.width := by unfold widthOf; rw [hw]
    rw [hwidth]
    have hpos : 0 < 2 ^ w.width := Nat.pos_pow_of_pos _ (by omega)
    replace hsrc : (match w.kind with
      | WK.normal => false
      | _ => true) = true := hsrc
    show ∃ x, Option.map (fun p => (p : Nat × Nat).2) (srcVal env w) = some x ∧
      x < 2 ^ w.width
    unfold srcVal
    cases hk : w.kind <;> rw [hk] at hsrc
    · exact ⟨env w.wid % 2 ^ w.width, rfl, Nat.mod_lt _ hpos⟩
    · rename_i x
      exact ⟨x % 2 ^ w.width, rfl, Nat.mod_lt _ hpos⟩
    · exact ⟨env w.wid % 2 ^ w.width, rfl, Nat.mod_lt _ hpos⟩
    · exact ⟨env w.wid % 2 ^ w.width, rfl, Nat.mod_lt _ hpos⟩
    · cases hsrc

theorem initList_not_source (g : Graph) (env : Nat → Nat)
    (hnd : nodupB (g.wires.map (fun w => w.wid)) = true) (i : Nat)
    (hsrc : isSourceB g i = false) :
    (initList g env).get? i = none := by
  rw [initList_get? g env hnd i]
  unfold isSourceB at hsrc
  cases hw : g.wire? i with
  | none => rfl
  | some w =>
    rw [hw] at hsrc
    replace hsrc : (match w.kind with
      | WK.normal => false
      | _ => true) = false := hsrc
    show Option.map (fun p => (p : Nat × Nat).2) (srcVal env w) = none
    unfold srcVal
    cases hk : w.kind <;> rw [hk] at hsrc <;> first
      | rfl
      | cases hsrc

theorem initList_const (g : Graph) (env : Nat → Nat)
    (hnd : nodupB (g.wires.map (fun w => w.wid)) = true) (i c : Nat)
    (hc : constVal? g i = some c) :
    (initList g env).get? i = some c := by
  rw [initList_get? g env hnd i]
  unfold constVal? at hc
  cases hw : g.wire? i with
  | none => rw [hw] at hc; cases hc
  | some w =>
    rw [hw] at hc
    replace hc : (match w.kind with
      | WK.cst x => some (x % 2 ^ w.width)
      | _ => none) = some c := hc
    show Option.map (fun p => (p : Nat × Nat).2) (srcVal env w) = some c
    unfold srcVal
    cases hk : w.kind <;> rw [hk] at hc <;> cases hc <;> rfl

theorem constVal?_lt (g : Graph) (i c : Nat) (hc : constVal? g i = some c) :
    c < 2 ^ widthOf g i := by
  unfold constVal? at hc
  cases hw : g.wire? i with
  | none => rw [hw] at hc; cases hc
  | some w =>
    rw [hw] at hc
    have hwidth : widthOf g i = w.width := by unfold widthOf; rw [hw]
    rw [hwidth]
    replace hc : (match w.kind with
      | WK.cst x => some (x % 2 ^ w.width)
      | _ => none) = some c := hc
    cases hk : w.kind <;> rw [hk] at hc
    case cst x =>
      injection hc with hc1
      rw [← hc1]
      exact Nat.mod_lt _ (Nat.pos_pow_of_pos _ (by omega))
    all_goals cases hc

theorem constVal?_not_normal (g : Graph) (i : Nat)
    (h : kindIs g i .normal = true) : constVal? g i = none := by
  unfold kindIs at h
  unfold constVal?
  cases hw : g.wire? i with
  | none => rfl
  | some w =>
    rw [hw] at h
    simp only [decide_eq_true_eq] at h
    show (match w.kind with
      | WK.cst x => some (x % 2 ^ w.width)
      | _ => none) = none
    rw [h]

theorem evalNet_some_comb (v : Val) (n : Net) (x : Nat) (h : evalNet v n = some x) :
    isCombB n.op = true := by
  cases hop : n.op <;> first
    | rfl
    | (unfold evalNet at h; rw [hop] at h; cases h)


theorem mapM_some_isSome (f : Nat → Option Nat) (l : List Nat) (xs : List Nat) (a : Nat)
    (h : l.mapM f = some xs) (ha : a ∈ l) : (f a).isSome = true := by
  induction l generalizing xs with
  | nil => cases ha
  | cons b bs ih =>
    rw [List.mapM_cons] at h
    cases hb : f b with
    | none => rw [hb] at h; cases h
    | some y =>
      rw [hb] at h
      cases hbs : bs.mapM f with
      | none => rw [hbs] at h; cases h
      | some ys =>
        rcases List.mem_cons.mp ha with hh | hh
        · rw [hh, hb]; rfl
        · exact ih ys (by rw [hbs]) hh

theorem evalNet_some_ins (v : Val) (n : Net) (x : Nat) (h : evalNet v n = some x) :
    ∀ a ∈ n.ins, (v.get? a).isSome = true := by
  obtain ⟨op, ins, o⟩ := n
  simp only
  intro a ha
  unfold evalNet at h
  cases op <;> dsimp only at h
  case regg => cases h
  case memg => cases h
  case catg ws =>
    cases hm : ins.mapM (fun a => v.get? a) with
    | none => rw [hm] at h; cases h
    | some xs => exact mapM_some_isSome _ ins xs a hm ha
  case notg w =>
    cases ins with
    | nil => cases h
    | cons p q =>
      cases q with
      | nil =>
        dsimp only at h
        rcases List.mem_cons.mp ha with hh | hh
        · rw [hh]
          cases hp : v.get? p with
          | none => rw [hp] at h; cases h
          | some y => rfl
        · cases hh
      | cons r s => cases h
  case selg bits =>
    cases ins with
    | nil => cases h
    | cons p q =>
      cases q with
      | nil =>
        dsimp only at h
        rcases List.mem_cons.mp ha with hh | hh
        · rw [hh]
          cases hp : v.get? p with
          | none => rw [hp] at h; cases h
          | some y => rfl
        · cases hh
      | cons r s => cases h
  all_goals (
    cases ins with
    | nil => cases h
    | cons p q =>
      cases q with
      | nil => cases h
      | cons r s =>
        cases s with
        | cons u t => cases h
        | nil =>
          dsimp only at h
          rcases List.mem_cons.mp ha with hh | hh
          · rw [hh]
            cases hp : v.get? p with
            | none => rw [hp] at h; cases h
            | some y => rfl
          · rcases List.mem_cons.mp hh with hh2 | hh2
            · rw [hh2]
              cases hr : v.get? r with
              | none =>
                cases hp : v.get? p with
                | none => rw [hp] at h; cases h
                | some y => rw [hp, hr] at h; cases h
              | some y => rfl
            · cases hh2)

theorem mapM_map_eq (f : Nat → Nat) (k : Nat → Option Nat) :
    ∀ (l : List Nat), (l.map f).mapM k = l.mapM (fun a => k (f a)) := by
  intro l
  induction l with
  | nil => rfl
  | cons b bs ih =>
    rw [List.map_cons, List.mapM_cons, List.mapM_cons, ih]

theorem evalNet_map_ins (v v2 : Val) (n : Net) (f : Nat → Nat)
    (h : ∀ a ∈ n.ins, v.get? a = v2.get? (f a)) :
    evalNet v n = evalNet v2 ⟨n.op, n.ins.map f, n.out⟩ := by
  obtain ⟨op, ins, o⟩ := n
  simp only at h
  cases op with
  | andg =>
    unfold evalNet
    cases ins with
    | nil => rfl
    | cons a t =>
      cases t with
      | nil => rfl
      | cons b t2 =>
        cases t2 with
        | nil =>
          dsimp only [List.map_cons, List.map_nil]
          rw [h a (by simp), h b (by simp)]
        | cons c t3 => rfl
  | org =>
    unfold evalNet
    cases ins with
    | nil => rfl
    | cons a t =>
      cases t with
      | nil => rfl
      | cons b t2 =>
        cases t2 with
        | nil =>
          dsimp only [List.map_cons, List.map_nil]
          rw [h a (by simp), h b (by simp)]
        | cons c t3 => rfl
  | xorg =>
    unfold evalNet
    cases ins with
    | nil => rfl
    | cons a t =>
      cases t with
      | nil => rfl
      | cons b t2 =>
        cases t2 with
        | nil =>
          dsimp only [List.map_cons, List.map_nil]
          rw [h a (by simp), h b (by simp)]
        | cons c t3 => rfl
  | notg w0 =>
    unfold evalNet
    cases ins with
    | nil => rfl
    | cons a t =>
      cases t with
      | nil =>
        dsimp only [List.map_cons, List.map_nil]
        rw [h a (by simp)]
      | cons b t2 => rfl
  | addg =>
    unfold evalNet
    cases ins with
    | nil => rfl
    | cons a t =>
      cases t with
      | nil => rfl
      | cons b t2 =>
        cases t2 with
        | nil =>
          dsimp only [List.map_cons, List.map_nil]
          rw [h a (by simp), h b (by simp)]
        | cons c t3 => rfl
  | selg bits =>
    unfold evalNet
    cases ins with
    | nil => rfl
    | cons a t =>
      cases t with
      | nil =>
        dsimp only [List.map_cons, List.map_nil]
        rw [h a (by simp)]
      | cons b t2 => rfl
  | catg ws =>
    unfold evalNet
    dsimp only
    rw [mapM_map_eq f (fun a => v2.get? a) ins, mapM_congr _ _ ins h]
  | regg => rfl
  | memg => rfl

theorem nodupB_head (x : Nat) (xs : List Nat) (h : nodupB (x :: xs) = true) :
    x ∉ xs ∧ nodupB xs = true := (nodupB_cons x xs).mp h

theorem mem_of_contains (xs : List Nat) (x : Nat) (h : xs.contains x = true) :
    x ∈ xs := by
  simpa [List.contains] using h

theorem contains_of_mem (xs : List Nat) (x : Nat) (h : x ∈ xs) :
    xs.contains x = true := by
  simpa [List.contains] using h

theorem nodupB_of_sublist (l1 l2 : List Nat) (hs : l1.Sublist l2)
    (h : nodupB l2 = true) : nodupB l1 = true := by
  induction hs with
  | slnil => rfl
  | cons a hsub ih => exact ih (nodupB_head _ _ h).2
  | cons₂ a hsub ih =>
    obtain ⟨hna, h2⟩ := nodupB_head _ _ h
    rw [nodupB_cons]
    exact ⟨fun hm => hna (hsub.mem hm), ih h2⟩

/-! ## Constant propagation: lookup of the folded assignments -/

theorem cpropFolded_mem (g : Graph) (p : Nat × Nat) (hp : p ∈ cpropFolded g) :
    ∃ n ∈ g.nets, cpropNet g n = some p.2 ∧ n.out = p.1 := by
  unfold cpropFolded at hp
  rw [List.mem_filterMap] at hp
  obtain ⟨n, hn, he⟩ := hp
  cases hc : cpropNet g n with
  | none => rw [hc] at he; cases he
  | some x =>
    rw [hc] at he
    injection he with he
    refine ⟨n, hn, ?_, ?_⟩
    · rw [hc, ← he]
    · rw [← he]

theorem find?_cpropFolded_none (g : Graph) (i : Nat)
    (h : ∀ n ∈ g.nets, n.out = i → cpropNet g n = none) :
    List.find? (fun p => p.1 = i) (cpropFolded g) = none := by
  rw [List.find?_eq_none]
  intro p hp
  obtain ⟨n, hn, hc, ho⟩ := cpropFolded_mem g p hp
  simp only [decide_eq_true_eq]
  intro he
  rw [h n hn (by rw [ho, he])] at hc
  cases hc

theorem find?_filterMap_folded (g : Graph) (n : Net) (x : Nat)
    (hx : cpropNet g n = some x) :
    ∀ (ns : List Net), nodupB (ns.map (fun m => m.out)) = true → n ∈ ns →
      List.find? (fun p => p.1 = n.out)
        (ns.filterMap (fun m => (cpropNet g m).map (fun y => (m.out, y)))) =
        some (n.out, x) := by
  intro ns
  induction ns with
  | nil => intro _ hn; cases hn
  | cons m ms ih =>
    intro hnd hn
    obtain ⟨hno, hnd2⟩ := nodupB_head _ _ (by
      rw [List.map_cons] at hnd; exact hnd)
    rw [List.filterMap_cons]
    rcases List.mem_cons.mp hn with he | he
    · rw [← he, hx]
      show List.find? (fun p => decide (p.1 = n.out)) ((n.out, x) :: _) = some (n.out, x)
      rw [List.find?_cons_of_pos _ (by simp)]
    · have hne : m.out ≠ n.out := by
        intro hc
        exact hno (by rw [hc]; exact List.mem_map_of_mem (fun m => m.out) he)
      cases hc : cpropNet g m with
      | none => exact ih hnd2 he
      | some y =>
        show List.find? (fun p => decide (p.1 = n.out)) ((m.out, y) :: _) = some (n.out, x)
        rw [List.find?_cons_of_neg _ (by simp only [decide_eq_true_eq]; exact hne)]
        exact ih hnd2 he

theorem find?_cpropFolded_some (g : Graph) (n : Net)
    (hnd : nodupB (g.nets.map (fun m => m.out)) = true)
    (hn : n ∈ g.nets) (x : Nat) (hx : cpropNet g n = some x) :
    List.find? (fun p => p.1 = n.out) (cpropFolded g) = some (n.out, x) :=
  find?_filterMap_folded g n x hx g.nets hnd hn

/-! ## Constant propagation: the wires of the rewritten graph -/

theorem find?_pred_congr (p q : Wire → Bool) :
    ∀ (l : List Wire), (∀ a ∈ l, p a = q a) → l.find? p = l.find? q := by
  intro l
  induction l with
  | nil => intro _; rfl
  | cons a as ih =>
    intro h
    simp only [List.find?]
    rw [h a (List.mem_cons_self a as), ih (fun b hb => h b (List.mem_cons_of_mem a hb))]

theorem wire?_cprop (g : Graph) (i : Nat) :
    (cprop g).wire? i = (g.wire? i).map (fun w =>
      match List.find? (fun p => p.1 = w.wid) (cpropFolded g) with
      | some p => ⟨w.wid, w.width, .cst p.2⟩
      | none => w) := by
  unfold Graph.wire? cprop
  dsimp only
  rw [List.find?_map]
  rw [find?_pred_congr _ (fun w => decide (w.wid = i)) g.wires (by
    intro w _
    simp only [Function.comp]
    dsimp only
    cases List.find? (fun (p : Nat × Nat) => decide (p.1 = w.wid)) (cpropFolded g) <;> rfl)]

theorem hasWire_cprop (g : Graph) (i : Nat) : hasWire (cprop g) i = hasWire g i := by
  unfold hasWire
  rw [wire?_cprop]
  cases g.wire? i <;> rfl

theorem widthOf_cprop (g : Graph) (i : Nat) : widthOf (cprop g) i = widthOf g i := by
  unfold widthOf
  rw [wire?_cprop]
  cases hw : g.wire? i with
  | none => rfl
  | some w =>
    show (match List.find? (fun (p : Nat × Nat) => decide (p.1 = w.wid)) (cpropFolded g) with
      | some p => (⟨w.wid, w.width, .cst p.2⟩ : Wire)
      | none => w).width = w.width
    cases List.find? (fun (p : Nat × Nat) => decide (p.1 = w.wid)) (cpropFolded g) <;> rfl

theorem isSourceB_cprop_mono (g : Graph) (i : Nat) (h : isSourceB g i = true) :
    isSourceB (cprop g) i = true := by
  unfold isSourceB at h ⊢
  rw [wire?_cprop]
  cases hw : g.wire? i with
  | none => rw [hw] at h; cases h
  | some w =>
    rw [hw] at h
    show (match (match List.find? (fun (p : Nat × Nat) => decide (p.1 = w.wid)) (cpropFolded g) with
      | some p => (⟨w.wid, w.width, .cst p.2⟩ : Wire)
      | none => w).kind with
      | WK.normal => false
      | _ => true) = true
    cases List.find? (fun (p : Nat × Nat) => decide (p.1 = w.wid)) (cpropFolded g) with
    | some p => rfl
    | none => exact h

theorem cprop_wire?_not_folded (g : Graph) (i : Nat)
    (h : ∀ n ∈ g.nets, n.out = i → cpropNet g n = none) :
    (cprop g).wire? i = g.wire? i := by
  rw [wire?_cprop]
  cases hw : g.wire? i with
  | none => rfl
  | some w =>
    have hwid := (wire?_mem g i w hw).2
    show some (match List.find? (fun (p : Nat × Nat) => decide (p.1 = w.wid)) (cpropFolded g) with
      | some p => (⟨w.wid, w.width, .cst p.2⟩ : Wire)
      | none => w) = some w
    rw [hwid, find?_cpropFolded_none g i h]

theorem cprop_wire?_folded (g : Graph) (n : Net) (x : Nat) (w : Wire)
    (hnd : nodupB (g.nets.map (fun m => m.out)) = true)
    (hn : n ∈ g.nets) (hx : cpropNet g n = some x)
    (hw : g.wire? n.out = some w) :
    (cprop g).wire? n.out = some ⟨n.out, w.width, .cst x⟩ := by
  rw [wire?_cprop, hw]
  have hwid := (wire?_mem g n.out w hw).2
  show some (match List.find? (fun (p : Nat × Nat) => decide (p.1 = w.wid)) (cpropFolded g) with
    | some p => (⟨w.wid, w.width, .cst p.2⟩ : Wire)
    | none => w) = some (⟨n.out, w.width, .cst x⟩ : Wire)
  rw [hwid, find?_cpropFolded_some g n hnd hn x hx]

/-! ## Constant propagation: the initial valuation of the rewritten graph -/

theorem cprop_wid_map (g : Graph) :
    (cprop g).wires.map (fun w => w.wid) = g.wires.map (fun w => w.wid) := by
  unfold cprop
  dsimp only
  rw [List.map_map]
  apply List.map_congr_left
  intro w _
  simp only [Function.comp]
  cases List.find? (fun (p : Nat × Nat) => decide (p.1 = w.wid)) (cpropFolded g) <;> rfl

theorem cpropNet_lt (g : Graph) (n : Net) (x : Nat)
    (hndw : nodupB (g.wires.map (fun w => w.wid)) = true)
    (hok : netOkB g n = true) (hx : cpropNet g n = some x) :
    x < 2 ^ widthOf g n.out := by
  have hx' : evalNet (constList g) n = some x := hx
  obtain ⟨y, hy, hyb⟩ := evalNet_wf g n (constList g) hok
    (evalNet_some_comb _ _ _ hx') (by
      intro a ha
      have hs := evalNet_some_ins (constList g) n x hx' a ha
      cases hg : (constList g).get? a with
      | none => rw [hg] at hs; cases hs
      | some c =>
        have hcv : constVal? g a = some c := by rw [← constList_get? g hndw a, hg]
        exact ⟨c, rfl, constVal?_lt g a c hcv⟩)
  rw [hy] at hx'
  injection hx' with he
  rw [← he]
  exact hyb

theorem initList_cprop_not_folded (g : Graph) (env : Nat → Nat) (i : Nat)
    (hndw : nodupB (g.wires.map (fun w => w.wid)) = true)
    (h : ∀ n ∈ g.nets, n.out = i → cpropNet g n = none) :
    (initList (cprop g) env).get? i = (initList g env).get? i := by
  rw [initList_get? (cprop g) env (by rw [cprop_wid_map]; exact hndw) i,
    initList_get? g env hndw i, cprop_wire?_not_folded g i h]

theorem initList_cprop_folded (g : Graph) (env : Nat → Nat) (n : Net) (x : Nat)
    (hndw : nodupB (g.wires.map (fun w => w.wid)) = true)
    (hndo : nodupB (g.nets.map (fun m => m.out)) = true)
    (hn : n ∈ g.nets) (hok : netOkB g n = true) (hx : cpropNet g n = some x) :
    (initList (cprop g) env).get? n.out = some x := by
  have hcomb : isCombB n.op = true := evalNet_some_comb _ _ _ hx
  have hkind := netOk_comb_out_kind g n hok hcomb
  have hw : ∃ w, g.wire? n.out = some w := by
    unfold kindIs at hkind
    cases hw : g.wire? n.out with
    | none => rw [hw] at hkind; cases hkind
    | some w => exact ⟨w, rfl⟩
  obtain ⟨w, hw⟩ := hw
  rw [initList_get? (cprop g) env (by rw [cprop_wid_map]; exact hndw) n.out,
    cprop_wire?_folded g n x w hndo hn hx hw]
  have hxb : x < 2 ^ w.width := by
    have := cpropNet_lt g n x hndw hok hx
    unfold widthOf at this
    rw [hw] at this
    exact this
  show some (x % 2 ^ w.width) = some x
  rw [Nat.mod_eq_of_lt hxb]

/-! ## Constant propagation: the parallel run of original and rewritten nets -/

theorem cprop_run (g : Graph) :
    ∀ (ns : List Net) (A : List Nat) (v v2 : Val),
      nodupB (g.wires.map (fun w => w.wid)) = true →
      (∀ n ∈ ns, netOkB g n = true) →
      topoB g ns A = true →
      nodupB (ns.map (fun n => n.out)) = true →
      (∀ n ∈ ns, n.out ∉ A) →
      (∀ a c, constVal? g a = some c → v.get? a = some c) →
      (∀ i, (∀ m ∈ ns, m.out = i → cpropNet g m = none) → v2.get? i = v.get? i) →
      (∀ m ∈ ns, ∀ x, cpropNet g m = some x →
        v2.get? m.out = some x ∧ v.get? m.out = none) →
      ∀ i, (runNets (ns.filter (fun n => (cpropNet g n).isNone)) v2).get? i =
        (runNets ns v).get? i := by
  intro ns
  induction ns with
  | nil =>
    intro A v v2 _ _ _ _ _ _ H2a _ i
    exact H2a i (fun m hm => absurd hm (List.not_mem_nil m))
  | cons n ns ih =>
    intro A v v2 hndw hok htopo hnd hA HC H2a H2b i
    obtain ⟨htopo1, htopo2⟩ := (topoB_cons g n ns A).mp htopo
    obtain ⟨hno, hnd2⟩ := nodupB_head _ _ (by rw [List.map_cons] at hnd; exact hnd)
    have hokn := hok n (List.mem_cons_self n ns)
    have hok2 : ∀ m ∈ ns, netOkB g m = true :=
      fun m hm => hok m (List.mem_cons_of_mem n hm)
    have houtne : ∀ m ∈ ns, m.out ≠ n.out := by
      intro m hm he
      exact hno (by rw [← he]; exact List.mem_map_of_mem (fun n => n.out) hm)
    have hA2 : ∀ m ∈ ns, m.out ∉ (n.out :: A) := by
      intro m hm hmem
      rcases List.mem_cons.mp hmem with he | he
      · exact houtne m hm he
      · exact hA m (List.mem_cons_of_mem n hm) he
    cases hcn : cpropNet g n with
    | some x =>
      have hcomb : isCombB n.op = true := evalNet_some_comb _ _ _ hcn
      have hkind := netOk_comb_out_kind g n hokn hcomb
      have hcv : constVal? g n.out = none := constVal?_not_normal g n.out hkind
      have heval : evalNet v n = some x := by
        rw [evalNet_congr v (constList g) n (by
          intro a ha
          have hs := evalNet_some_ins (constList g) n x hcn a ha
          cases hg : (constList g).get? a with
          | none => rw [hg] at hs; cases hs
          | some c =>
            rw [HC a c (by rw [← constList_get? g hndw a, hg])])]
        exact hcn
      rw [show (n :: ns).filter (fun n => (cpropNet g n).isNone) =
        ns.filter (fun n => (cpropNet g n).isNone) from
          List.filter_cons_of_neg (by simp [hcn])]
      rw [runNets_cons, stepNet_some n v x heval]
      refine ih (n.out :: A) ((n.out, x) :: v) v2 hndw hok2 htopo2 hnd2 hA2 ?_ ?_ ?_ i
      · intro a c hc
        rw [get?_cons]
        rw [if_neg (by
          intro he
          have he2 : n.out = a := he
          rw [← he2] at hc
          rw [hcv] at hc
          cases hc)]
        exact HC a c hc
      · intro j hj
        rw [get?_cons]
        by_cases hje : n.out = j
        · rw [if_pos hje, ← hje]
          exact (H2b n (List.mem_cons_self n ns) x hcn).1
        · rw [if_neg hje]
          exact H2a j (by
            intro m hm hml
            rcases List.mem_cons.mp hm with he | he
            · rw [he] at hml
              exact absurd hml hje
            · exact hj m he hml)
      · intro m hm x' hx'
        refine ⟨(H2b m (List.mem_cons_of_mem n hm) x' hx').1, ?_⟩
        rw [get?_cons, if_neg (fun he => houtne m hm he.symm)]
        exact (H2b m (List.mem_cons_of_mem n hm) x' hx').2
    | none =>
      have hagree : ∀ a ∈ n.ins, v2.get? a = v.get? a := by
        intro a ha
        refine H2a a ?_
        intro m hm hml
        cases hcm : cpropNet g m with
        | none => rfl
        | some y =>
          exfalso
          have hcombm : isCombB m.op = true := evalNet_some_comb _ _ _ hcm
          have hkindm := netOk_comb_out_kind g m (hok m hm) hcombm
          rcases htopo1 a ha with hsrc | hmem
          · rw [← hml] at hsrc
            rw [kindIs_normal_not_source g m.out hkindm] at hsrc
            cases hsrc
          · rcases List.mem_cons.mp hm with he | he
            · exact hA n (List.mem_cons_self n ns) (by rw [← he, hml]; exact hmem)
            · exact hA m hm (by rw [hml]; exact hmem)
      have heq : evalNet v2 n = evalNet v n := evalNet_congr v2 v n hagree
      rw [show (n :: ns).filter (fun n => (cpropNet g n).isNone) =
        n :: ns.filter (fun n => (cpropNet g n).isNone) from
          List.filter_cons_of_pos (by simp [hcn])]
      rw [runNets_cons, runNets_cons]
      cases hev : evalNet v n with
      | none =>
        rw [stepNet_none n v hev, stepNet_none n v2 (by rw [heq]; exact hev)]
        refine ih (n.out :: A) v v2 hndw hok2 htopo2 hnd2 hA2 HC ?_ ?_ i
        · intro j hj
          by_cases hje : n.out = j
          · refine H2a j ?_
            intro m hm hml
            rcases List.mem_cons.mp hm with he | he
            · rw [he]; exact hcn
            · exact hj m he hml
          · refine H2a j ?_
            intro m hm hml
            rcases List.mem_cons.mp hm with he | he
            · rw [he]; exact hcn
            · exact hj m he hml
        · intro m hm x' hx'
          exact H2b m (List.mem_cons_of_mem n hm) x' hx'
      | some y =>
        rw [stepNet_some n v y hev, stepNet_some n v2 y (by rw [heq]; exact hev)]
        have hcomb : isCombB n.op = true := evalNet_some_comb _ _ _ hev
        have hkind := netOk_comb_out_kind g n hokn hcomb
        have hcv : constVal? g n.out = none := constVal?_not_normal g n.out hkind
        refine ih (n.out :: A) ((n.out, y) :: v) ((n.out, y) :: v2)
          hndw hok2 htopo2 hnd2 hA2 ?_ ?_ ?_ i
        · intro a c hc
          rw [get?_cons]
          rw [if_neg (by
            intro he
            have he2 : n.out = a := he
            rw [← he2] at hc
            rw [hcv] at hc
            cases hc)]
          exact HC a c hc
        · intro j hj
          rw [get?_cons, get?_cons]
          by_cases hje : n.out = j
          · rw [if_pos hje, if_pos hje]
          · rw [if_neg hje, if_neg hje]
            refine H2a j ?_
            intro m hm hml
            rcases List.mem_cons.mp hm with he | he
            · rw [he]; exact hcn
            · exact hj m he hml
        · intro m hm x' hx'
          have hne : n.out ≠ m.out := fun he => houtne m hm he.symm
          constructor
          · rw [get?_cons, if_neg hne]
            exact (H2b m (List.mem_cons_of_mem n hm) x' hx').1
          · rw [get?_cons, if_neg hne]
            exact (H2b m (List.mem_cons_of_mem n hm) x' hx').2

/-! ## Constant propagation preserves behavior and well-formedness -/

theorem outs_inj_of_nodup (ns : List Net)
    (hnd : nodupB (ns.map (fun n => n.out)) = true) :
    ∀ m ∈ ns, ∀ n ∈ ns, m.out = n.out → m = n := by
  induction ns with
  | nil => intro m hm; cases hm
  | cons k ks ih =>
    intro m hm n hn he
    obtain ⟨hno, hnd2⟩ := nodupB_head _ _ (by rw [List.map_cons] at hnd; exact hnd)
    rcases List.mem_cons.mp hm with hm1 | hm1 <;> rcases List.mem_cons.mp hn with hn1 | hn1
    · rw [hm1, hn1]
    · exfalso
      refine hno ?_
      rw [← show m.out = k.out from by rw [hm1], he]
      exact List.mem_map_of_mem (fun n => n.out) hn1
    · exfalso
      refine hno ?_
      rw [← show n.out = k.out from by rw [hn1], ← he]
      exact List.mem_map_of_mem (fun n => n.out) hm1
    · exact ih hnd2 m hm1 n hn1 he

theorem all_congr_bool {α : Type} (p q : α → Bool) :
    ∀ (l : List α), (∀ a ∈ l, p a = q a) → l.all p = l.all q := by
  intro l
  induction l with
  | nil => intro _; rfl
  | cons a as ih =>
    intro h
    simp only [List.all_cons]
    rw [h a (List.mem_cons_self a as), ih (fun b hb => h b (List.mem_cons_of_mem a hb))]

theorem netOkB_congr (g g' : Graph) (n : Net)
    (hw : ∀ i, hasWire g' i = hasWire g i)
    (hwd : ∀ i, widthOf g' i = widthOf g i)
    (hk : ∀ k, kindIs g' n.out k = kindIs g n.out k) :
    netOkB g' n = netOkB g n := by
  obtain ⟨op, ins, o⟩ := n
  simp only at hk
  unfold netOkB
  cases op <;> simp only [hw, hwd, hk] <;>
    (try rw [all_congr_bool (hasWire g') (hasWire g) ins (fun a _ => hw a)])

theorem kindIs_cprop_not_folded (g : Graph) (i : Nat)
    (h : ∀ n ∈ g.nets, n.out = i → cpropNet g n = none) :
    ∀ k, kindIs (cprop g) i k = kindIs g i k := by
  intro k
  unfold kindIs
  rw [cprop_wire?_not_folded g i h]

theorem isSourceB_cprop_folded (g : Graph) (n : Net) (x : Nat)
    (hndo : nodupB (g.nets.map (fun m => m.out)) = true)
    (hn : n ∈ g.nets) (hok : netOkB g n = true) (hx : cpropNet g n = some x) :
    isSourceB (cprop g) n.out = true := by
  have hkind := netOk_comb_out_kind g n hok (evalNet_some_comb _ _ _ hx)
  have hw : ∃ w, g.wire? n.out = some w := by
    unfold kindIs at hkind
    cases hw : g.wire? n.out with
    | none => rw [hw] at hkind; cases hkind
    | some w => exact ⟨w, rfl⟩
  obtain ⟨w, hw⟩ := hw
  unfold isSourceB
  rw [cprop_wire?_folded g n x w hndo hn hx hw]

theorem not_folded_of_keep (g : Graph) (n : Net)
    (hndo : nodupB (g.nets.map (fun m => m.out)) = true)
    (hn : n ∈ g.nets) (hcn : cpropNet g n = none) :
    ∀ m ∈ g.nets, m.out = n.out → cpropNet g m = none := by
  intro m hm he
  rw [outs_inj_of_nodup g.nets hndo m hm n hn he]
  exact hcn

theorem topoB_cprop (g : Graph)
    (hndo : nodupB (g.nets.map (fun m => m.out)) = true) :
    ∀ (ns : List Net) (A A' : List Nat),
      (∀ n ∈ ns, n ∈ g.nets) →
      (∀ n ∈ ns, netOkB g n = true) →
      topoB g ns A = true →
      (∀ a ∈ A, a ∈ A' ∨ isSourceB (cprop g) a = true) →
      topoB (cprop g) (ns.filter (fun n => (cpropNet g n).isNone)) A' = true := by
  intro ns
  induction ns with
  | nil => intro A A' _ _ _ _; rfl
  | cons n ns ih =>
    intro A A' hmem hok htopo hcov
    obtain ⟨htopo1, htopo2⟩ := (topoB_cons g n ns A).mp htopo
    have hmem2 : ∀ m ∈ ns, m ∈ g.nets := fun m hm => hmem m (List.mem_cons_of_mem n hm)
    have hok2 : ∀ m ∈ ns, netOkB g m = true := fun m hm => hok m (List.mem_cons_of_mem n hm)
    cases hcn : cpropNet g n with
    | some x =>
      rw [show (n :: ns).filter (fun n => (cpropNet g n).isNone) =
        ns.filter (fun n => (cpropNet g n).isNone) from
          List.filter_cons_of_neg (by simp [hcn])]
      refine ih (n.out :: A) A' hmem2 hok2 htopo2 ?_
      intro a ha
      rcases List.mem_cons.mp ha with he | he
      · right
        rw [he]
        exact isSourceB_cprop_folded g n x hndo (hmem n (List.mem_cons_self n ns))
          (hok n (List.mem_cons_self n ns)) hcn
      · exact hcov a he
    | none =>
      rw [show (n :: ns).filter (fun n => (cpropNet g n).isNone) =
        n :: ns.filter (fun n => (cpropNet g n).isNone) from
          List.filter_cons_of_pos (by simp [hcn])]
      rw [topoB_cons]
      constructor
      · intro a ha
        rcases htopo1 a ha with hsrc | hA
        · left
          exact isSourceB_cprop_mono g a hsrc
        · rcases hcov a hA with h1 | h1
          · right; exact h1
          · left; exact h1
      · refine ih (n.out :: A) (n.out :: A') hmem2 hok2 htopo2 ?_
        intro a ha
        rcases List.mem_cons.mp ha with he | he
        · left; rw [he]; exact List.mem_cons_self _ _
        · rcases hcov a he with h1 | h1
          · left; exact List.mem_cons_of_mem _ h1
          · right; exact h1

theorem wfB_of_parts (g : Graph)
    (h1 : nodupB (g.wires.map (fun w => w.wid)) = true)
    (h2 : nodupB (g.nets.map (fun n => n.out)) = true)
    (h3 : ∀ w ∈ g.wires, 1 ≤ w.width)
    (h4 : ∀ n ∈ g.nets, netOkB g n = true)
    (h5 : topoB g g.nets [] = true)
    (h6 : ∀ o ∈ g.outputs, hasWire g o = true) : g.WF := by
  unfold Graph.WF Graph.wfB
  simp only [Bool.and_eq_true, List.all_eq_true, decide_eq_true_eq]
  exact ⟨⟨⟨⟨⟨h1, h2⟩, h3⟩, h4⟩, h5⟩, h6⟩

theorem cprop_WF (g : Graph) (hwf : g.WF) : (cprop g).WF := by
  obtain ⟨hndw, hndo, hwid, hok, htopo, hout⟩ := wf_parts g hwf
  refine wfB_of_parts (cprop g) ?_ ?_ ?_ ?_ ?_ ?_
  · rw [cprop_wid_map]
    exact hndw
  · exact nodupB_of_sublist _ _ ((List.filter_sublist g.nets).map _) hndo
  · intro w hw
    obtain ⟨w0, hw0, he⟩ := List.mem_map.mp hw
    rw [← he]
    have h0 := hwid w0 hw0
    show 1 ≤ (match List.find? (fun (p : Nat × Nat) => decide (p.1 = w0.wid)) (cpropFolded g) with
      | some p => (⟨w0.wid, w0.width, .cst p.2⟩ : Wire)
      | none => w0).width
    cases List.find? (fun (p : Nat × Nat) => decide (p.1 = w0.wid)) (cpropFolded g) <;> exact h0
  · intro n hn
    have hmem : n ∈ g.nets := List.mem_of_mem_filter hn
    have hkeep := List.of_mem_filter hn
    have hcn : cpropNet g n = none := by
      cases hc : cpropNet g n with
      | none => rfl
      | some x => rw [hc] at hkeep; cases hkeep
    rw [netOkB_congr g (cprop g) n (hasWire_cprop g) (widthOf_cprop g)
      (kindIs_cprop_not_folded g n.out (not_folded_of_keep g n hndo hmem hcn))]
    exact hok n hmem
  · exact topoB_cprop g hndo g.nets [] [] (fun n h => h) hok htopo
      (fun a ha => absurd ha (List.not_mem_nil a))
  · intro o ho
    rw [hasWire_cprop]
    exact hout o ho

theorem cprop_behavior (g : Graph) (hwf : g.WF) (env : Nat → Nat) :
    behavior (cprop g) env = behavior g env := by
  obtain ⟨hndw, hndo, hwid, hok, htopo, hout⟩ := wf_parts g hwf
  have key : ∀ i, finalVal (cprop g) env i = finalVal g env i := by
    intro i
    unfold finalVal
    exact cprop_run g g.nets [] (initList g env) (initList (cprop g) env)
      hndw hok htopo hndo
      (fun n _ h => absurd h (List.not_mem_nil _))
      (fun a c hc => initList_const g env hndw a c hc)
      (fun j hj => initList_cprop_not_folded g env j hndw hj)
      (fun m hm x hx => ⟨initList_cprop_folded g env m x hndw hndo hm (hok m hm) hx,
        initList_not_source g env hndw m.out (kindIs_normal_not_source g m.out
          (netOk_comb_out_kind g m (hok m hm) (evalNet_some_comb _ _ _ hx)))⟩)
      i
  unfold behavior
  exact List.map_congr_left (fun o _ => key o)

/-! ## Dead-logic elimination preserves behavior and well-formedness -/

theorem deadElim_run (g : Graph) (q : Net → Bool)
    (hq : ∀ k ∈ g.nets, q k = false →
      k.out ∉ g.outputs ∧ ∀ m ∈ g.nets, k.out ∉ m.ins) :
    ∀ (ns : List Net) (v v2 : Val),
      (∀ n ∈ ns, n ∈ g.nets) →
      (∀ i, (∀ k ∈ g.nets, q k = false → k.out ≠ i) → v2.get? i = v.get? i) →
      ∀ i, (∀ k ∈ g.nets, q k = false → k.out ≠ i) →
        (runNets (ns.filter q) v2).get? i = (runNets ns v).get? i := by
  intro ns
  induction ns with
  | nil =>
    intro v v2 _ H i hi
    exact H i hi
  | cons n ns ih =>
    intro v v2 hmem H i hi
    have hmem2 : ∀ m ∈ ns, m ∈ g.nets := fun m hm => hmem m (List.mem_cons_of_mem n hm)
    have hn : n ∈ g.nets := hmem n (List.mem_cons_self n ns)
    cases hqn : q n with
    | true =>
      rw [List.filter_cons_of_pos hqn]
      rw [runNets_cons, runNets_cons]
      have heq : evalNet v2 n = evalNet v n := by
        apply evalNet_congr
        intro a ha
        refine H a ?_
        intro k hk hkf he
        exact ((hq k hk hkf).2 n hn) (he ▸ ha)
      refine ih (stepNet n v) (stepNet n v2) hmem2 ?_ i hi
      intro j hj
      cases hev : evalNet v n with
      | none =>
        rw [stepNet_none n v hev, stepNet_none n v2 (by rw [heq]; exact hev)]
        exact H j hj
      | some y =>
        rw [stepNet_some n v y hev, stepNet_some n v2 y (by rw [heq]; exact hev)]
        rw [get?_cons, get?_cons]
        by_cases hje : n.out = j
        · rw [if_pos hje, if_pos hje]
        · rw [if_neg hje, if_neg hje]
          exact H j hj
    | false =>
      rw [List.filter_cons_of_neg (by rw [hqn]; exact Bool.false_ne_true)]
      rw [runNets_cons]
      refine ih (stepNet n v) v2 hmem2 ?_ i hi
      intro j hj
      have hne : n.out ≠ j := hj n hn hqn
      rw [stepNet_out n v j hne]
      exact H j hj

theorem isSourceB_deadElim (g : Graph) (a : Nat) :
    isSourceB (deadElim g) a = isSourceB g a := rfl

theorem topoB_deadElim (g : Graph) (q : Net → Bool)
    (hq : ∀ k ∈ g.nets, q k = false → ∀ m ∈ g.nets, k.out ∉ m.ins) :
    ∀ (ns : List Net) (A A' : List Nat),
      (∀ n ∈ ns, n ∈ g.nets) →
      topoB g ns A = true →
      (∀ a ∈ A, a ∈ A' ∨ ∃ k ∈ g.nets, q k = false ∧ k.out = a) →
      topoB (deadElim g) (ns.filter q) A' = true := by
  intro ns
  induction ns with
  | nil => intro A A' _ _ _; rfl
  | cons n ns ih =>
    intro A A' hmem htopo hcov
    obtain ⟨htopo1, htopo2⟩ := (topoB_cons g n ns A).mp htopo
    have hmem2 : ∀ m ∈ ns, m ∈ g.nets := fun m hm => hmem m (List.mem_cons_of_mem n hm)
    have hn : n ∈ g.nets := hmem n (List.mem_cons_self n ns)
    cases hqn : q n with
    | false =>
      rw [List.filter_cons_of_neg (by rw [hqn]; exact Bool.false_ne_true)]
      refine ih (n.out :: A) A' hmem2 htopo2 ?_
      intro a ha
      rcases List.mem_cons.mp ha with he | he
      · right
        exact ⟨n, hn, hqn, he.symm⟩
      · exact hcov a he
    | true =>
      rw [List.filter_cons_of_pos hqn]
      rw [topoB_cons]
      constructor
      · intro a ha
        rcases htopo1 a ha with hsrc | hA
        · left
          rw [isSourceB_deadElim]
          exact hsrc
        · rcases hcov a hA with h1 | h1
          · right; exact h1
          · obtain ⟨k, hk, hkf, hko⟩ := h1
            exact absurd (hko ▸ ha) (hq k hk hkf n hn)
      · refine ih (n.out :: A) (n.out :: A') hmem2 htopo2 ?_
        intro a ha
        rcases List.mem_cons.mp ha with he | he
        · left; rw [he]; exact List.mem_cons_self _ _
        · rcases hcov a he with h1 | h1
          · left; exact List.mem_cons_of_mem _ h1
          · right; exact h1

theorem deadElim_keep_parts (g : Graph) (k : Net)
    (hk : (!isCombB k.op || k.out ∈ g.outputs ||
      g.nets.any (fun m => k.out ∈ m.ins) : Bool) = false) :
    k.out ∉ g.outputs ∧ ∀ m ∈ g.nets, k.out ∉ m.ins := by
  simp only [Bool.or_eq_false_iff, List.any_eq_false, decide_eq_false_iff_not,
    decide_eq_true_eq] at hk
  exact ⟨hk.1.2, fun m hm hin => hk.2 m hm (by simpa using hin)⟩

theorem deadElim_behavior (g : Graph) (env : Nat → Nat) :
    behavior (deadElim g) env = behavior g env := by
  have key : ∀ o, o ∈ g.outputs → finalVal (deadElim g) env o = finalVal g env o := by
    intro o ho
    unfold finalVal
    refine deadElim_run g _ (fun k hk hkf => deadElim_keep_parts g k hkf)
      g.nets (initList g env) (initList g env) (fun n h => h)
      (fun i _ => rfl) o ?_
    intro k hk hkf he
    exact (deadElim_keep_parts g k hkf).1 (he ▸ ho)
  unfold behavior
  exact List.map_congr_left (fun o ho => key o ho)

theorem deadElim_WF (g : Graph) (hwf : g.WF) : (deadElim g).WF := by
  obtain ⟨hndw, hndo, hwid, hok, htopo, hout⟩ := wf_parts g hwf
  refine wfB_of_parts (deadElim g) hndw ?_ hwid ?_ ?_ ?_
  · exact nodupB_of_sublist _ _ ((List.filter_sublist g.nets).map _) hndo
  · intro n hn
    exact hok n (List.mem_of_mem_filter hn)
  · exact topoB_deadElim g _ (fun k hk hkf => (deadElim_keep_parts g k hkf).2)
      g.nets [] [] (fun n h => h) htopo (fun a ha => absurd ha (List.not_mem_nil a))
  · intro o ho
    exact hout o ho

/-! ## Common-subexpression elimination: substitution helpers -/

theorem subst_op (σ : List (Nat × Nat)) (n : Net) : (n.subst σ).op = n.op := rfl

theorem subst_out (σ : List (Nat × Nat)) (n : Net) : (n.subst σ).out = n.out := rfl

theorem subst_ins (σ : List (Nat × Nat)) (n : Net) :
    (n.subst σ).ins = n.ins.map (substW σ) := rfl

theorem evalNet_ignore_out (v : Val) (op : Op) (ins : List Nat) (o1 o2 : Nat) :
    evalNet v ⟨op, ins, o1⟩ = evalNet v ⟨op, ins, o2⟩ := rfl

theorem evalNet_eta (v : Val) (n : Net) : evalNet v ⟨n.op, n.ins, n.out⟩ = evalNet v n := rfl

theorem evalNet_seq_none (v : Val) (n : Net) (h : isCombB n.op = false) :
    evalNet v n = none := by
  obtain ⟨op, ins, o⟩ := n
  cases op <;> first
    | rfl
    | cases h

theorem substW_not_dom (σ : List (Nat × Nat)) (i : Nat)
    (h : ∀ q ∈ σ, q.1 ≠ i) : substW σ i = i := by
  unfold substW
  rw [List.find?_eq_none.mpr (by
    intro q hq
    simp only [decide_eq_true_eq]
    exact h q hq)]

theorem substW_ran (σ : List (Nat × Nat)) (i : Nat) :
    substW σ i = i ∨ ∃ q ∈ σ, q.1 = i ∧ substW σ i = q.2 := by
  unfold substW
  cases hf : List.find? (fun p => p.1 = i) σ with
  | none => left; rfl
  | some q =>
    right
    refine ⟨q, List.mem_of_find?_eq_some hf, ?_, rfl⟩
    have := List.find?_some hf
    simpa using this

theorem substW_cons_ne (k y : Nat) (σ : List (Nat × Nat)) (i : Nat) (h : k ≠ i) :
    substW ((k, y) :: σ) i = substW σ i := by
  unfold substW
  simp only [List.find?]
  rw [show (decide ((k, y).1 = i)) = false from by
    simp only [decide_eq_false_iff_not]; exact h]

theorem substW_cons_self (k y : Nat) (σ : List (Nat × Nat)) :
    substW ((k, y) :: σ) k = y := by
  unfold substW
  simp

theorem cseAux_cons_eq (outs : List Nat) (n : Net) (ns : List Net)
    (seen : List Net) (σ : List (Nat × Nat)) :
    cseAux outs (n :: ns) seen σ =
      match isCombB (n.subst σ).op && !(outs.contains (n.subst σ).out),
          List.find? (fun p => p.op = (n.subst σ).op ∧ p.ins = (n.subst σ).ins) seen with
      | true, some p => cseAux outs ns seen (((n.subst σ).out, p.out) :: σ)
      | true, none => n.subst σ :: cseAux outs ns (n.subst σ :: seen) σ
      | false, _ => n.subst σ :: cseAux outs ns (n.subst σ :: seen) σ := rfl

theorem substW_wire (g : Graph) (σ : List (Nat × Nat)) (a : Nat)
    (hσ : ∀ q ∈ σ, hasWire g q.2 = true ∧ widthOf g q.2 = widthOf g q.1)
    (ha : hasWire g a = true) :
    hasWire g (substW σ a) = true ∧ widthOf g (substW σ a) = widthOf g a := by
  rcases substW_ran σ a with he | ⟨q, hq, hq1, he⟩
  · rw [he]; exact ⟨ha, rfl⟩
  · rw [he]
    obtain ⟨h1, h2⟩ := hσ q hq
    rw [h2, hq1]
    exact ⟨h1, rfl⟩

theorem netOkB_subst (g : Graph) (σ : List (Nat × Nat)) (n : Net)
    (hσ : ∀ q ∈ σ, hasWire g q.2 = true ∧ widthOf g q.2 = widthOf g q.1)
    (hok : netOkB g n = true) : netOkB g (n.subst σ) = true := by
  obtain ⟨op, ins, o⟩ := n
  cases op with
  | andg =>
    obtain ⟨a, b, heq, ha, hb, hko, hwa, hwb⟩ := netOk_elim_andg g ⟨.andg, ins, o⟩ rfl hok
    simp only at heq
    subst heq
    obtain ⟨ha2, hwa2⟩ := substW_wire g σ a hσ ha
    obtain ⟨hb2, hwb2⟩ := substW_wire g σ b hσ hb
    show netOkB g ⟨.andg, [substW σ a, substW σ b], o⟩ = true
    unfold netOkB
    simp only at hko hwa hwb ⊢
    simp [ha2, hb2, hko, hwa2, hwb2, hwa, hwb]
  | org =>
    obtain ⟨a, b, heq, ha, hb, hko, hwa, hwb⟩ := netOk_elim_org g ⟨.org, ins, o⟩ rfl hok
    simp only at heq
    subst heq
    obtain ⟨ha2, hwa2⟩ := substW_wire g σ a hσ ha
    obtain ⟨hb2, hwb2⟩ := substW_wire g σ b hσ hb
    show netOkB g ⟨.org, [substW σ a, substW σ b], o⟩ = true
    unfold netOkB
    simp only at hko hwa hwb ⊢
    simp [ha2, hb2, hko, hwa2, hwb2, hwa, hwb]
  | xorg =>
    obtain ⟨a, b, heq, ha, hb, hko, hwa, hwb⟩ := netOk_elim_xorg g ⟨.xorg, ins, o⟩ rfl hok
    simp only at heq
    subst heq
    obtain ⟨ha2, hwa2⟩ := substW_wire g σ a hσ ha
    obtain ⟨hb2, hwb2⟩ := substW_wire g σ b hσ hb
    show netOkB g ⟨.xorg, [substW σ a, substW σ b], o⟩ = true
    unfold netOkB
    simp only at hko hwa hwb ⊢
    simp [ha2, hb2, hko, hwa2, hwb2, hwa, hwb]
  | notg w =>
    obtain ⟨a, heq, ha, hko, hwa, hwo⟩ := netOk_elim_notg g ⟨.notg w, ins, o⟩ w rfl hok
    simp only at heq
    subst heq
    obtain ⟨ha2, hwa2⟩ := substW_wire g σ a hσ ha
    show netOkB g ⟨.notg w, [substW σ a], o⟩ = true
    unfold netOkB
    simp only at hko hwa hwo ⊢
    simp [ha2, hko, hwa2, hwa, hwo]
  | addg =>
    obtain ⟨a, b, heq, ha, hb, hko, hwab, hwo⟩ := netOk_elim_addg g ⟨.addg, ins, o⟩ rfl hok
    simp only at heq
    subst heq
    obtain ⟨ha2, hwa2⟩ := substW_wire g σ a hσ ha
    obtain ⟨hb2, hwb2⟩ := substW_wire g σ b hσ hb
    show netOkB g ⟨.addg, [substW σ a, substW σ b], o⟩ = true
    unfold netOkB
    simp only at hko hwab hwo ⊢
    simp [ha2, hb2, hko, hwa2, hwb2, hwab, hwo]
  | selg bits =>
    obtain ⟨a, heq, ha, hko, hbits, hwo⟩ := netOk_elim_selg g ⟨.selg bits, ins, o⟩ bits rfl hok
    simp only at heq
    subst heq
    obtain ⟨ha2, hwa2⟩ := substW_wire g σ a hσ ha
    show netOkB g ⟨.selg bits, [substW σ a], o⟩ = true
    unfold netOkB
    simp only at hko hbits hwo ⊢
    simp only [Bool.and_eq_true, List.all_eq_true, decide_eq_true_eq]
    refine ⟨⟨⟨ha2, hko⟩, ?_⟩, hwo⟩
    intro j hj
    rw [hwa2]
    exact hbits j hj
  | catg ws =>
    obtain ⟨ha, hko, hlen, hzip, hwo⟩ := netOk_elim_catg g ⟨.catg ws, ins, o⟩ ws rfl hok
    simp only at ha hko hlen hzip hwo
    show netOkB g ⟨.catg ws, ins.map (substW σ), o⟩ = true
    unfold netOkB
    simp only [Bool.and_eq_true, List.all_eq_true, decide_eq_true_eq]
    refine ⟨⟨⟨⟨?_, hko⟩, by rw [List.length_map]; exact hlen⟩, ?_⟩, hwo⟩
    · intro a ha2
      obtain ⟨a0, ha0, he⟩ := List.mem_map.mp ha2
      rw [← he]
      exact (substW_wire g σ a0 hσ (ha a0 ha0)).1
    · intro p hp
      rw [List.zip_map_left] at hp
      obtain ⟨p0, hp0, he⟩ := List.mem_map.mp hp
      rw [← he]
      show widthOf g (substW σ p0.1) = p0.2
      rw [(substW_wire g σ p0.1 hσ (ha p0.1 (List.of_mem_zip hp0).1)).2]
      exact hzip p0 hp0
  | regg =>
    have hko : isCombB (Op.regg) = false := rfl
    unfold netOkB at hok ⊢
    cases ins with
    | nil => cases hok
    | cons a t =>
      cases t with
      | nil =>
        simp only [Bool.and_eq_true, decide_eq_true_eq] at hok
        obtain ⟨⟨ha, hk⟩, hw⟩ := hok
        obtain ⟨ha2, hwa2⟩ := substW_wire g σ a hσ ha
        show (hasWire g (substW σ a) && kindIs g o .regOut &&
          decide (widthOf g o = widthOf g (substW σ a))) = true
        simp [ha2, hk, hwa2, hw]
      | cons b t2 => cases hok
  | memg =>
    unfold netOkB at hok
    simp only [Bool.and_eq_true, List.all_eq_true] at hok
    show netOkB g ⟨.memg, ins.map (substW σ), o⟩ = true
    unfold netOkB
    simp only [Bool.and_eq_true, List.all_eq_true]
    refine ⟨?_, hok.2⟩
    intro a ha2
    obtain ⟨a0, ha0, he⟩ := List.mem_map.mp ha2
    rw [← he]
    exact (substW_wire g σ a0 hσ (hok.1 a0 ha0)).1

theorem netOk_out_width_eq (g : Graph) (m m' : Net)
    (hok : netOkB g m = true) (hok' : netOkB g m' = true)
    (hop : m.op = m'.op) (hins : m.ins = m'.ins) (hcomb : isCombB m.op = true) :
    widthOf g m.out = widthOf g m'.out := by
  cases hopc : m.op with
  | andg =>
    obtain ⟨a, b, he, _, _, _, hw1, _⟩ := netOk_elim_andg g m hopc hok
    obtain ⟨a', b', he', _, _, _, hw1', _⟩ := netOk_elim_andg g m' (by rw [← hop]; exact hopc) hok'
    rw [hins, he'] at he
    injection he with h1 h2
    rw [← hw1, ← hw1', h1]
  | org =>
    obtain ⟨a, b, he, _, _, _, hw1, _⟩ := netOk_elim_org g m hopc hok
    obtain ⟨a', b', he', _, _, _, hw1', _⟩ := netOk_elim_org g m' (by rw [← hop]; exact hopc) hok'
    rw [hins, he'] at he
    injection he with h1 h2
    rw [← hw1, ← hw1', h1]
  | xorg =>
    obtain ⟨a, b, he, _, _, _, hw1, _⟩ := netOk_elim_xorg g m hopc hok
    obtain ⟨a', b', he', _, _, _, hw1', _⟩ := netOk_elim_xorg g m' (by rw [← hop]; exact hopc) hok'
    rw [hins, he'] at he
    injection he with h1 h2
    rw [← hw1, ← hw1', h1]
  | notg w =>
    obtain ⟨a, he, _, _, _, hwo⟩ := netOk_elim_notg g m w hopc hok
    obtain ⟨a', he', _, _, _, hwo'⟩ := netOk_elim_notg g m' w (by rw [← hop]; exact hopc) hok'
    rw [hwo, hwo']
  | addg =>
    obtain ⟨a, b, he, _, _, _, _, hwo⟩ := netOk_elim_addg g m hopc hok
    obtain ⟨a', b', he', _, _, _, _, hwo'⟩ := netOk_elim_addg g m' (by rw [← hop]; exact hopc) hok'
    rw [hins, he'] at he
    injection he with h1 h2
    rw [hwo, hwo', h1]
  | selg bits =>
    obtain ⟨a, he, _, _, _, hwo⟩ := netOk_elim_selg g m bits hopc hok
    obtain ⟨a', he', _, _, _, hwo'⟩ := netOk_elim_selg g m' bits (by rw [← hop]; exact hopc) hok'
    rw [hwo, hwo']
  | catg ws =>
    obtain ⟨_, _, _, _, hwo⟩ := netOk_elim_catg g m ws hopc hok
    obtain ⟨_, _, _, _, hwo'⟩ := netOk_elim_catg g m' ws (by rw [← hop]; exact hopc) hok'
    rw [hwo, hwo']
  | regg => rw [hopc] at hcomb; cases hcomb
  | memg => rw [hopc] at hcomb; cases hcomb

theorem cseAux_cons_drop (outs : List Nat) (n : Net) (ns : List Net)
    (seen : List Net) (σ : List (Nat × Nat)) (p : Net)
    (h1 : (isCombB (n.subst σ).op && !(outs.contains (n.subst σ).out)) = true)
    (h2 : List.find? (fun p => p.op = (n.subst σ).op ∧ p.ins = (n.subst σ).ins) seen = some p) :
    cseAux outs (n :: ns) seen σ = cseAux outs ns seen (((n.subst σ).out, p.out) :: σ) := by
  rw [cseAux_cons_eq, h1, h2]

theorem cseAux_cons_keep (outs : List Nat) (n : Net) (ns : List Net)
    (seen : List Net) (σ : List (Nat × Nat))
    (h : (isCombB (n.subst σ).op && !(outs.contains (n.subst σ).out)) = false ∨
      List.find? (fun p => p.op = (n.subst σ).op ∧ p.ins = (n.subst σ).ins) seen = none) :
    cseAux outs (n :: ns) seen σ = n.subst σ :: cseAux outs ns (n.subst σ :: seen) σ := by
  rw [cseAux_cons_eq]
  rcases h with h | h
  · rw [h]
  · cases hc : (isCombB (n.subst σ).op && !(outs.contains (n.subst σ).out)) with
    | false => rfl
    | true => rw [h]

theorem cse_run (g : Graph) :
    ∀ (ns : List Net) (A : List Nat) (σ : List (Nat × Nat)) (seen : List Net) (v v2 : Val),
      (∀ n ∈ ns, netOkB g n = true) →
      topoB g ns A = true →
      nodupB (ns.map (fun n => n.out)) = true →
      (∀ n ∈ ns, n.out ∉ A) →
      (∀ n ∈ ns, ∀ q ∈ σ, q.1 ≠ n.out) →
      (∀ a, isSourceB g a = true ∨ a ∈ A →
        ∃ x, v.get? a = some x ∧ v2.get? (substW σ a) = some x ∧ x < 2 ^ widthOf g a) →
      (∀ a, substW σ a = a → v2.get? a = v.get? a) →
      (∀ q ∈ σ, kindIs g q.1 WK.normal = true ∧ q.2 ∈ A ∧ q.1 ≠ q.2) →
      (∀ p ∈ seen, p.out ∈ A ∧
        (isCombB p.op = true →
          (∀ a ∈ p.ins, isSourceB g a = true ∨ a ∈ A) ∧
          ∃ y, evalNet v2 p = some y ∧ v2.get? p.out = some y)) →
      ∀ i, i ∈ g.outputs → substW σ i = i →
        (runNets (cseAux g.outputs ns seen σ) v2).get? i = (runNets ns v).get? i := by
  intro ns
  induction ns with
  | nil =>
    intro A σ seen v v2 _ _ _ _ _ _ HB _ _ i _ hi
    exact HB i hi
  | cons n ns ih =>
    intro A σ seen v v2 hok htopo hnd hA HF HA HB HS SI i hiout hi
    obtain ⟨htopo1, htopo2⟩ := (topoB_cons g n ns A).mp htopo
    obtain ⟨hno, hnd2⟩ := nodupB_head _ _ (by rw [List.map_cons] at hnd; exact hnd)
    have hokn := hok n (List.mem_cons_self n ns)
    have hok2 : ∀ m ∈ ns, netOkB g m = true :=
      fun m hm => hok m (List.mem_cons_of_mem n hm)
    have houtne : ∀ m ∈ ns, m.out ≠ n.out := by
      intro m hm he
      exact hno (by rw [← he]; exact List.mem_map_of_mem (fun n => n.out) hm)
    have hnoutA : n.out ∉ A := hA n (List.mem_cons_self n ns)
    have hA2 : ∀ m ∈ ns, m.out ∉ (n.out :: A) := by
      intro m hm hmem
      rcases List.mem_cons.mp hmem with he | he
      · exact houtne m hm he
      · exact hA m (List.mem_cons_of_mem n hm) he
    have HF2 : ∀ m ∈ ns, ∀ q ∈ σ, q.1 ≠ m.out :=
      fun m hm => HF m (List.mem_cons_of_mem n hm)
    have hins_eq : ∀ a ∈ n.ins, v.get? a = v2.get? (substW σ a) := by
      intro a ha
      obtain ⟨x, h1, h2, _⟩ := HA a (by
        rcases htopo1 a ha with hsrc | hAm
        · exact Or.inl hsrc
        · exact Or.inr hAm)
      rw [h1, h2]
    have heval : evalNet v n = evalNet v2 (n.subst σ) :=
      evalNet_map_ins v v2 n (substW σ) hins_eq
    have hins_bound : ∀ a ∈ n.ins, ∃ x, v.get? a = some x ∧ x < 2 ^ widthOf g a := by
      intro a ha
      obtain ⟨x, h1, _, h3⟩ := HA a (by
        rcases htopo1 a ha with hsrc | hAm
        · exact Or.inl hsrc
        · exact Or.inr hAm)
      exact ⟨x, h1, h3⟩
    have hsub_ins_avail : ∀ b ∈ (n.subst σ).ins, isSourceB g b = true ∨ b ∈ A := by
      intro b hb
      rw [subst_ins] at hb
      obtain ⟨a, ha, he⟩ := List.mem_map.mp hb
      rcases htopo1 a ha with hsrc | hAm
      · have hfix : substW σ a = a := substW_not_dom σ a (by
          intro q hq he2
          have hkn := (HS q hq).1
          rw [he2] at hkn
          rw [kindIs_normal_not_source g a hkn] at hsrc
          cases hsrc)
        rw [← he, hfix]
        left
        exact hsrc
      · rcases substW_ran σ a with h1 | ⟨q, hq, hq1, h1⟩
        · rw [← he, h1]
          right
          exact hAm
        · rw [← he, h1]
          right
          exact (HS q hq).2.1
    have hsub_out_ne : isCombB n.op = true → ∀ b ∈ (n.subst σ).ins, b ≠ n.out := by
      intro hcomb b hb he
      have hkn := netOk_comb_out_kind g n hokn hcomb
      rcases hsub_ins_avail b hb with hsrc | hAm
      · rw [he] at hsrc
        rw [kindIs_normal_not_source g n.out hkn] at hsrc
        cases hsrc
      · rw [he] at hAm
        exact hnoutA hAm
    by_cases hdrop : (isCombB (n.subst σ).op && !(g.outputs.contains (n.subst σ).out)) = true ∧
        ∃ p, List.find? (fun p => p.op = (n.subst σ).op ∧ p.ins = (n.subst σ).ins) seen = some p
    · -- the duplicate net is dropped and its output rewired
      obtain ⟨hcond, p, hfind⟩ := hdrop
      rw [cseAux_cons_drop g.outputs n ns seen σ p hcond hfind]
      have hcomb : isCombB n.op = true := by
        have h1 := ((Bool.and_eq_true _ _).mp hcond).1
        rw [subst_op] at h1
        exact h1
      have hkn := netOk_comb_out_kind g n hokn hcomb
      have hnoutout : n.out ∉ g.outputs := by
        have h2 := ((Bool.and_eq_true _ _).mp hcond).2
        rw [Bool.not_eq_true', subst_out] at h2
        intro hmem
        rw [contains_of_mem _ _ hmem] at h2
        cases h2
      have hpmem := List.mem_of_find?_eq_some hfind
      have hpprop : p.op = (n.subst σ).op ∧ p.ins = (n.subst σ).ins := by
        have := List.find?_some hfind
        simpa using this
      obtain ⟨hpA, hpcomb⟩ := SI p hpmem
      obtain ⟨hpins, y, hpev, hpval⟩ := hpcomb (by rw [hpprop.1, subst_op]; exact hcomb)
      have hpn : evalNet v2 p = evalNet v2 (n.subst σ) := by
        rw [← evalNet_eta v2 p, hpprop.1, hpprop.2, ← evalNet_eta v2 (n.subst σ)]
        exact evalNet_ignore_out v2 _ _ _ _
      have hev : evalNet v n = some y := by
        rw [heval, ← hpn]
        exact hpev
      have hyb : y < 2 ^ widthOf g n.out := by
        obtain ⟨z, hz, hzb⟩ := evalNet_wf g n v hokn hcomb (by
          intro a ha
          obtain ⟨x, h1, h3⟩ := hins_bound a ha
          exact ⟨x, h1, h3⟩)
        rw [hev] at hz
        injection hz with hz
        rw [hz]
        exact hzb
      have hne_np : n.out ≠ p.out := fun he => hnoutA (he ▸ hpA)
      rw [runNets_cons, stepNet_some n v y hev]
      refine ih (n.out :: A) ((n.out, p.out) :: σ) seen ((n.out, y) :: v) v2
        hok2 htopo2 hnd2 hA2 ?_ ?_ ?_ ?_ ?_ i hiout ?_
      · intro m hm q hq
        rcases List.mem_cons.mp hq with he | he
        · rw [he]
          exact fun hc => houtne m hm hc.symm
        · exact HF2 m hm q he
      · intro a haa
        by_cases hae : a = n.out
        · subst hae
          refine ⟨y, ?_, ?_, hyb⟩
          · rw [get?_cons, if_pos rfl]
          · rw [substW_cons_self]
            exact hpval
        · have haa2 : isSourceB g a = true ∨ a ∈ A := by
            rcases haa with hsrc | hAm
            · exact Or.inl hsrc
            · rcases List.mem_cons.mp hAm with he | he
              · exact absurd he hae
              · exact Or.inr he
          obtain ⟨x, h1, h2, h3⟩ := HA a haa2
          refine ⟨x, ?_, ?_, h3⟩
          · rw [get?_cons, if_neg (fun hc => hae hc.symm)]
            exact h1
          · rw [substW_cons_ne n.out p.out σ a (fun hc => hae hc.symm)]
            exact h2
      · intro a hfix
        have hane : a ≠ n.out := by
          intro he
          rw [he, substW_cons_self] at hfix
          exact hne_np hfix.symm
        rw [substW_cons_ne n.out p.out σ a (fun hc => hane hc.symm)] at hfix
        rw [get?_cons, if_neg (fun hc => hane hc.symm)]
        exact HB a hfix
      · intro q hq
        rcases List.mem_cons.mp hq with he | he
        · rw [he]
          exact ⟨hkn, List.mem_cons_of_mem _ hpA, hne_np⟩
        · obtain ⟨k1, k2, k3⟩ := HS q he
          exact ⟨k1, List.mem_cons_of_mem _ k2, k3⟩
      · intro p2 hp2
        obtain ⟨k1, k2⟩ := SI p2 hp2
        refine ⟨List.mem_cons_of_mem _ k1, ?_⟩
        intro hc
        obtain ⟨k3, z, k4, k5⟩ := k2 hc
        refine ⟨?_, z, k4, k5⟩
        intro b hb
        rcases k3 b hb with h1 | h1
        · exact Or.inl h1
        · exact Or.inr (List.mem_cons_of_mem _ h1)
      · have hine : i ≠ n.out := fun he => hnoutout (he ▸ hiout)
        rw [substW_cons_ne n.out p.out σ i (fun hc => hine hc.symm)]
        exact hi
    · -- the net is kept (possibly with substituted inputs)
      have hkeep := cseAux_cons_keep g.outputs n ns seen σ (by
        cases hc : (isCombB (n.subst σ).op && !(g.outputs.contains (n.subst σ).out)) with
        | false => exact Or.inl rfl
        | true =>
          right
          cases hf : List.find? (fun p => p.op = (n.subst σ).op ∧
              p.ins = (n.subst σ).ins) seen with
          | none => rfl
          | some p => exact absurd ⟨hc, p, hf⟩ hdrop)
      rw [hkeep, runNets_cons, runNets_cons]
      cases hcomb : isCombB n.op with
      | true =>
        have hkn := netOk_comb_out_kind g n hokn hcomb
        obtain ⟨y, hev, hyb⟩ := evalNet_wf g n v hokn hcomb (by
          intro a ha
          obtain ⟨x, h1, h3⟩ := hins_bound a ha
          exact ⟨x, h1, h3⟩)
        have hev2 : evalNet v2 (n.subst σ) = some y := by
          rw [← heval]
          exact hev
        rw [stepNet_some n v y hev, stepNet_some (n.subst σ) v2 y hev2]
        have hfix_nout : substW σ n.out = n.out :=
          substW_not_dom σ n.out (HF n (List.mem_cons_self n ns))
        refine ih (n.out :: A) σ (n.subst σ :: seen) ((n.out, y) :: v)
          ((n.out, y) :: v2) hok2 htopo2 hnd2 hA2 HF2 ?_ ?_ ?_ ?_ i hiout hi
        · intro a haa
          by_cases hae : a = n.out
          · subst hae
            refine ⟨y, ?_, ?_, hyb⟩
            · rw [get?_cons, if_pos rfl]
            · rw [hfix_nout, get?_cons, if_pos rfl]
          · have haa2 : isSourceB g a = true ∨ a ∈ A := by
              rcases haa with hsrc | hAm
              · exact Or.inl hsrc
              · rcases List.mem_cons.mp hAm with he | he
                · exact absurd he hae
                · exact Or.inr he
            obtain ⟨x, h1, h2, h3⟩ := HA a haa2
            refine ⟨x, ?_, ?_, h3⟩
            · rw [get?_cons, if_neg (fun hc => hae hc.symm)]
              exact h1
            · rw [get?_cons]
              rw [if_neg (show ¬(n.out = substW σ a) from ?_)]
              · exact h2
              · intro hc
                rcases substW_ran σ a with hr | ⟨q, hq, hq1, hr⟩
                · rw [hr] at hc
                  exact hae hc.symm
                · rw [hr] at hc
                  exact hnoutA (hc ▸ (HS q hq).2.1)
        · intro a hfix
          rw [get?_cons, get?_cons]
          by_cases hae : n.out = a
          · rw [if_pos hae, if_pos hae]
          · rw [if_neg hae, if_neg hae]
            exact HB a hfix
        · intro q hq
          obtain ⟨hq1, hq2, hq3⟩ := HS q hq
          exact ⟨hq1, List.mem_cons_of_mem _ hq2, hq3⟩
        · intro p hp
          rcases List.mem_cons.mp hp with he | he
          · subst he
            refine ⟨by rw [subst_out]; exact List.mem_cons_self _ _, ?_⟩
            intro _
            constructor
            · intro a ha
              rcases hsub_ins_avail a ha with h1 | h1
              · exact Or.inl h1
              · exact Or.inr (List.mem_cons_of_mem _ h1)
            · refine ⟨y, ?_, ?_⟩
              · rw [evalNet_congr ((n.out, y) :: v2) v2 (n.subst σ) (by
                  intro b hb
                  rw [get?_cons, if_neg (fun hc => hsub_out_ne hcomb b hb hc.symm)])]
                exact hev2
              · rw [subst_out, get?_cons, if_pos rfl]
          · obtain ⟨hpA, hpcomb⟩ := SI p he
            refine ⟨List.mem_cons_of_mem _ hpA, ?_⟩
            intro hpc
            obtain ⟨hpins, z, hpev, hpval⟩ := hpcomb hpc
            refine ⟨?_, ⟨z, ?_, ?_⟩⟩
            · intro a ha
              rcases hpins a ha with h1 | h1
              · exact Or.inl h1
              · exact Or.inr (List.mem_cons_of_mem _ h1)
            · rw [evalNet_congr ((n.out, y) :: v2) v2 p (by
                intro b hb
                rw [get?_cons, if_neg (show ¬(n.out = b) from by
                  intro hc
                  rcases hpins b hb with h1 | h1
                  · rw [← hc, kindIs_normal_not_source g n.out hkn] at h1
                    cases h1
                  · exact hnoutA (hc ▸ h1))])]
              exact hpev
            · rw [get?_cons, if_neg (show ¬(n.out = p.out) from
                fun hc => hnoutA (hc ▸ hpA))]
              exact hpval
      | false =>
        have hsrc_out : isSourceB g n.out = true := netOk_seq_out_source g n hokn hcomb
        rw [stepNet_none n v (evalNet_seq_none v n hcomb),
          stepNet_none (n.subst σ) v2 (evalNet_seq_none v2 (n.subst σ) (by
            rw [subst_op]
            exact hcomb))]
        refine ih (n.out :: A) σ (n.subst σ :: seen) v v2 hok2 htopo2 hnd2 hA2 HF2
          ?_ HB ?_ ?_ i hiout hi
        · intro a haa
          refine HA a ?_
          rcases haa with hsrc | hAm
          · exact Or.inl hsrc
          · rcases List.mem_cons.mp hAm with he | he
            · left
              rw [he]
              exact hsrc_out
            · exact Or.inr he
        · intro q hq
          obtain ⟨hq1, hq2, hq3⟩ := HS q hq
          exact ⟨hq1, List.mem_cons_of_mem _ hq2, hq3⟩
        · intro p hp
          rcases List.mem_cons.mp hp with he | he
          · subst he
            refine ⟨by rw [subst_out]; exact List.mem_cons_self _ _, ?_⟩
            intro hpc
            rw [subst_op] at hpc
            rw [hpc] at hcomb
            cases hcomb
          · obtain ⟨hpA, hpcomb⟩ := SI p he
            refine ⟨List.mem_cons_of_mem _ hpA, ?_⟩
            intro hpc
            obtain ⟨hpins, z, hpev, hpval⟩ := hpcomb hpc
            refine ⟨?_, ⟨z, hpev, hpval⟩⟩
            intro a ha
            rcases hpins a ha with h1 | h1
            · exact Or.inl h1
            · exact Or.inr (List.mem_cons_of_mem _ h1)

theorem cse_behavior (g : Graph) (hwf : g.WF) (env : Nat → Nat) :
    behavior (cse g) env = behavior g env := by
  obtain ⟨hndw, hndo, hwid, hok, htopo, hout⟩ := wf_parts g hwf
  unfold behavior
  apply List.map_congr_left
  intro o ho
  unfold finalVal
  refine cse_run g g.nets [] [] [] (initList g env) (initList g env)
    hok htopo hndo (fun n _ h => absurd h (List.not_mem_nil _))
    (fun n _ q hq => absurd hq (List.not_mem_nil _))
    ?_ (fun a _ => rfl)
    (fun q hq => absurd hq (List.not_mem_nil _))
    (fun p hp => absurd hp (List.not_mem_nil _))
    o ho (substW_nil o)
  intro a haa
  rcases haa with hsrc | hAm
  · obtain ⟨x, h1, h2⟩ := initList_source g env hndw a hsrc
    rw [substW_nil a]
    exact ⟨x, h1, h1, h2⟩
  · exact absurd hAm (List.not_mem_nil a)

theorem isSourceB_cse (g : Graph) (a : Nat) : isSourceB (cse g) a = isSourceB g a := rfl

theorem cse_wf_run (g : Graph) :
    ∀ (ns : List Net) (A A' : List Nat) (σ : List (Nat × Nat)) (seen : List Net),
      (∀ n ∈ ns, netOkB g n = true) →
      topoB g ns A = true →
      nodupB (ns.map (fun n => n.out)) = true →
      (∀ n ∈ ns, n.out ∉ A') →
      (∀ q ∈ σ, kindIs g q.1 WK.normal = true) →
      (∀ q ∈ σ, hasWire g q.2 = true ∧ widthOf g q.2 = widthOf g q.1) →
      (∀ q ∈ σ, q.2 ∈ A') →
      (∀ q ∈ σ, q.1 ≠ q.2) →
      (∀ a ∈ A, a ∈ A' ∨ ∃ q ∈ σ, q.1 = a) →
      (∀ p ∈ seen, netOkB g p = true ∧ p.out ∈ A') →
      ((cseAux g.outputs ns seen σ).map (fun m => m.out)).Sublist
        (ns.map (fun m => m.out)) ∧
      (∀ m ∈ cseAux g.outputs ns seen σ, netOkB g m = true) ∧
      topoB (cse g) (cseAux g.outputs ns seen σ) A' = true := by
  intro ns
  induction ns with
  | nil =>
    intro A A' σ seen _ _ _ _ _ _ _ _ _ _
    exact ⟨List.Sublist.refl _, fun m hm => absurd hm (List.not_mem_nil m), rfl⟩
  | cons n ns ih =>
    intro A A' σ seen hok htopo hnd hA HSk Hσw Hran Hne Hcov Hseen
    obtain ⟨htopo1, htopo2⟩ := (topoB_cons g n ns A).mp htopo
    obtain ⟨hno, hnd2⟩ := nodupB_head _ _ (by rw [List.map_cons] at hnd; exact hnd)
    have houtne : ∀ m ∈ ns, m.out ≠ n.out := by
      intro m hm he
      exact hno (by rw [← he]; exact List.mem_map_of_mem (fun n => n.out) hm)
    have hokn := hok n (List.mem_cons_self n ns)
    have hok2 : ∀ m ∈ ns, netOkB g m = true :=
      fun m hm => hok m (List.mem_cons_of_mem n hm)
    have hA2 : ∀ m ∈ ns, m.out ∉ A' := fun m hm => hA m (List.mem_cons_of_mem n hm)
    have hokn' : netOkB g (n.subst σ) = true := netOkB_subst g σ n Hσw hokn
    have hins_img : ∀ b ∈ (n.subst σ).ins, isSourceB g b = true ∨ b ∈ A' := by
      intro b hb
      rw [subst_ins] at hb
      obtain ⟨a, ha, he⟩ := List.mem_map.mp hb
      rcases substW_ran σ a with h1 | ⟨q, hq, hq1, h1⟩
      · rcases htopo1 a ha with hsrc | hAm
        · rw [← he, h1]
          left
          exact hsrc
        · rcases Hcov a hAm with h2 | ⟨q, hq, hq1⟩
          · rw [← he, h1]
            right
            exact h2
          · exfalso
            have hner : substW σ a ≠ a := by
              unfold substW
              cases hf : List.find? (fun p => p.1 = a) σ with
              | none =>
                rw [List.find?_eq_none] at hf
                exact absurd (by simpa using hq1) (hf q hq)
              | some q2 =>
                have hq2 := List.find?_some hf
                simp only [decide_eq_true_eq] at hq2
                have hx := Hne q2 (List.mem_of_find?_eq_some hf)
                rw [hq2] at hx
                exact fun hc => hx hc.symm
            exact hner h1
      · rw [← he, h1]
        right
        exact Hran q hq
    by_cases hdrop : (isCombB (n.subst σ).op && !(g.outputs.contains (n.subst σ).out)) = true ∧
        ∃ p, List.find? (fun p => p.op = (n.subst σ).op ∧ p.ins = (n.subst σ).ins) seen = some p
    · obtain ⟨hcond, p, hfind⟩ := hdrop
      rw [cseAux_cons_drop g.outputs n ns seen σ p hcond hfind]
      have hcomb : isCombB n.op = true := by
        have h1 := ((Bool.and_eq_true _ _).mp hcond).1
        rw [subst_op] at h1
        exact h1
      have hkn := netOk_comb_out_kind g n hokn hcomb
      have hpmem := List.mem_of_find?_eq_some hfind
      have hpprop : p.op = (n.subst σ).op ∧ p.ins = (n.subst σ).ins := by
        have := List.find?_some hfind
        simpa using this
      obtain ⟨hokp, hpA⟩ := Hseen p hpmem
      have hwp : widthOf g p.out = widthOf g n.out := by
        have hx := netOk_out_width_eq g p (n.subst σ) hokp hokn' hpprop.1 hpprop.2
          (by rw [hpprop.1, subst_op]; exact hcomb)
        rw [subst_out] at hx
        exact hx
      have hne_np : n.out ≠ p.out :=
        fun he => hA n (List.mem_cons_self n ns) (he ▸ hpA)
      obtain ⟨s1, s2, s3⟩ := ih (n.out :: A) A' ((n.out, p.out) :: σ) seen
        hok2 htopo2 hnd2 hA2
        (by
          intro q hq
          rcases List.mem_cons.mp hq with he | he
          · rw [he]; exact hkn
          · exact HSk q he)
        (by
          intro q hq
          rcases List.mem_cons.mp hq with he | he
          · rw [he]
            exact ⟨netOk_out_hasWire g p hokp, hwp⟩
          · exact Hσw q he)
        (by
          intro q hq
          rcases List.mem_cons.mp hq with he | he
          · rw [he]; exact hpA
          · exact Hran q he)
        (by
          intro q hq
          rcases List.mem_cons.mp hq with he | he
          · rw [he]; exact hne_np
          · exact Hne q he)
        (by
          intro a ha
          rcases List.mem_cons.mp ha with he | he
          · right
            exact ⟨(n.out, p.out), List.mem_cons_self _ _, he.symm⟩
          · rcases Hcov a he with h1 | ⟨q, hq, hq1⟩
            · left; exact h1
            · right; exact ⟨q, List.mem_cons_of_mem _ hq, hq1⟩)
        Hseen
      exact ⟨List.Sublist.cons _ s1, s2, s3⟩
    · have hkeep := cseAux_cons_keep g.outputs n ns seen σ (by
        cases hc : (isCombB (n.subst σ).op && !(g.outputs.contains (n.subst σ).out)) with
        | false => exact Or.inl rfl
        | true =>
          right
          cases hf : List.find? (fun p => p.op = (n.subst σ).op ∧
              p.ins = (n.subst σ).ins) seen with
          | none => rfl
          | some p => exact absurd ⟨hc, p, hf⟩ hdrop)
      rw [hkeep]
      obtain ⟨s1, s2, s3⟩ := ih (n.out :: A) (n.out :: A') σ (n.subst σ :: seen)
        hok2 htopo2 hnd2
        (by
          intro m hm hmem
          rcases List.mem_cons.mp hmem with he | he
          · exact houtne m hm he
          · exact hA2 m hm he)
        HSk Hσw
        (fun q hq => List.mem_cons_of_mem _ (Hran q hq))
        Hne
        (by
          intro a ha
          rcases List.mem_cons.mp ha with he | he
          · left; rw [he]; exact List.mem_cons_self _ _
          · rcases Hcov a he with h1 | h1
            · left; exact List.mem_cons_of_mem _ h1
            · right; exact h1)
        (by
          intro p hp
          rcases List.mem_cons.mp hp with he | he
          · rw [he]
            refine ⟨hokn', ?_⟩
            rw [subst_out]
            exact List.mem_cons_self _ _
          · obtain ⟨k1, k2⟩ := Hseen p he
            exact ⟨k1, List.mem_cons_of_mem _ k2⟩)
      refine ⟨?_, ?_, ?_⟩
      · rw [List.map_cons, List.map_cons]
        exact List.Sublist.cons₂ _ s1
      · intro m hm
        rcases List.mem_cons.mp hm with he | he
        · rw [he]; exact hokn'
        · exact s2 m he
      · rw [topoB_cons]
        constructor
        · intro a ha
          rcases hins_img a ha with h1 | h1
          · left
            rw [isSourceB_cse]
            exact h1
          · right
            exact h1
        · exact s3

theorem cse_WF (g : Graph) (hwf : g.WF) : (cse g).WF := by
  obtain ⟨hndw, hndo, hwid, hok, htopo, hout⟩ := wf_parts g hwf
  obtain ⟨s1, s2, s3⟩ := cse_wf_run g g.nets [] [] [] [] hok htopo hndo
    (fun n _ h => absurd h (List.not_mem_nil _))
    (fun q hq => absurd hq (List.not_mem_nil _))
    (fun q hq => absurd hq (List.not_mem_nil _))
    (fun q hq => absurd hq (List.not_mem_nil _))
    (fun q hq => absurd hq (List.not_mem_nil _))
    (fun a ha => absurd ha (List.not_mem_nil _))
    (fun p hp => absurd hp (List.not_mem_nil _))
  refine wfB_of_parts (cse g) hndw ?_ hwid ?_ ?_ ?_
  · exact nodupB_of_sublist _ _ s1 hndo
  · intro m hm
    exact s2 m hm
  · exact s3
  · intro o ho
    exact hout o ho

/-! ## The full optimizer pipeline preserves behavior -/

theorem optStep_behavior (g : Graph) (hwf : g.WF) (env : Nat → Nat) :
    behavior (optStep g) env = behavior g env := by
  unfold optStep
  rw [deadElim_behavior (cse (cprop g)) env,
    cse_behavior (cprop g) (cprop_WF g hwf) env,
    cprop_behavior g hwf env]

theorem optStep_WF (g : Graph) (hwf : g.WF) : (optStep g).WF :=
  deadElim_WF _ (cse_WF _ (cprop_WF g hwf))

theorem optLoop_behavior :
    ∀ (fuel : Nat) (g : Graph), g.WF → ∀ env,
      behavior (optLoop fuel g) env = behavior g env := by
  intro fuel
  induction fuel with
  | zero => intro g _ env; rfl
  | succ fuel ih =>
    intro g hwf env
    unfold optLoop
    by_cases he : optStep g = g
    · rw [if_pos he]
    · rw [if_neg he]
      rw [ih (optStep g) (optStep_WF g hwf) env, optStep_behavior g hwf env]

theorem optimize_behavior (g : Graph) (hwf : g.WF) (env : Nat → Nat) :
    behavior (optimize g) env = behavior g env :=
  optLoop_behavior (g.nets.length + 1) g hwf env

/-! ## Synthesis: single-bit values and unit-width concatenation -/

theorem selBits_single (x j : Nat) :
    selBits x [j] = if x.testBit j then 1 else 0 := rfl

theorem ite_testBit_eq (y k : Nat) :
    (if y.testBit k then 1 else 0) = y / 2 ^ k % 2 := by
  have h2 : y / 2 ^ k % 2 < 2 := Nat.mod_lt _ (by omega)
  cases h : y.testBit k with
  | false =>
    rw [Nat.testBit_to_div_mod] at h
    simp only [decide_eq_false_iff_not] at h
    show (0 : Nat) = y / 2 ^ k % 2
    omega
  | true =>
    rw [Nat.testBit_to_div_mod] at h
    simp only [decide_eq_true_eq] at h
    show (1 : Nat) = y / 2 ^ k % 2
    omega

theorem land_bit (x z j : Nat) :
    Nat.land (if x.testBit j then 1 else 0) (if z.testBit j then 1 else 0) =
      if (Nat.land x z).testBit j then 1 else 0 := by
  rw [show (Nat.land x z).testBit j = ((x.testBit j) && (z.testBit j)) from
    Nat.testBit_and x z j]
  cases hx : x.testBit j <;> cases hz : z.testBit j <;> decide

theorem lor_bit (x z j : Nat) :
    Nat.lor (if x.testBit j then 1 else 0) (if z.testBit j then 1 else 0) =
      if (Nat.lor x z).testBit j then 1 else 0 := by
  rw [show (Nat.lor x z).testBit j = ((x.testBit j) || (z.testBit j)) from
    Nat.testBit_or x z j]
  cases hx : x.testBit j <;> cases hz : z.testBit j <;> decide

theorem xor_bit (x z j : Nat) :
    Nat.xor (if x.testBit j then 1 else 0) (if z.testBit j then 1 else 0) =
      if (Nat.xor x z).testBit j then 1 else 0 := by
  rw [show (Nat.xor x z).testBit j = (Bool.xor (x.testBit j) (z.testBit j)) from
    Nat.testBit_xor x z j]
  cases hx : x.testBit j <;> cases hz : z.testBit j <;> decide

theorem not_bit (x w j : Nat) (hj : j < w) :
    Nat.xor (if x.testBit j then 1 else 0) (2 ^ 1 - 1) =
      if (Nat.xor x (2 ^ w - 1)).testBit j then 1 else 0 := by
  rw [show (Nat.xor x (2 ^ w - 1)).testBit j =
      (Bool.xor (x.testBit j) ((2 ^ w - 1).testBit j)) from Nat.testBit_xor _ _ j]
  rw [Nat.testBit_two_pow_sub_one]
  rw [show (decide (j < w)) = true from by simpa using hj]
  cases hx : x.testBit j <;> decide

theorem catVals_unit_append :
    ∀ (vs : List Nat) (w : Nat),
      catVals (List.replicate (vs.length + 1) 1) (vs ++ [w]) =
        catVals (List.replicate vs.length 1) vs + 2 ^ vs.length * w := by
  intro vs
  induction vs with
  | nil =>
    intro w
    show w + 2 ^ 1 * catVals [] [] = 0 + 2 ^ 0 * w
    show w + 2 ^ 1 * 0 = 0 + 2 ^ 0 * w
    norm_num
  | cons v vs ih =>
    intro w
    show v + 2 ^ 1 * catVals (List.replicate (vs.length + 1) 1) (vs ++ [w]) =
      (v + 2 ^ 1 * catVals (List.replicate vs.length 1) vs) + 2 ^ (vs.length + 1) * w
    rw [ih w]
    rw [show (2 : Nat) ^ 1 = 2 from rfl]
    rw [Nat.pow_succ]
    set c := catVals (List.replicate vs.length 1) vs
    set p := (2 : Nat) ^ vs.length
    ring

theorem catVals_unit_range (y : Nat) :
    ∀ (k : Nat),
      catVals (List.replicate k 1)
        ((List.range k).map (fun j => if y.testBit j then 1 else 0)) = y % 2 ^ k := by
  intro k
  induction k with
  | zero => rw [Nat.pow_zero, Nat.mod_one]; rfl
  | succ k ih =>
    rw [List.range_succ, List.map_append]
    have hlen : ((List.range k).map (fun j => if y.testBit j then 1 else 0)).length = k := by
      rw [List.length_map, List.length_range]
    rw [show (List.replicate (k + 1) 1) =
      List.replicate (((List.range k).map (fun j => if y.testBit j then 1 else 0)).length + 1) 1
      from by rw [hlen]]
    rw [List.map_singleton]
    rw [catVals_unit_append ((List.range k).map (fun j => if y.testBit j then 1 else 0))
      (if y.testBit k then 1 else 0)]
    rw [hlen, ih, ite_testBit_eq]
    rw [Nat.pow_succ, Nat.mod_mul]

theorem mapM_some_of_forall (F : Nat → Option Nat) (vf : Nat → Nat) :
    ∀ (js : List Nat), (∀ j ∈ js, F j = some (vf j)) →
      js.mapM F = some (js.map vf) := by
  intro js
  induction js with
  | nil => intro _; rfl
  | cons j js ih =>
    intro h
    rw [List.mapM_cons, h j (List.mem_cons_self j js),
      ih (fun j2 hj2 => h j2 (List.mem_cons_of_mem j hj2))]
    rfl

theorem mapM_get?_range (u : Val) (k : Nat) (idf vf : Nat → Nat)
    (h : ∀ j, j < k → u.get? (idf j) = some (vf j)) :
    ((List.range k).map idf).mapM (fun a => u.get? a) = some ((List.range k).map vf) := by
  rw [mapM_map_eq idf (fun a => u.get? a) (List.range k)]
  rw [mapM_some_of_forall (fun j => u.get? (idf j)) vf (List.range k) (by
    intro j hj
    exact h j (List.mem_range.mp hj))]

theorem binChain_outs (op : Op) (a b f : Nat) :
    ∀ i, (binChain op a b f i).2.1 = (List.range i).map (fun j => f + 3 * j + 2) := by
  intro i
  induction i with
  | zero => rfl
  | succ i ih =>
    show (binChain op a b f i).2.1 ++ [(binChain op a b f i).2.2 + 2] = _
    rw [ih, binChain_snd, List.range_succ, List.map_append]
    rfl

theorem notChain_outs (a f : Nat) :
    ∀ i, (notChain a f i).2.1 = (List.range i).map (fun j => f + 2 * j + 1) := by
  intro i
  induction i with
  | zero => rfl
  | succ i ih =>
    show (notChain a f i).2.1 ++ [(notChain a f i).2.2 + 1] = _
    rw [ih, notChain_snd, List.range_succ, List.map_append]
    rfl

theorem binChain_run (op : Op) (x z y : Nat)
    (hgate : ∀ (u : Val) (s t o j : Nat),
      u.get? s = some (if x.testBit j then 1 else 0) →
      u.get? t = some (if z.testBit j then 1 else 0) →
      evalNet u ⟨op, [s, t], o⟩ = some (if y.testBit j then 1 else 0))
    (a b : Nat) :
    ∀ (i : Nat) (f : Nat) (u : Val), a < f → b < f →
      u.get? a = some x → u.get? b = some z →
      ((∀ c, c < f → (runNets (binChain op a b f i).1 u).get? c = u.get? c) ∧
       (∀ j, j < i → (runNets (binChain op a b f i).1 u).get? (f + 3 * j + 2) =
         some (if y.testBit j then 1 else 0))) := by
  intro i
  induction i with
  | zero =>
    intro f u _ _ _ _
    exact ⟨fun c _ => rfl, fun j hj => absurd hj (by omega)⟩
  | succ i ih =>
    intro f u ha hb hxa hzb
    obtain ⟨ihpres, ihbits⟩ := ih f u ha hb hxa hzb
    have hnets : (binChain op a b f (i + 1)).1 =
        (binChain op a b f i).1 ++
          [⟨.selg [i], [a], f + 3 * i⟩, ⟨.selg [i], [b], f + 3 * i + 1⟩,
           ⟨op, [f + 3 * i, f + 3 * i + 1], f + 3 * i + 2⟩] := by
      show (binChain op a b f i).1 ++
          [⟨.selg [i], [a], (binChain op a b f i).2.2⟩,
           ⟨.selg [i], [b], (binChain op a b f i).2.2 + 1⟩,
           ⟨op, [(binChain op a b f i).2.2, (binChain op a b f i).2.2 + 1],
             (binChain op a b f i).2.2 + 2⟩] = _
      rw [binChain_snd]
    rw [hnets, runNets_append]
    set u1 := runNets (binChain op a b f i).1 u with hu1
    have hs1 : evalNet u1 ⟨.selg [i], [a], f + 3 * i⟩ =
        some (if x.testBit i then 1 else 0) := by
      rw [evalNet_selg_some u1 [i] a (f + 3 * i) x (by rw [ihpres a ha]; exact hxa)]
      rw [selBits_single]
    have hs2 : evalNet ((f + 3 * i, if x.testBit i then 1 else 0) :: u1)
        ⟨.selg [i], [b], f + 3 * i + 1⟩ = some (if z.testBit i then 1 else 0) := by
      rw [evalNet_selg_some _ [i] b (f + 3 * i + 1) z (by
        rw [get?_cons, if_neg (by omega), ihpres b hb]
        exact hzb)]
      rw [selBits_single]
    have hs3 : evalNet ((f + 3 * i + 1, if z.testBit i then 1 else 0) ::
        (f + 3 * i, if x.testBit i then 1 else 0) :: u1)
        ⟨op, [f + 3 * i, f + 3 * i + 1], f + 3 * i + 2⟩ =
        some (if y.testBit i then 1 else 0) := by
      refine hgate _ _ _ _ i ?_ ?_
      · rw [get?_cons, if_neg (by omega), get?_cons, if_pos rfl]
      · rw [get?_cons, if_pos rfl]
    rw [show runNets [(⟨.selg [i], [a], f + 3 * i⟩ : Net),
        ⟨.selg [i], [b], f + 3 * i + 1⟩,
        ⟨op, [f + 3 * i, f + 3 * i + 1], f + 3 * i + 2⟩] u1 =
      (f + 3 * i + 2, if y.testBit i then 1 else 0) ::
        (f + 3 * i + 1, if z.testBit i then 1 else 0) ::
        (f + 3 * i, if x.testBit i then 1 else 0) :: u1 from by
      rw [runNets_cons, stepNet_some _ _ _ hs1, runNets_cons, stepNet_some _ _ _ hs2,
        runNets_cons, stepNet_some _ _ _ hs3]
      rfl]
    constructor
    · intro c hc
      rw [get?_cons, if_neg (by omega), get?_cons, if_neg (by omega),
        get?_cons, if_neg (by omega)]
      exact ihpres c hc
    · intro j hj
      by_cases hji : j = i
      · subst hji
        rw [get?_cons, if_pos rfl]
      · have hjlt : j < i := by omega
        rw [get?_cons, if_neg (by omega), get?_cons, if_neg (by omega),
          get?_cons, if_neg (by omega)]
        exact ihbits j hjlt

theorem notChain_run (x w a : Nat) :
    ∀ (i : Nat), i ≤ w → ∀ (f : Nat) (u : Val), a < f →
      u.get? a = some x →
      ((∀ c, c < f → (runNets (notChain a f i).1 u).get? c = u.get? c) ∧
       (∀ j, j < i → (runNets (notChain a f i).1 u).get? (f + 2 * j + 1) =
         some (if (Nat.xor x (2 ^ w - 1)).testBit j then 1 else 0))) := by
  intro i
  induction i with
  | zero =>
    intro _ f u _ _
    exact ⟨fun c _ => rfl, fun j hj => absurd hj (by omega)⟩
  | succ i ih =>
    intro hiw f u ha hxa
    obtain ⟨ihpres, ihbits⟩ := ih (by omega) f u ha hxa
    have hnets : (notChain a f (i + 1)).1 =
        (notChain a f i).1 ++
          [⟨.selg [i], [a], f + 2 * i⟩, ⟨.notg 1, [f + 2 * i], f + 2 * i + 1⟩] := by
      show (notChain a f i).1 ++
          [⟨.selg [i], [a], (notChain a f i).2.2⟩,
           ⟨.notg 1, [(notChain a f i).2.2], (notChain a f i).2.2 + 1⟩] = _
      rw [notChain_snd]
    rw [hnets, runNets_append]
    set u1 := runNets (notChain a f i).1 u with hu1
    have hs1 : evalNet u1 ⟨.selg [i], [a], f + 2 * i⟩ =
        some (if x.testBit i then 1 else 0) := by
      rw [evalNet_selg_some u1 [i] a (f + 2 * i) x (by rw [ihpres a ha]; exact hxa)]
      rw [selBits_single]
    have hs2 : evalNet ((f + 2 * i, if x.testBit i then 1 else 0) :: u1)
        ⟨.notg 1, [f + 2 * i], f + 2 * i + 1⟩ =
        some (if (Nat.xor x (2 ^ w - 1)).testBit i then 1 else 0) := by
      rw [evalNet_notg_some _ 1 (f + 2 * i) (f + 2 * i + 1)
        (if x.testBit i then 1 else 0) (by rw [get?_cons, if_pos rfl])]
      rw [not_bit x w i (by omega)]
    rw [show runNets [(⟨.selg [i], [a], f + 2 * i⟩ : Net),
        ⟨.notg 1, [f + 2 * i], f + 2 * i + 1⟩] u1 =
      (f + 2 * i + 1, if (Nat.xor x (2 ^ w - 1)).testBit i then 1 else 0) ::
        (f + 2 * i, if x.testBit i then 1 else 0) :: u1 from by
      rw [runNets_cons, stepNet_some _ _ _ hs1, runNets_cons, stepNet_some _ _ _ hs2]
      rfl]
    constructor
    · intro c hc
      rw [get?_cons, if_neg (by omega), get?_cons, if_neg (by omega)]
      exact ihpres c hc
    · intro j hj
      by_cases hji : j = i
      · subst hji
        rw [get?_cons, if_pos rfl]
      · rw [get?_cons, if_neg (by omega), get?_cons, if_neg (by omega)]
        exact ihbits j (by omega)

theorem expandBin_run (op : Op) (x z y : Nat)
    (hgate : ∀ (u : Val) (s t o j : Nat),
      u.get? s = some (if x.testBit j then 1 else 0) →
      u.get? t = some (if z.testBit j then 1 else 0) →
      evalNet u ⟨op, [s, t], o⟩ = some (if y.testBit j then 1 else 0))
    (a b o f nb : Nat) (hy : y < 2 ^ nb) (u : Val)
    (ha : a < f) (hb : b < f) (ho : o < f)
    (hxa : u.get? a = some x) (hzb : u.get? b = some z) :
    ((∀ c, c < f → c ≠ o →
      (runNets (expandBin op a b o f nb).1 u).get? c = u.get? c) ∧
     (runNets (expandBin op a b o f nb).1 u).get? o = some y) := by
  obtain ⟨hpres, hbits⟩ := binChain_run op x z y hgate a b nb f u ha hb hxa hzb
  have hnets : (expandBin op a b o f nb).1 =
      (binChain op a b f nb).1 ++ [⟨.catg (List.replicate nb 1),
        (List.range nb).map (fun j => f + 3 * j + 2), o⟩] := by
    show (binChain op a b f nb).1 ++
      [⟨.catg (List.replicate nb 1), (binChain op a b f nb).2.1, o⟩] = _
    rw [binChain_outs]
  rw [hnets, runNets_append]
  set u1 := runNets (binChain op a b f nb).1 u with hu1
  have hcat : evalNet u1 ⟨.catg (List.replicate nb 1),
      (List.range nb).map (fun j => f + 3 * j + 2), o⟩ = some y := by
    rw [evalNet_catg_some u1 (List.replicate nb 1) _ o
      ((List.range nb).map (fun j => if y.testBit j then 1 else 0))
      (mapM_get?_range u1 nb (fun j => f + 3 * j + 2)
        (fun j => if y.testBit j then 1 else 0) (fun j hj => hbits j hj))]
    rw [catVals_unit_range y nb, Nat.mod_eq_of_lt hy]
  rw [show runNets [(⟨.catg (List.replicate nb 1),
      (List.range nb).map (fun j => f + 3 * j + 2), o⟩ : Net)] u1 =
    (o, y) :: u1 from by
    rw [runNets_cons, stepNet_some _ _ _ hcat]
    rfl]
  constructor
  · intro c hc hco
    rw [get?_cons, if_neg (fun hc2 => hco hc2.symm)]
    exact hpres c hc
  · rw [get?_cons, if_pos rfl]

theorem expandNot_run (x w : Nat) (a o f : Nat)
    (hw : 0 < w) (u : Val)
    (ha : a < f) (ho : o < f) (hxa : u.get? a = some x) :
    ((∀ c, c < f → c ≠ o →
      (runNets (expandNot a o f w).1 u).get? c = u.get? c) ∧
     (runNets (expandNot a o f w).1 u).get? o = some (Nat.xor x (2 ^ w - 1) % 2 ^ w)) := by
  obtain ⟨hpres, hbits⟩ := notChain_run x w a w (Nat.le_refl w) f u ha hxa
  have hnets : (expandNot a o f w).1 =
      (notChain a f w).1 ++ [⟨.catg (List.replicate w 1),
        (List.range w).map (fun j => f + 2 * j + 1), o⟩] := by
    show (notChain a f w).1 ++
      [⟨.catg (List.replicate w 1), (notChain a f w).2.1, o⟩] = _
    rw [notChain_outs]
  rw [hnets, runNets_append]
  set u1 := runNets (notChain a f w).1 u with hu1
  have hcat : evalNet u1 ⟨.catg (List.replicate w 1),
      (List.range w).map (fun j => f + 2 * j + 1), o⟩ =
      some (Nat.xor x (2 ^ w - 1) % 2 ^ w) := by
    rw [evalNet_catg_some u1 (List.replicate w 1) _ o
      ((List.range w).map (fun j => if (Nat.xor x (2 ^ w - 1)).testBit j then 1 else 0))
      (mapM_get?_range u1 w (fun j => f + 2 * j + 1)
        (fun j => if (Nat.xor x (2 ^ w - 1)).testBit j then 1 else 0)
        (fun j hj => hbits j hj))]
    rw [catVals_unit_range (Nat.xor x (2 ^ w - 1)) w]
  rw [show runNets [(⟨.catg (List.replicate w 1),
      (List.range w).map (fun j => f + 2 * j + 1), o⟩ : Net)] u1 =
    (o, Nat.xor x (2 ^ w - 1) % 2 ^ w) :: u1 from by
    rw [runNets_cons, stepNet_some _ _ _ hcat]
    rfl]
  constructor
  · intro c hc hco
    rw [get?_cons, if_neg (fun hc2 => hco hc2.symm)]
    exact hpres c hc
  · rw [get?_cons, if_pos rfl]

/-! ## Synthesis: ripple-carry adder arithmetic -/

theorem carry_le_one (x z k : Nat) : (x % 2 ^ k + z % 2 ^ k) / 2 ^ k ≤ 1 := by
  have hp : 0 < 2 ^ k := Nat.pos_pow_of_pos _ (by omega)
  have hx := Nat.mod_lt x hp
  have hz := Nat.mod_lt z hp
  have h2 : (x % 2 ^ k + z % 2 ^ k) / 2 ^ k < 2 :=
    (Nat.div_lt_iff_lt_mul hp).mpr (by omega)
  omega

theorem halfAdd_sum (x z : Nat) :
    Nat.xor (if x.testBit 0 then 1 else 0) (if z.testBit 0 then 1 else 0) =
      if (x + z).testBit 0 then 1 else 0 := by
  rw [ite_testBit_eq, ite_testBit_eq, ite_testBit_eq]
  simp only [Nat.pow_zero, Nat.div_one]
  rw [Nat.add_mod x z 2]
  rcases Nat.mod_two_eq_zero_or_one x with hx | hx <;>
    rcases Nat.mod_two_eq_zero_or_one z with hz | hz <;>
    rw [hx, hz] <;> decide

theorem halfAdd_carry (x z : Nat) :
    Nat.land (if x.testBit 0 then 1 else 0) (if z.testBit 0 then 1 else 0) =
      (x % 2 ^ 1 + z % 2 ^ 1) / 2 ^ 1 := by
  rw [ite_testBit_eq, ite_testBit_eq]
  simp only [Nat.pow_zero, Nat.div_one, Nat.pow_one]
  rcases Nat.mod_two_eq_zero_or_one x with hx | hx <;>
    rcases Nat.mod_two_eq_zero_or_one z with hz | hz <;>
    rw [hx, hz] <;> decide

theorem div_pow_add (x z k : Nat) :
    (x + z) / 2 ^ k = x / 2 ^ k + z / 2 ^ k + (x % 2 ^ k + z % 2 ^ k) / 2 ^ k := by
  have hp : 0 < 2 ^ k := Nat.pos_pow_of_pos _ (by omega)
  conv_lhs => rw [← Nat.div_add_mod x (2 ^ k), ← Nat.div_add_mod z (2 ^ k)]
  rw [show 2 ^ k * (x / 2 ^ k) + x % 2 ^ k + (2 ^ k * (z / 2 ^ k) + z % 2 ^ k) =
    2 ^ k * (x / 2 ^ k + z / 2 ^ k) + (x % 2 ^ k + z % 2 ^ k) from by ring]
  rw [Nat.mul_add_div hp]

theorem fullAdd_sum (x z k : Nat) :
    Nat.xor (Nat.xor (if x.testBit (k + 1) then 1 else 0)
        (if z.testBit (k + 1) then 1 else 0))
      ((x % 2 ^ (k + 1) + z % 2 ^ (k + 1)) / 2 ^ (k + 1)) =
      if (x + z).testBit (k + 1) then 1 else 0 := by
  rw [ite_testBit_eq, ite_testBit_eq, ite_testBit_eq]
  rw [div_pow_add x z (k + 1)]
  have hck := carry_le_one x z (k + 1)
  have hx2 : x / 2 ^ (k + 1) % 2 < 2 := Nat.mod_lt _ (by omega)
  have hz2 : z / 2 ^ (k + 1) % 2 < 2 := Nat.mod_lt _ (by omega)
  rw [Nat.add_mod, Nat.add_mod (x / 2 ^ (k + 1)) (z / 2 ^ (k + 1)) 2]
  rcases (show x / 2 ^ (k + 1) % 2 = 0 ∨ x / 2 ^ (k + 1) % 2 = 1 from by omega) with hx | hx <;>
    rcases (show z / 2 ^ (k + 1) % 2 = 0 ∨ z / 2 ^ (k + 1) % 2 = 1 from by omega) with hz | hz <;>
    rcases Nat.le_one_iff_eq_zero_or_eq_one.mp hck with hc | hc <;>
    rw [hx, hz, hc] <;> decide

theorem fullAdd_carry (x z k : Nat) :
    Nat.lor
      (Nat.land (if x.testBit (k + 1) then 1 else 0)
        (if z.testBit (k + 1) then 1 else 0))
      (Nat.land (Nat.xor (if x.testBit (k + 1) then 1 else 0)
          (if z.testBit (k + 1) then 1 else 0))
        ((x % 2 ^ (k + 1) + z % 2 ^ (k + 1)) / 2 ^ (k + 1))) =
      (x % 2 ^ (k + 1 + 1) + z % 2 ^ (k + 1 + 1)) / 2 ^ (k + 1 + 1) := by
  rw [ite_testBit_eq, ite_testBit_eq]
  have hp : 0 < 2 ^ (k + 1) := Nat.pos_pow_of_pos _ (by omega)
  rw [show (2 : Nat) ^ (k + 1 + 1) = 2 ^ (k + 1) * 2 from by rw [Nat.pow_succ]]
  rw [Nat.mod_mul, Nat.mod_mul]
  have hck := carry_le_one x z (k + 1)
  have hx2 : x / 2 ^ (k + 1) % 2 < 2 := Nat.mod_lt _ (by omega)
  have hz2 : z / 2 ^ (k + 1) % 2 < 2 := Nat.mod_lt _ (by omega)
  have hdm := Nat.div_add_mod (x % 2 ^ (k + 1) + z % 2 ^ (k + 1)) (2 ^ (k + 1))
  have hrlt : (x % 2 ^ (k + 1) + z % 2 ^ (k + 1)) % 2 ^ (k + 1) < 2 ^ (k + 1) :=
    Nat.mod_lt _ hp
  set P := (2 : Nat) ^ (k + 1)
  set X := x % P
  set Z := z % P
  set xb := x / P % 2
  set zb := z / P % 2
  set ck := (X + Z) / P
  set r := (X + Z) % P
  rcases (show xb = 0 ∨ xb = 1 from by omega) with hx | hx <;>
    rcases (show zb = 0 ∨ zb = 1 from by omega) with hz | hz <;>
    rcases Nat.le_one_iff_eq_zero_or_eq_one.mp hck with hc | hc <;>
    rw [hx, hz, hc] <;> rw [hc] at hdm
  · have hdiv : (X + P * 0 + (Z + P * 0)) / (P * 2) = 0 :=
      Nat.div_eq_of_lt_le (by omega) (by omega)
    rw [hdiv]
    decide
  · have hdiv : (X + P * 0 + (Z + P * 0)) / (P * 2) = 0 :=
      Nat.div_eq_of_lt_le (by omega) (by omega)
    rw [hdiv]
    decide
  · have hdiv : (X + P * 0 + (Z + P * 1)) / (P * 2) = 0 :=
      Nat.div_eq_of_lt_le (by omega) (by omega)
    rw [hdiv]
    decide
  · have hdiv : (X + P * 0 + (Z + P * 1)) / (P * 2) = 1 :=
      Nat.div_eq_of_lt_le (by omega) (by omega)
    rw [hdiv]
    decide
  · have hdiv : (X + P * 1 + (Z + P * 0)) / (P * 2) = 0 :=
      Nat.div_eq_of_lt_le (by omega) (by omega)
    rw [hdiv]
    decide
  · have hdiv : (X + P * 1 + (Z + P * 0)) / (P * 2) = 1 :=
      Nat.div_eq_of_lt_le (by omega) (by omega)
    rw [hdiv]
    decide
  · have hdiv : (X + P * 1 + (Z + P * 1)) / (P * 2) = 1 :=
      Nat.div_eq_of_lt_le (by omega) (by omega)
    rw [hdiv]
    decide
  · have hdiv : (X + P * 1 + (Z + P * 1)) / (P * 2) = 1 :=
      Nat.div_eq_of_lt_le (by omega) (by omega)
    rw [hdiv]
    decide

theorem addChain_carry_id (a b f : Nat) :
    ∀ i, (addChain a b f i).2.2.1 = f + 3 + 7 * i := by
  intro i
  induction i with
  | zero => rfl
  | succ i ih =>
    show (addChain a b f i).2.2.2 + 6 = f + 3 + 7 * (i + 1)
    rw [addChain_snd]
    omega

theorem addChain_outs (a b f : Nat) :
    ∀ i, (addChain a b f i).2.1 =
      (f + 2) :: (List.range i).map (fun j => f + 7 * (j + 1)) := by
  intro i
  induction i with
  | zero =>
    rw [List.range_zero]
    rfl
  | succ i ih =>
    show (addChain a b f i).2.1 ++ [(addChain a b f i).2.2.2 + 3] = _
    rw [ih, List.range_succ, List.map_append,
      show (addChain a b f i).2.2.2 + 3 = f + 7 * (i + 1) from by rw [addChain_snd]; omega]
    rfl

theorem addChain_run (x z a b : Nat) :
    ∀ (i : Nat) (f : Nat) (u : Val), a < f → b < f →
      u.get? a = some x → u.get? b = some z →
      ((∀ c, c < f → (runNets (addChain a b f i).1 u).get? c = u.get? c) ∧
       ((runNets (addChain a b f i).1 u).get? (f + 2) =
         some (if (x + z).testBit 0 then 1 else 0)) ∧
       (∀ j, 1 ≤ j → j ≤ i → (runNets (addChain a b f i).1 u).get? (f + 7 * j) =
         some (if (x + z).testBit j then 1 else 0)) ∧
       ((runNets (addChain a b f i).1 u).get? (f + 3 + 7 * i) =
         some ((x % 2 ^ (i + 1) + z % 2 ^ (i + 1)) / 2 ^ (i + 1)))) := by
  intro i
  induction i with
  | zero =>
    intro f u ha hb hxa hzb
    have hs1 : evalNet u ⟨.selg [0], [a], f⟩ = some (if x.testBit 0 then 1 else 0) := by
      rw [evalNet_selg_some u [0] a f x hxa, selBits_single]
    have hs2 : evalNet ((f, if x.testBit 0 then 1 else 0) :: u)
        ⟨.selg [0], [b], f + 1⟩ = some (if z.testBit 0 then 1 else 0) := by
      rw [evalNet_selg_some _ [0] b (f + 1) z (by
        rw [get?_cons, if_neg (by omega)]
        exact hzb), selBits_single]
    have hs3 : evalNet ((f + 1, if z.testBit 0 then 1 else 0) ::
        (f, if x.testBit 0 then 1 else 0) :: u)
        ⟨.xorg, [f, f + 1], f + 2⟩ = some (if (x + z).testBit 0 then 1 else 0) := by
      rw [evalNet_xorg_some _ f (f + 1) (f + 2) (if x.testBit 0 then 1 else 0)
        (if z.testBit 0 then 1 else 0)
        (by rw [get?_cons, if_neg (by omega), get?_cons, if_pos rfl])
        (by rw [get?_cons, if_pos rfl])]
      rw [halfAdd_sum]
    have hs4 : evalNet ((f + 2, if (x + z).testBit 0 then 1 else 0) ::
        (f + 1, if z.testBit 0 then 1 else 0) ::
        (f, if x.testBit 0 then 1 else 0) :: u)
        ⟨.andg, [f, f + 1], f + 3⟩ =
        some ((x % 2 ^ 1 + z % 2 ^ 1) / 2 ^ 1) := by
      rw [evalNet_andg_some _ f (f + 1) (f + 3) (if x.testBit 0 then 1 else 0)
        (if z.testBit 0 then 1 else 0)
        (by rw [get?_cons, if_neg (by omega), get?_cons, if_neg (by omega),
          get?_cons, if_pos rfl])
        (by rw [get?_cons, if_neg (by omega), get?_cons, if_pos rfl])]
      rw [halfAdd_carry]
    rw [show (addChain a b f 0).1 = [⟨.selg [0], [a], f⟩, ⟨.selg [0], [b], f + 1⟩,
      ⟨.xorg, [f, f + 1], f + 2⟩, ⟨.andg, [f, f + 1], f + 3⟩] from rfl]
    rw [show runNets [(⟨.selg [0], [a], f⟩ : Net), ⟨.selg [0], [b], f + 1⟩,
        ⟨.xorg, [f, f + 1], f + 2⟩, ⟨.andg, [f, f + 1], f + 3⟩] u =
      (f + 3, (x % 2 ^ 1 + z % 2 ^ 1) / 2 ^ 1) ::
        (f + 2, if (x + z).testBit 0 then 1 else 0) ::
        (f + 1, if z.testBit 0 then 1 else 0) ::
        (f, if x.testBit 0 then 1 else 0) :: u from by
      rw [runNets_cons, stepNet_some _ _ _ hs1, runNets_cons, stepNet_some _ _ _ hs2,
        runNets_cons, stepNet_some _ _ _ hs3, runNets_cons, stepNet_some _ _ _ hs4]
      rfl]
    refine ⟨?_, ?_, ?_, ?_⟩
    · intro c hc
      rw [get?_cons, if_neg (by omega), get?_cons, if_neg (by omega),
        get?_cons, if_neg (by omega), get?_cons, if_neg (by omega)]
    · rw [get?_cons, if_neg (by omega), get?_cons, if_pos rfl]
    · intro j hj1 hj2
      omega
    · rw [get?_cons, if_pos (by omega)]
  | succ i ih =>
    intro f u ha hb hxa hzb
    obtain ⟨ihpres, ihbit0, ihbits, ihcarry⟩ := ih f u ha hb hxa hzb
    have hnets : (addChain a b f (i + 1)).1 =
        (addChain a b f i).1 ++
          [⟨.selg [i + 1], [a], f + 4 + 7 * i⟩,
           ⟨.selg [i + 1], [b], f + 4 + 7 * i + 1⟩,
           ⟨.xorg, [f + 4 + 7 * i, f + 4 + 7 * i + 1], f + 4 + 7 * i + 2⟩,
           ⟨.xorg, [f + 4 + 7 * i + 2, f + 3 + 7 * i], f + 4 + 7 * i + 3⟩,
           ⟨.andg, [f + 4 + 7 * i, f + 4 + 7 * i + 1], f + 4 + 7 * i + 4⟩,
           ⟨.andg, [f + 4 + 7 * i + 2, f + 3 + 7 * i], f + 4 + 7 * i + 5⟩,
           ⟨.org, [f + 4 + 7 * i + 4, f + 4 + 7 * i + 5], f + 4 + 7 * i + 6⟩] := by
      show (addChain a b f i).1 ++
          [⟨.selg [i + 1], [a], (addChain a b f i).2.2.2⟩,
           ⟨.selg [i + 1], [b], (addChain a b f i).2.2.2 + 1⟩,
           ⟨.xorg, [(addChain a b f i).2.2.2, (addChain a b f i).2.2.2 + 1],
             (addChain a b f i).2.2.2 + 2⟩,
           ⟨.xorg, [(addChain a b f i).2.2.2 + 2, (addChain a b f i).2.2.1],
             (addChain a b f i).2.2.2 + 3⟩,
           ⟨.andg, [(addChain a b f i).2.2.2, (addChain a b f i).2.2.2 + 1],
             (addChain a b f i).2.2.2 + 4⟩,
           ⟨.andg, [(addChain a b f i).2.2.2 + 2, (addChain a b f i).2.2.1],
             (addChain a b f i).2.2.2 + 5⟩,
           ⟨.org, [(addChain a b f i).2.2.2 + 4, (addChain a b f i).2.2.2 + 5],
             (addChain a b f i).2.2.2 + 6⟩] = _
      rw [addChain_snd, addChain_carry_id]
    rw [hnets, runNets_append]
    set u1 := runNets (addChain a b f i).1 u with hu1
    have hs1 : evalNet u1 ⟨.selg [i + 1], [a], f + 4 + 7 * i⟩ =
        some (if x.testBit (i + 1) then 1 else 0) := by
      rw [evalNet_selg_some u1 [i + 1] a _ x (by rw [ihpres a ha]; exact hxa),
        selBits_single]
    have hs2 : evalNet ((f + 4 + 7 * i, if x.testBit (i + 1) then 1 else 0) :: u1)
        ⟨.selg [i + 1], [b], f + 4 + 7 * i + 1⟩ =
        some (if z.testBit (i + 1) then 1 else 0) := by
      rw [evalNet_selg_some _ [i + 1] b _ z (by
        rw [get?_cons, if_neg (by omega), ihpres b hb]
        exact hzb), selBits_single]
    have hs3 : evalNet ((f + 4 + 7 * i + 1, if z.testBit (i + 1) then 1 else 0) ::
        (f + 4 + 7 * i, if x.testBit (i + 1) then 1 else 0) :: u1)
        ⟨.xorg, [f + 4 + 7 * i, f + 4 + 7 * i + 1], f + 4 + 7 * i + 2⟩ =
        some (Nat.xor (if x.testBit (i + 1) then 1 else 0)
          (if z.testBit (i + 1) then 1 else 0)) :=
      evalNet_xorg_some _ _ _ _ _ _
        (by rw [get?_cons, if_neg (by omega), get?_cons, if_pos rfl])
        (by rw [get?_cons, if_pos rfl])
    have hs4 : evalNet ((f + 4 + 7 * i + 2, Nat.xor (if x.testBit (i + 1) then 1 else 0)
          (if z.testBit (i + 1) then 1 else 0)) ::
        (f + 4 + 7 * i + 1, if z.testBit (i + 1) then 1 else 0) ::
        (f + 4 + 7 * i, if x.testBit (i + 1) then 1 else 0) :: u1)
        ⟨.xorg, [f + 4 + 7 * i + 2, f + 3 + 7 * i], f + 4 + 7 * i + 3⟩ =
        some (if (x + z).testBit (i + 1) then 1 else 0) := by
      rw [evalNet_xorg_some _ _ _ _
        (Nat.xor (if x.testBit (i + 1) then 1 else 0)
          (if z.testBit (i + 1) then 1 else 0))
        ((x % 2 ^ (i + 1) + z % 2 ^ (i + 1)) / 2 ^ (i + 1))
        (by rw [get?_cons, if_pos rfl])
        (by rw [get?_cons, if_neg (by omega), get?_cons, if_neg (by omega),
          get?_cons, if_neg (by omega)]
            exact ihcarry)]
      rw [fullAdd_sum]
    have hs5 : evalNet ((f + 4 + 7 * i + 3, if (x + z).testBit (i + 1) then 1 else 0) ::
        (f + 4 + 7 * i + 2, Nat.xor (if x.testBit (i + 1) then 1 else 0)
          (if z.testBit (i + 1) then 1 else 0)) ::
        (f + 4 + 7 * i + 1, if z.testBit (i + 1) then 1 else 0) ::
        (f + 4 + 7 * i, if x.testBit (i + 1) then 1 else 0) :: u1)
        ⟨.andg, [f + 4 + 7 * i, f + 4 + 7 * i + 1], f + 4 + 7 * i + 4⟩ =
        some (Nat.land (if x.testBit (i + 1) then 1 else 0)
          (if z.testBit (i + 1) then 1 else 0)) :=
      evalNet_andg_some _ _ _ _ _ _
        (by rw [get?_cons, if_neg (by omega), get?_cons, if_neg (by omega),
          get?_cons, if_neg (by omega), get?_cons, if_pos rfl])
        (by rw [get?_cons, if_neg (by omega), get?_cons, if_neg (by omega),
          get?_cons, if_pos rfl])
    have hs6 : evalNet ((f + 4 + 7 * i + 4, Nat.land (if x.testBit (i + 1) then 1 else 0)
          (if z.testBit (i + 1) then 1 else 0)) ::
        (f + 4 + 7 * i + 3, if (x + z).testBit (i + 1) then 1 else 0) ::
        (f + 4 + 7 * i + 2, Nat.xor (if x.testBit (i + 1) then 1 else 0)
          (if z.testBit (i + 1) then 1 else 0)) ::
        (f + 4 + 7 * i + 1, if z.testBit (i + 1) then 1 else 0) ::
        (f + 4 + 7 * i, if x.testBit (i + 1) then 1 else 0) :: u1)
        ⟨.andg, [f + 4 + 7 * i + 2, f + 3 + 7 * i], f + 4 + 7 * i + 5⟩ =
        some (Nat.land (Nat.xor (if x.testBit (i + 1) then 1 else 0)
          (if z.testBit (i + 1) then 1 else 0))
          ((x % 2 ^ (i + 1) + z % 2 ^ (i + 1)) / 2 ^ (i + 1))) :=
      evalNet_andg_some _ _ _ _ _ _
        (by rw [get?_cons, if_neg (by omega), get?_cons, if_neg (by omega),
          get?_cons, if_pos rfl])
        (by rw [get?_cons, if_neg (by omega), get?_cons, if_neg (by omega),
          get?_cons, if_neg (by omega), get?_cons, if_neg (by omega),
          get?_cons, if_neg (by omega)]
            exact ihcarry)
    have hs7 : evalNet ((f + 4 + 7 * i + 5, Nat.land (Nat.xor
          (if x.testBit (i + 1) then 1 else 0)
          (if z.testBit (i + 1) then 1 else 0))
          ((x % 2 ^ (i + 1) + z % 2 ^ (i + 1)) / 2 ^ (i + 1))) ::
        (f + 4 + 7 * i + 4, Nat.land (if x.testBit (i + 1) then 1 else 0)
          (if z.testBit (i + 1) then 1 else 0)) ::
        (f + 4 + 7 * i + 3, if (x + z).testBit (i + 1) then 1 else 0) ::
        (f + 4 + 7 * i + 2, Nat.xor (if x.testBit (i + 1) then 1 else 0)
          (if z.testBit (i + 1) then 1 else 0)) ::
        (f + 4 + 7 * i + 1, if z.testBit (i + 1) then 1 else 0) ::
        (f + 4 + 7 * i, if x.testBit (i + 1) then 1 else 0) :: u1)
        ⟨.org, [f + 4 + 7 * i + 4, f + 4 + 7 * i + 5], f + 4 + 7 * i + 6⟩ =
        some ((x % 2 ^ (i + 1 + 1) + z % 2 ^ (i + 1 + 1)) / 2 ^ (i + 1 + 1)) := by
      rw [evalNet_org_some _ _ _ _
        (Nat.land (if x.testBit (i + 1) then 1 else 0)
          (if z.testBit (i + 1) then 1 else 0))
        (Nat.land (Nat.xor (if x.testBit (i + 1) then 1 else 0)
          (if z.testBit (i + 1) then 1 else 0))
          ((x % 2 ^ (i + 1) + z % 2 ^ (i + 1)) / 2 ^ (i + 1)))
        (by rw [get?_cons, if_neg (by omega), get?_cons, if_pos rfl])
        (by rw [get?_cons, if_pos rfl])]
      rw [fullAdd_carry]
    rw [show runNets [(⟨.selg [i + 1], [a], f + 4 + 7 * i⟩ : Net),
        ⟨.selg [i + 1], [b], f + 4 + 7 * i + 1⟩,
        ⟨.xorg, [f + 4 + 7 * i, f + 4 + 7 * i + 1], f + 4 + 7 * i + 2⟩,
        ⟨.xorg, [f + 4 + 7 * i + 2, f + 3 + 7 * i], f + 4 + 7 * i + 3⟩,
        ⟨.andg, [f + 4 + 7 * i, f + 4 + 7 * i + 1], f + 4 + 7 * i + 4⟩,
        ⟨.andg, [f + 4 + 7 * i + 2, f + 3 + 7 * i], f + 4 + 7 * i + 5⟩,
        ⟨.org, [f + 4 + 7 * i + 4, f + 4 + 7 * i + 5], f + 4 + 7 * i + 6⟩] u1 =
      (f + 4 + 7 * i + 6, (x % 2 ^ (i + 1 + 1) + z % 2 ^ (i + 1 + 1)) / 2 ^ (i + 1 + 1)) ::
        (f + 4 + 7 * i + 5, Nat.land (Nat.xor
          (if x.testBit (i + 1) then 1 else 0)
          (if z.testBit (i + 1) then 1 else 0))
          ((x % 2 ^ (i + 1) + z % 2 ^ (i + 1)) / 2 ^ (i + 1))) ::
        (f + 4 + 7 * i + 4, Nat.land (if x.testBit (i + 1) then 1 else 0)
          (if z.testBit (i + 1) then 1 else 0)) ::
        (f + 4 + 7 * i + 3, if (x + z).testBit (i + 1) then 1 else 0) ::
        (f + 4 + 7 * i + 2, Nat.xor (if x.testBit (i + 1) then 1 else 0)
          (if z.testBit (i + 1) then 1 else 0)) ::
        (f + 4 + 7 * i + 1, if z.testBit (i + 1) then 1 else 0) ::
        (f + 4 + 7 * i, if x.testBit (i + 1) then 1 else 0) :: u1 from by
      rw [runNets_cons, stepNet_some _ _ _ hs1, runNets_cons, stepNet_some _ _ _ hs2,
        runNets_cons, stepNet_some _ _ _ hs3, runNets_cons, stepNet_some _ _ _ hs4,
        runNets_cons, stepNet_some _ _ _ hs5, runNets_cons, stepNet_some _ _ _ hs6,
        runNets_cons, stepNet_some _ _ _ hs7]
      rfl]
    refine ⟨?_, ?_, ?_, ?_⟩
    · intro c hc
      rw [get?_cons, if_neg (by omega), get?_cons, if_neg (by omega),
        get?_cons, if_neg (by omega), get?_cons, if_neg (by omega),
        get?_cons, if_neg (by omega), get?_cons, if_neg (by omega),
        get?_cons, if_neg (by omega)]
      exact ihpres c hc
    · rw [get?_cons, if_neg (by omega), get?_cons, if_neg (by omega),
        get?_cons, if_neg (by omega), get?_cons, if_neg (by omega),
        get?_cons, if_neg (by omega), get?_cons, if_neg (by omega),
        get?_cons, if_neg (by omega)]
      exact ihbit0
    · intro j hj1 hj2
      by_cases hji : j = i + 1
      · subst hji
        rw [get?_cons, if_neg (by omega), get?_cons, if_neg (by omega),
          get?_cons, if_neg (by omega), get?_cons, if_pos (by omega)]
      · rw [get?_cons, if_neg (by omega), get?_cons, if_neg (by omega),
          get?_cons, if_neg (by omega), get?_cons, if_neg (by omega),
          get?_cons, if_neg (by omega), get?_cons, if_neg (by omega),
          get?_cons, if_neg (by omega)]
        exact ihbits j hj1 (by omega)
    · rw [get?_cons, if_pos (by omega)]

theorem mapM_append_some (F : Nat → Option Nat) :
    ∀ (l1 l2 : List Nat) (r1 r2 : List Nat),
      l1.mapM F = some r1 → l2.mapM F = some r2 →
      (l1 ++ l2).mapM F = some (r1 ++ r2) := by
  intro l1
  induction l1 with
  | nil =>
    intro l2 r1 r2 h1 h2
    cases h1
    exact h2
  | cons a l1 ih =>
    intro l2 r1 r2 h1 h2
    rw [List.mapM_cons] at h1
    cases hfa : F a with
    | none => rw [hfa] at h1; cases h1
    | some v =>
      rw [hfa] at h1
      cases hl1 : l1.mapM F with
      | none => rw [hl1] at h1; cases h1
      | some vs =>
        rw [hl1] at h1
        injection h1 with h1
        rw [List.cons_append, List.mapM_cons, hfa, ih l2 vs r2 hl1 h2]
        rw [← h1]
        rfl

theorem range_map_decomp (vb : Nat → Nat) (m : Nat) :
    (List.range (m + 2)).map vb =
      vb 0 :: ((List.range m).map (fun j => vb (j + 1)) ++ [vb (m + 1)]) := by
  rw [List.range_succ, List.map_append]
  rw [List.range_succ_eq_map, List.map_cons, List.map_map]
  rfl

theorem expandAdd_run (x z a b o f m : Nat)
    (hx : x < 2 ^ (m + 1)) (hz : z < 2 ^ (m + 1)) (u : Val)
    (ha : a < f) (hb : b < f) (ho : o < f)
    (hxa : u.get? a = some x) (hzb : u.get? b = some z) :
    ((∀ c, c < f → c ≠ o →
      (runNets (expandAdd a b o f m).1 u).get? c = u.get? c) ∧
     (runNets (expandAdd a b o f m).1 u).get? o = some (x + z)) := by
  obtain ⟨hpres, hbit0, hbits, hcarry⟩ := addChain_run x z a b m f u ha hb hxa hzb
  have hp : 0 < 2 ^ (m + 1) := Nat.pos_pow_of_pos _ (by omega)
  have hcv : (x % 2 ^ (m + 1) + z % 2 ^ (m + 1)) / 2 ^ (m + 1) =
      if (x + z).testBit (m + 1) then 1 else 0 := by
    rw [Nat.mod_eq_of_lt hx, Nat.mod_eq_of_lt hz, ite_testBit_eq]
    have hlt : (x + z) / 2 ^ (m + 1) < 2 :=
      (Nat.div_lt_iff_lt_mul hp).mpr (by omega)
    generalize hd : (x + z) / 2 ^ (m + 1) = d at hlt ⊢
    omega
  rw [hcv] at hcarry
  have hnets : (expandAdd a b o f m).1 =
      (addChain a b f m).1 ++ [⟨.catg (List.replicate (m + 2) 1),
        ((f + 2) :: (List.range m).map (fun j => f + 7 * (j + 1))) ++ [f + 3 + 7 * m],
        o⟩] := by
    show (addChain a b f m).1 ++ [⟨.catg (List.replicate (m + 2) 1),
      (addChain a b f m).2.1 ++ [(addChain a b f m).2.2.1], o⟩] = _
    rw [addChain_outs, addChain_carry_id]
  rw [hnets, runNets_append]
  set u1 := runNets (addChain a b f m).1 u with hu1
  have hmapm : (((f + 2) :: (List.range m).map (fun j => f + 7 * (j + 1))) ++
      [f + 3 + 7 * m]).mapM (fun c => u1.get? c) =
      some ((List.range (m + 2)).map
        (fun j => if (x + z).testBit j then 1 else 0)) := by
    rw [range_map_decomp (fun j => if (x + z).testBit j then 1 else 0) m]
    refine mapM_append_some (fun c => u1.get? c)
      ((f + 2) :: (List.range m).map (fun j => f + 7 * (j + 1)))
      [f + 3 + 7 * m]
      ((if (x + z).testBit 0 then 1 else 0) ::
        (List.range m).map (fun j => if (x + z).testBit (j + 1) then 1 else 0))
      [if (x + z).testBit (m + 1) then 1 else 0] ?_ ?_
    · rw [List.mapM_cons, hbit0]
      rw [mapM_get?_range u1 m (fun j => f + 7 * (j + 1))
        (fun j => if (x + z).testBit (j + 1) then 1 else 0)
        (fun j hj => hbits (j + 1) (by omega) (by omega))]
      rfl
    · rw [List.mapM_cons, hcarry]
      rfl
  have hcat : evalNet u1 ⟨.catg (List.replicate (m + 2) 1),
      ((f + 2) :: (List.range m).map (fun j => f + 7 * (j + 1))) ++ [f + 3 + 7 * m],
      o⟩ = some (x + z) := by
    rw [evalNet_catg_some u1 (List.replicate (m + 2) 1) _ o
      ((List.range (m + 2)).map (fun j => if (x + z).testBit j then 1 else 0)) hmapm]
    rw [catVals_unit_range (x + z) (m + 2)]
    rw [Nat.mod_eq_of_lt (by
      rw [show (2 : Nat) ^ (m + 2) = 2 ^ (m + 1) * 2 from by rw [Nat.pow_succ]]
      omega)]
  rw [show runNets [(⟨.catg (List.replicate (m + 2) 1),
      ((f + 2) :: (List.range m).map (fun j => f + 7 * (j + 1))) ++ [f + 3 + 7 * m],
      o⟩ : Net)] u1 = (o, x + z) :: u1 from by
    rw [runNets_cons, stepNet_some _ _ _ hcat]
    rfl]
  constructor
  · intro c hc hco
    rw [get?_cons, if_neg (fun hc2 => hco hc2.symm)]
    exact hpres c hc
  · rw [get?_cons, if_pos rfl]

theorem netOk_ins_hasWire (g : Graph) (n : Net) (hok : netOkB g n = true) :
    ∀ a ∈ n.ins, hasWire g a = true := by
  intro a ha
  cases hop : n.op with
  | andg =>
    obtain ⟨a1, b1, he, h1, h2, _, _, _⟩ := netOk_elim_andg g n hop hok
    rw [he] at ha
    rcases List.mem_cons.mp ha with h | h
    · rw [h]; exact h1
    · rcases List.mem_cons.mp h with h | h
      · rw [h]; exact h2
      · cases h
  | org =>
    obtain ⟨a1, b1, he, h1, h2, _, _, _⟩ := netOk_elim_org g n hop hok
    rw [he] at ha
    rcases List.mem_cons.mp ha with h | h
    · rw [h]; exact h1
    · rcases List.mem_cons.mp h with h | h
      · rw [h]; exact h2
      · cases h
  | xorg =>
    obtain ⟨a1, b1, he, h1, h2, _, _, _⟩ := netOk_elim_xorg g n hop hok
    rw [he] at ha
    rcases List.mem_cons.mp ha with h | h
    · rw [h]; exact h1
    · rcases List.mem_cons.mp h with h | h
      · rw [h]; exact h2
      · cases h
  | notg w =>
    obtain ⟨a1, he, h1, _, _, _⟩ := netOk_elim_notg g n w hop hok
    rw [he] at ha
    rcases List.mem_cons.mp ha with h | h
    · rw [h]; exact h1
    · cases h
  | addg =>
    obtain ⟨a1, b1, he, h1, h2, _, _, _⟩ := netOk_elim_addg g n hop hok
    rw [he] at ha
    rcases List.mem_cons.mp ha with h | h
    · rw [h]; exact h1
    · rcases List.mem_cons.mp h with h | h
      · rw [h]; exact h2
      · cases h
  | selg bits =>
    obtain ⟨a1, he, h1, _, _, _⟩ := netOk_elim_selg g n bits hop hok
    rw [he] at ha
    rcases List.mem_cons.mp ha with h | h
    · rw [h]; exact h1
    · cases h
  | catg ws =>
    obtain ⟨h1, _, _, _, _⟩ := netOk_elim_catg g n ws hop hok
    exact h1 a ha
  | regg =>
    unfold netOkB at hok
    rw [hop] at hok
    cases hins : n.ins with
    | nil => rw [hins] at hok; cases hok
    | cons a1 t =>
      cases t with
      | nil =>
        rw [hins] at hok
        simp only [Bool.and_eq_true] at hok
        rw [hins] at ha
        rcases List.mem_cons.mp ha with h | h
        · rw [h]; exact hok.1.1
        · cases h
      | cons b1 t2 => rw [hins] at hok; cases hok
  | memg =>
    unfold netOkB at hok
    rw [hop] at hok
    simp only [Bool.and_eq_true, List.all_eq_true] at hok
    exact hok.1 a ha

theorem widthOf_pos (g : Graph) (a : Nat)
    (hwid : ∀ w ∈ g.wires, 1 ≤ w.width) (ha : hasWire g a = true) :
    1 ≤ widthOf g a := by
  unfold hasWire at ha
  cases hw : g.wire? a with
  | none => rw [hw] at ha; cases ha
  | some w =>
    unfold widthOf
    rw [hw]
    exact hwid w (wire?_mem g a w hw).1

theorem initList_synthesize (g : Graph) (env : Nat → Nat) :
    initList (synthesize g) env = initList g env := by
  show (g.wires ++ wiresOf (maxWid g + 1) (synthNets g g.nets (maxWid g + 1)).2).filterMap
    (srcVal env) = g.wires.filterMap (srcVal env)
  rw [List.filterMap_append]
  rw [show (wiresOf (maxWid g + 1) (synthNets g g.nets (maxWid g + 1)).2).filterMap
      (srcVal env) = [] from by
    rw [List.filterMap_eq_nil_iff]
    intro w hw
    obtain ⟨j, _, he⟩ := List.mem_map.mp hw
    rw [← he]
    rfl]
  exact List.append_nil _

theorem synthNets_run (g : Graph) (hwid : ∀ w ∈ g.wires, 1 ≤ w.width) :
    ∀ (ns : List Net) (A : List Nat) (f : Nat) (v u : Val),
      (∀ n ∈ ns, netOkB g n = true) →
      topoB g ns A = true →
      maxWid g < f →
      (∀ a, isSourceB g a = true ∨ a ∈ A →
        ∃ x, v.get? a = some x ∧ x < 2 ^ widthOf g a) →
      (∀ c, c ≤ maxWid g → u.get? c = v.get? c) →
      ∀ c, c ≤ maxWid g →
        (runNets (synthNets g ns f).1 u).get? c = (runNets ns v).get? c := by
  intro ns
  induction ns with
  | nil =>
    intro A f v u _ _ _ _ HB c hc
    exact HB c hc
  | cons n ns ih =>
    intro A f v u hok htopo hf HA HB c hc
    obtain ⟨htopo1, htopo2⟩ := (topoB_cons g n ns A).mp htopo
    have hokn := hok n (List.mem_cons_self n ns)
    have hok2 : ∀ m ∈ ns, netOkB g m = true :=
      fun m hm => hok m (List.mem_cons_of_mem n hm)
    have hins_le : ∀ a ∈ n.ins, a ≤ maxWid g :=
      fun a ha => hasWire_le_maxWid g a (netOk_ins_hasWire g n hokn a ha)
    have hout_le : n.out ≤ maxWid g :=
      hasWire_le_maxWid g n.out (netOk_out_hasWire g n hokn)
    have HAv : ∀ a ∈ n.ins, ∃ x, v.get? a = some x ∧ x < 2 ^ widthOf g a := by
      intro a ha
      exact HA a (by
        rcases htopo1 a ha with h | h
        · exact Or.inl h
        · exact Or.inr h)
    have HAu : ∀ a ∈ n.ins, ∃ x, u.get? a = some x ∧ v.get? a = some x := by
      intro a ha
      obtain ⟨x, h1, _⟩ := HAv a ha
      exact ⟨x, by rw [HB a (hins_le a ha)]; exact h1, h1⟩
    have hsplit : (synthNets g (n :: ns) f).1 =
        (synthNet g f n).1 ++ (synthNets g ns (synthNet g f n).2).1 := rfl
    rw [hsplit, runNets_append, runNets_cons]
    have hfle := synthNet_f_le g f n
    rcases synthNet_spec g f n with ⟨_, hsn⟩ | ⟨_, hexp⟩
    · -- the net is kept unchanged
      rw [hsn]
      have hcongr : evalNet u n = evalNet v n := by
        apply evalNet_congr
        intro a ha
        rw [HB a (hins_le a ha)]
      cases hcomb : isCombB n.op with
      | true =>
        obtain ⟨y, hev, hyb⟩ := evalNet_wf g n v hokn hcomb HAv
        rw [show runNets [n] u = (n.out, y) :: u from by
          rw [runNets_cons, stepNet_some n u y (by rw [hcongr]; exact hev)]
          rfl]
        rw [stepNet_some n v y hev]
        refine ih (n.out :: A) f ((n.out, y) :: v) ((n.out, y) :: u)
          hok2 htopo2 hf ?_ ?_ c hc
        · intro a haa
          by_cases hae : a = n.out
          · subst hae
            rw [get?_cons, if_pos rfl]
            exact ⟨y, rfl, hyb⟩
          · rw [get?_cons, if_neg (fun h => hae h.symm)]
            refine HA a ?_
            rcases haa with h | h
            · exact Or.inl h
            · rcases List.mem_cons.mp h with h2 | h2
              · exact absurd h2 hae
              · exact Or.inr h2
        · intro c2 hc2
          rw [get?_cons, get?_cons]
          by_cases hce : n.out = c2
          · rw [if_pos hce, if_pos hce]
          · rw [if_neg hce, if_neg hce]
            exact HB c2 hc2
      | false =>
        have hsrc : isSourceB g n.out = true := netOk_seq_out_source g n hokn hcomb
        rw [show runNets [n] u = u from by
          rw [runNets_cons, stepNet_none n u (by
            rw [hcongr]
            exact evalNet_seq_none v n hcomb)]
          rfl]
        rw [stepNet_none n v (evalNet_seq_none v n hcomb)]
        refine ih (n.out :: A) f v u hok2 htopo2 hf ?_ HB c hc
        intro a haa
        refine HA a ?_
        rcases haa with h | h
        · exact Or.inl h
        · rcases List.mem_cons.mp h with h2 | h2
          · left
            rw [h2]
            exact hsrc
          · exact Or.inr h2
    · -- the net is expanded into a single-bit network
      have hstep : ∃ y, evalNet v n = some y ∧ y < 2 ^ widthOf g n.out ∧
          (runNets (synthNet g f n).1 u).get? n.out = some y ∧
          (∀ c2, c2 < f → c2 ≠ n.out →
            (runNets (synthNet g f n).1 u).get? c2 = u.get? c2) := by
        rcases hexp with ⟨a0, b0, hop3, hins, _, hsn⟩ | ⟨a0, w, hopn, hins, _, hsn⟩ |
          ⟨a0, b0, m, hopa, hins, hwa, hsn⟩
        · -- and/or/xor expansion
          have ha0 : a0 ∈ n.ins := by rw [hins]; exact List.mem_cons_self _ _
          have hb0 : b0 ∈ n.ins := by
            rw [hins]
            exact List.mem_cons_of_mem _ (List.mem_cons_self _ _)
          obtain ⟨x, hvx, hxb⟩ := HAv a0 ha0
          obtain ⟨z, hvz, hzb⟩ := HAv b0 hb0
          have hux : u.get? a0 = some x := by rw [HB a0 (hins_le a0 ha0)]; exact hvx
          have huz : u.get? b0 = some z := by rw [HB b0 (hins_le b0 hb0)]; exact hvz
          have ha0f : a0 < f := by have := hins_le a0 ha0; omega
          have hb0f : b0 < f := by have := hins_le b0 hb0; omega
          have hof : n.out < f := by omega
          obtain ⟨hwa, hwb⟩ : widthOf g a0 = widthOf g n.out ∧
              widthOf g b0 = widthOf g n.out := by
            rcases hop3 with h | h | h
            · obtain ⟨a1, b1, he, _, _, _, h5, h6⟩ := netOk_elim_andg g n h hokn
              rw [hins] at he
              injection he with e1 e2
              injection e2 with e2 _
              rw [← e1] at h5
              rw [← e2] at h6
              exact ⟨h5, h6⟩
            · obtain ⟨a1, b1, he, _, _, _, h5, h6⟩ := netOk_elim_org g n h hokn
              rw [hins] at he
              injection he with e1 e2
              injection e2 with e2 _
              rw [← e1] at h5
              rw [← e2] at h6
              exact ⟨h5, h6⟩
            · obtain ⟨a1, b1, he, _, _, _, h5, h6⟩ := netOk_elim_xorg g n h hokn
              rw [hins] at he
              injection he with e1 e2
              injection e2 with e2 _
              rw [← e1] at h5
              rw [← e2] at h6
              exact ⟨h5, h6⟩
          rw [hwa] at hxb
          rw [hwb] at hzb
          obtain ⟨y, hyev, hyb, hgate⟩ : ∃ y,
              evalNet v n = some y ∧ y < 2 ^ widthOf g n.out ∧
              (∀ (u2 : Val) (s t o j : Nat),
                u2.get? s = some (if x.testBit j then 1 else 0) →
                u2.get? t = some (if z.testBit j then 1 else 0) →
                evalNet u2 ⟨n.op, [s, t], o⟩ =
                  some (if y.testBit j then 1 else 0)) := by
            rcases hop3 with h | h | h
            · refine ⟨Nat.land x z, ?_, land_lt_two_pow z hxb, ?_⟩
              · rw [← evalNet_eta v n, h, hins]
                exact evalNet_andg_some v a0 b0 n.out x z hvx hvz
              · intro u2 s t o j h1 h2
                rw [h]
                rw [evalNet_andg_some u2 s t o _ _ h1 h2, land_bit]
            · refine ⟨Nat.lor x z, ?_, lor_lt_two_pow hxb hzb, ?_⟩
              · rw [← evalNet_eta v n, h, hins]
                exact evalNet_org_some v a0 b0 n.out x z hvx hvz
              · intro u2 s t o j h1 h2
                rw [h]
                rw [evalNet_org_some u2 s t o _ _ h1 h2, lor_bit]
            · refine ⟨Nat.xor x z, ?_, xor_lt_two_pow hxb hzb, ?_⟩
              · rw [← evalNet_eta v n, h, hins]
                exact evalNet_xorg_some v a0 b0 n.out x z hvx hvz
              · intro u2 s t o j h1 h2
                rw [h]
                rw [evalNet_xorg_some u2 s t o _ _ h1 h2, xor_bit]
          obtain ⟨hpres, hval⟩ := expandBin_run n.op x z y hgate a0 b0 n.out f
            (widthOf g n.out) hyb u ha0f hb0f hof hux huz
          refine ⟨y, hyev, hyb, ?_, ?_⟩
          · rw [hsn]
            exact hval
          · intro c2 hc2 hc2o
            rw [hsn]
            exact hpres c2 hc2 hc2o
        · -- not expansion
          have ha0 : a0 ∈ n.ins := by rw [hins]; exact List.mem_cons_self _ _
          obtain ⟨x, hvx, hxb⟩ := HAv a0 ha0
          have hux : u.get? a0 = some x := by rw [HB a0 (hins_le a0 ha0)]; exact hvx
          have ha0f : a0 < f := by have := hins_le a0 ha0; omega
          have hof : n.out < f := by omega
          obtain ⟨hwa, hwo⟩ : widthOf g a0 = w ∧ widthOf g n.out = w := by
            obtain ⟨a1, he, _, _, h4, h5⟩ := netOk_elim_notg g n w hopn hokn
            rw [hins] at he
            injection he with e1 _
            rw [← e1] at h4
            exact ⟨h4, h5⟩
          rw [hwa] at hxb
          have hwpos : 0 < w := by
            have := widthOf_pos g a0 hwid (netOk_ins_hasWire g n hokn a0 ha0)
            omega
          obtain ⟨hpres, hval⟩ := expandNot_run x w a0 n.out f hwpos u ha0f hof hux
          have hymod : Nat.xor x (2 ^ w - 1) % 2 ^ w = Nat.xor x (2 ^ w - 1) :=
            Nat.mod_eq_of_lt (xor_lt_two_pow hxb (two_pow_sub_one_lt w))
          refine ⟨Nat.xor x (2 ^ w - 1), ?_, ?_, ?_, ?_⟩
          · rw [← evalNet_eta v n, hopn, hins]
            exact evalNet_notg_some v w a0 n.out x hvx
          · rw [hwo]
            exact xor_lt_two_pow hxb (two_pow_sub_one_lt w)
          · rw [hsn, hval, hymod]
          · intro c2 hc2 hc2o
            rw [hsn]
            exact hpres c2 hc2 hc2o
        · -- addition expansion
          have ha0 : a0 ∈ n.ins := by rw [hins]; exact List.mem_cons_self _ _
          have hb0 : b0 ∈ n.ins := by
            rw [hins]
            exact List.mem_cons_of_mem _ (List.mem_cons_self _ _)
          obtain ⟨x, hvx, hxb⟩ := HAv a0 ha0
          obtain ⟨z, hvz, hzb⟩ := HAv b0 hb0
          have hux : u.get? a0 = some x := by rw [HB a0 (hins_le a0 ha0)]; exact hvx
          have huz : u.get? b0 = some z := by rw [HB b0 (hins_le b0 hb0)]; exact hvz
          have ha0f : a0 < f := by have := hins_le a0 ha0; omega
          have hb0f : b0 < f := by have := hins_le b0 hb0; omega
          have hof : n.out < f := by omega
          obtain ⟨hwab, hwo⟩ : widthOf g a0 = widthOf g b0 ∧
              widthOf g n.out = widthOf g a0 + 1 := by
            obtain ⟨a1, b1, he, _, _, _, h5, h6⟩ := netOk_elim_addg g n hopa hokn
            rw [hins] at he
            injection he with e1 e2
            injection e2 with e2 _
            rw [← e1, ← e2] at h5
            rw [← e1] at h6
            exact ⟨h5, h6⟩
          rw [hwa] at hxb
          rw [← hwab, hwa] at hzb
          obtain ⟨hpres, hval⟩ := expandAdd_run x z a0 b0 n.out f m hxb hzb u
            ha0f hb0f hof hux huz
          refine ⟨x + z, ?_, ?_, ?_, ?_⟩
          · rw [← evalNet_eta v n, hopa, hins]
            exact evalNet_addg_some v a0 b0 n.out x z hvx hvz
          · rw [hwo, hwa]
            rw [show (2 : Nat) ^ (m + 1 + 1) = 2 ^ (m + 1) * 2 from by rw [Nat.pow_succ]]
            omega
          · rw [hsn]
            exact hval
          · intro c2 hc2 hc2o
            rw [hsn]
            exact hpres c2 hc2 hc2o
      obtain ⟨y, hyev, hyb, huval, hupres⟩ := hstep
      rw [stepNet_some n v y hyev]
      refine ih (n.out :: A) (synthNet g f n).2 ((n.out, y) :: v)
        (runNets (synthNet g f n).1 u) hok2 htopo2 (by omega) ?_ ?_ c hc
      · intro a haa
        by_cases hae : a = n.out
        · subst hae
          rw [get?_cons, if_pos rfl]
          exact ⟨y, rfl, hyb⟩
        · rw [get?_cons, if_neg (fun h => hae h.symm)]
          refine HA a ?_
          rcases haa with h | h
          · exact Or.inl h
          · rcases List.mem_cons.mp h with h2 | h2
            · exact absurd h2 hae
            · exact Or.inr h2
      · intro c2 hc2
        by_cases hce : c2 = n.out
        · subst hce
          rw [huval, get?_cons, if_pos rfl]
        · rw [hupres c2 (by omega) hce, get?_cons,
            if_neg (fun h => hce h.symm)]
          exact HB c2 hc2

theorem synthesize_behavior (g : Graph) (hwf : g.WF) (env : Nat → Nat) :
    behavior (synthesize g) env = behavior g env := by
  obtain ⟨hndw, hndo, hwid, hok, htopo, hout⟩ := wf_parts g hwf
  unfold behavior
  apply List.map_congr_left
  intro o ho
  unfold finalVal
  rw [initList_synthesize]
  exact synthNets_run g hwid g.nets [] (maxWid g + 1) (initList g env) (initList g env)
    hok htopo (by omega)
    (by
      intro a haa
      rcases haa with hsrc | hAm
      · exact initList_source g env hndw a hsrc
      · exact absurd hAm (List.not_mem_nil a))
    (fun c _ => rfl)
    o (hasWire_le_maxWid g o (hout o ho))

/-- C1: for every well-formed netlist graph and every assignment to its source
wires, the synthesis pass and the optimization pass both preserve the observable
behavior: the values on the designated Output wires computed by `synthesize g`
and by `optimize g` equal those computed by `g` itself (observational
equivalence of every pass). -/
theorem passes_preserve_behavior (g : Graph) (hwf : g.WF) (env : Nat → Nat) :
    behavior (synthesize g) env = behavior g env ∧
    behavior (optimize g) env = behavior g env :=
  ⟨synthesize_behavior g hwf env, optimize_behavior g hwf env⟩

/-- Witness for C1: the notebook's graph is well-formed, and on the concrete
input assignment sending the Input wire to 5 both passes leave its behavior
unchanged. -/
theorem passes_preserve_behavior_witness :
    exampleGraph.WF ∧
    (behavior (synthesize exampleGraph) (fun _ => 5) =
        behavior exampleGraph (fun _ => 5) ∧
      behavior (optimize exampleGraph) (fun _ => 5) =
        behavior exampleGraph (fun _ => 5)) :=
  ⟨by decide, passes_preserve_behavior exampleGraph (by decide) (fun _ => 5)⟩

/-! ## Cyclicity: the Kahn-style sort of the Timing Analyzer (claim C9) -/

theorem kahnE_zero (rem : List Net) (avail : List Nat) :
    kahnE 0 rem avail =
      if rem.isEmpty then .ok [] else .error .cyclicCombinationalLogic := rfl

theorem kahnE_succ (fuel : Nat) (rem : List Net) (avail : List Nat) :
    kahnE (fuel + 1) rem avail =
      if rem.isEmpty then .ok []
      else if (rem.filter (insAvailB avail)).isEmpty then
        .error .cyclicCombinationalLogic
      else
        match kahnE fuel (rem.filter (fun n => !insAvailB avail n))
            (avail ++ (rem.filter (insAvailB avail)).map (fun n => n.out)) with
        | .ok rest => .ok (rem.filter (insAvailB avail) ++ rest)
        | .error e => .error e := rfl

theorem isEmpty_false_of_mem {α : Type} (l : List α) (a : α) (h : a ∈ l) :
    l.isEmpty = false := by
  cases l with
  | nil => cases h
  | cons x xs => rfl

theorem length_filter_partition {α : Type} (p : α → Bool) :
    ∀ (l : List α), (l.filter p).length + (l.filter (fun x => !p x)).length = l.length := by
  intro l
  induction l with
  | nil => rfl
  | cons a l ih =>
    cases hp : p a with
    | true =>
      rw [List.filter_cons_of_pos hp, List.filter_cons_of_neg (by rw [hp]; decide)]
      simp only [List.length_cons]
      omega
    | false =>
      rw [List.filter_cons_of_neg (by rw [hp]; decide),
        List.filter_cons_of_pos (by rw [hp]; decide)]
      simp only [List.length_cons]
      omega

theorem isSourceB_mem_sourceIds (g : Graph) (a : Nat) (h : isSourceB g a = true) :
    a ∈ sourceIds g := by
  unfold isSourceB at h
  cases hw : g.wire? a with
  | none => rw [hw] at h; cases h
  | some w =>
    rw [hw] at h
    obtain ⟨hmem, hwid⟩ := wire?_mem g a w hw
    unfold sourceIds
    rw [← hwid]
    exact List.mem_map_of_mem _ (List.mem_filter.mpr ⟨hmem, h⟩)

theorem rel_cycle_of_pred (rem : List Net) (R : Net → Net → Prop)
    (hne : rem ≠ []) (h : ∀ n ∈ rem, ∃ m ∈ rem, R m n) :
    ∃ n, Relation.TransGen R n n := by
  obtain ⟨n0, hn0⟩ := List.exists_mem_of_ne_nil rem hne
  have hch : ∀ n, ∃ m, (n ∈ rem → m ∈ rem ∧ R m n) := by
    intro n
    by_cases hn : n ∈ rem
    · obtain ⟨m, hm, hR⟩ := h n hn
      exact ⟨m, fun _ => ⟨hm, hR⟩⟩
    · exact ⟨n0, fun hc => absurd hc hn⟩
  obtain ⟨F, hF⟩ := Classical.axiomOfChoice hch
  have hseq : ∀ k, (F^[k] n0) ∈ rem ∧ (F^[k + 1] n0) ∈ rem ∧
      R (F^[k + 1] n0) (F^[k] n0) := by
    intro k
    induction k with
    | zero =>
      refine ⟨hn0, ?_, ?_⟩
      · exact (hF n0 hn0).1
      · exact (hF n0 hn0).2
    | succ k ih =>
      obtain ⟨h1, h2, h3⟩ := ih
      refine ⟨h2, ?_, ?_⟩
      · rw [Function.iterate_succ_apply', Function.iterate_succ_apply']
        rw [Function.iterate_succ_apply'] at h2
        exact (hF _ h2).1
      · rw [Function.iterate_succ_apply', Function.iterate_succ_apply']
        rw [Function.iterate_succ_apply'] at h2
        exact (hF _ h2).2
  have hchain : ∀ (d k : Nat), Relation.TransGen R (F^[k + d + 1] n0) (F^[k] n0) := by
    intro d
    induction d with
    | zero => intro k; exact Relation.TransGen.single (hseq k).2.2
    | succ d ih =>
      intro k
      have h1 := ih (k + 1)
      have h2 : Relation.TransGen R (F^[k + 1] n0) (F^[k] n0) :=
        Relation.TransGen.single (hseq k).2.2
      have h3 := Relation.TransGen.trans h1 h2
      rw [show k + 1 + d + 1 = k + (d + 1) + 1 from by omega] at h3
      exact h3
  have hmaps : ∀ i ∈ Finset.range (rem.length + 1), (F^[i] n0) ∈ rem.toFinset := by
    intro i _
    exact List.mem_toFinset.mpr (hseq i).1
  have hcard : rem.toFinset.card < (Finset.range (rem.length + 1)).card := by
    rw [Finset.card_range]
    have := rem.toFinset_card_le
    omega
  obtain ⟨i, hi, j, hj, hij, hfe⟩ :=
    Finset.exists_ne_map_eq_of_card_lt_of_maps_to hcard hmaps
  rcases Nat.lt_or_ge i j with hlt | hge
  · refine ⟨F^[j] n0, ?_⟩
    have := hchain (j - i - 1) i
    rw [show i + (j - i - 1) + 1 = j from by omega] at this
    rw [hfe] at this
    exact this
  · have hlt2 : j < i := by omega
    refine ⟨F^[i] n0, ?_⟩
    have := hchain (i - j - 1) j
    rw [show j + (i - j - 1) + 1 = i from by omega] at this
    rw [← hfe] at this
    exact this

theorem kahn_err_cycle (g : Graph) :
    ∀ (fuel : Nat) (rem : List Net) (avail : List Nat) (e : TimingErr),
      (∀ n ∈ rem, n ∈ g.nets) →
      (∀ n ∈ rem, ∀ a ∈ n.ins,
        a ∈ avail ∨ ∃ m ∈ rem, m.out = a ∧ isSourceB g a = false) →
      rem.length ≤ fuel →
      kahnE fuel rem avail = .error e → HasCombCycle g := by
  intro fuel
  induction fuel with
  | zero =>
    intro rem avail e _ _ hlen hk
    rw [kahnE_zero] at hk
    have : rem = [] := by
      cases rem with
      | nil => rfl
      | cons n t => simp at hlen
    rw [this] at hk
    cases hk
  | succ fuel ih =>
    intro rem avail e hsub hpe hlen hk
    rw [kahnE_succ] at hk
    cases hrem : rem.isEmpty with
    | true =>
      rw [hrem, if_pos rfl] at hk
      cases hk
    | false =>
      rw [hrem] at hk
      rw [if_neg (by rw [show (false = true) ↔ False from by simp]; exact id)] at hk
      cases hready : (rem.filter (insAvailB avail)).isEmpty with
      | true =>
        -- stuck: every remaining net has a predecessor among the remaining nets
        have hne : rem ≠ [] := by
          intro hc
          rw [hc] at hrem
          cases hrem
        refine rel_cycle_of_pred rem (edgeN g) hne ?_
        intro n hn
        have hnready : insAvailB avail n = false := by
          cases hx : insAvailB avail n with
          | false => rfl
          | true =>
            have : n ∈ rem.filter (insAvailB avail) :=
              List.mem_filter.mpr ⟨hn, hx⟩
            rw [isEmpty_false_of_mem _ n this] at hready
            cases hready
        have hbad : ∃ a ∈ n.ins, a ∉ avail := by
          unfold insAvailB at hnready
          by_contra hc
          push_neg at hc
          have : n.ins.all (fun a => avail.contains a) = true := by
            rw [List.all_eq_true]
            intro a ha
            exact contains_of_mem _ _ (hc a ha)
          rw [this] at hnready
          cases hnready
        obtain ⟨a, ha, hna⟩ := hbad
        rcases hpe n hn a ha with hav | ⟨m, hm, hma, hns⟩
        · exact absurd hav hna
        · exact ⟨m, hm, hsub m hm, hsub n hn,
            by rw [hma]; exact ha, by rw [hma]; exact hns⟩
      | false =>
        rw [hready] at hk
        rw [if_neg (by rw [show (false = true) ↔ False from by simp]; exact id)] at hk
        cases hrec : kahnE fuel (rem.filter (fun n => !insAvailB avail n))
            (avail ++ (rem.filter (insAvailB avail)).map (fun n => n.out)) with
        | ok rest => rw [hrec] at hk; cases hk
        | error e2 =>
          refine ih (rem.filter (fun n => !insAvailB avail n))
            (avail ++ (rem.filter (insAvailB avail)).map (fun n => n.out)) e2
            ?_ ?_ ?_ hrec
          · intro n hn
            exact hsub n (List.mem_of_mem_filter hn)
          · intro n hn a ha
            have hn2 := List.mem_of_mem_filter hn
            rcases hpe n hn2 a ha with hav | ⟨m, hm, hma, hns⟩
            · left
              exact List.mem_append_left _ hav
            · cases hmready : insAvailB avail m with
              | true =>
                left
                refine List.mem_append_right _ ?_
                rw [← hma]
                exact List.mem_map_of_mem _ (List.mem_filter.mpr ⟨hm, hmready⟩)
              | false =>
                right
                refine ⟨m, ?_, hma, hns⟩
                exact List.mem_filter.mpr ⟨hm, by rw [hmready]; rfl⟩
          · have hpart := length_filter_partition (insAvailB avail) rem
            have hrne : (rem.filter (insAvailB avail)).length ≥ 1 := by
              cases hx : rem.filter (insAvailB avail) with
              | nil => rw [hx] at hready; cases hready
              | cons y t => simp
            omega

theorem kahn_blocked :
    ∀ (fuel : Nat) (rem : List Net) (avail : List Nat) (S : Net → Prop),
      (∃ s, S s) →
      (∀ n, S n → n ∈ rem) →
      (∀ n, S n → ∃ m, S m ∧ m.out ∈ n.ins ∧ m.out ∉ avail ∧
        (∀ m2 ∈ rem, m2.out = m.out → S m2)) →
      ∀ l, kahnE fuel rem avail = .ok l → False := by
  intro fuel
  induction fuel with
  | zero =>
    intro rem avail S hne hmem _ l hk
    obtain ⟨s, hs⟩ := hne
    rw [kahnE_zero, isEmpty_false_of_mem rem s (hmem s hs)] at hk
    rw [if_neg (by rw [show (false = true) ↔ False from by simp]; exact id)] at hk
    cases hk
  | succ fuel ih =>
    intro rem avail S hne hmem hclo l hk
    obtain ⟨s, hs⟩ := hne
    rw [kahnE_succ, isEmpty_false_of_mem rem s (hmem s hs)] at hk
    rw [if_neg (by rw [show (false = true) ↔ False from by simp]; exact id)] at hk
    have hSnotready : ∀ n, S n → insAvailB avail n = false := by
      intro n hn
      obtain ⟨m, _, hmi, hmav, _⟩ := hclo n hn
      cases hx : insAvailB avail n with
      | false => rfl
      | true =>
        exfalso
        unfold insAvailB at hx
        rw [List.all_eq_true] at hx
        exact hmav (mem_of_contains _ _ (hx m.out hmi))
    cases hready : (rem.filter (insAvailB avail)).isEmpty with
    | true =>
      rw [hready, if_pos rfl] at hk
      cases hk
    | false =>
      rw [hready] at hk
      rw [if_neg (by rw [show (false = true) ↔ False from by simp]; exact id)] at hk
      cases hrec : kahnE fuel (rem.filter (fun n => !insAvailB avail n))
          (avail ++ (rem.filter (insAvailB avail)).map (fun n => n.out)) with
      | error e2 => rw [hrec] at hk; cases hk
      | ok rest =>
        refine ih (rem.filter (fun n => !insAvailB avail n))
          (avail ++ (rem.filter (insAvailB avail)).map (fun n => n.out)) S
          ⟨s, hs⟩ ?_ ?_ rest hrec
        · intro n hn
          refine List.mem_filter.mpr ⟨hmem n hn, ?_⟩
          rw [hSnotready n hn]
          rfl
        · intro n hn
          obtain ⟨m, hSm, hmi, hmav, hm2⟩ := hclo n hn
          refine ⟨m, hSm, hmi, ?_, ?_⟩
          · intro hc
            rcases List.mem_append.mp hc with h1 | h1
            · exact hmav h1
            · obtain ⟨m2, hm2r, he2⟩ := List.mem_map.mp h1
              have hm2mem := List.mem_of_mem_filter hm2r
              have hm2ready := List.of_mem_filter hm2r
              have hSm2 : S m2 := hm2 m2 hm2mem he2
              rw [hSnotready m2 hSm2] at hm2ready
              cases hm2ready
          · intro m2 hm2r he2
            exact hm2 m2 (List.mem_of_mem_filter hm2r) he2

theorem topoB_filter_avail (g : Graph) (p : Net → Bool) :
    ∀ (ns : List Net) (A A' : List Nat),
      topoB g ns A = true →
      (∀ a ∈ A, a ∈ A') →
      (∀ n ∈ ns, p n = false → n.out ∈ A') →
      topoB g (ns.filter p) A' = true := by
  intro ns
  induction ns with
  | nil => intro A A' _ _ _; rfl
  | cons n ns ih =>
    intro A A' htopo hcov hdrop
    obtain ⟨htopo1, htopo2⟩ := (topoB_cons g n ns A).mp htopo
    cases hp : p n with
    | true =>
      rw [List.filter_cons_of_pos hp, topoB_cons]
      constructor
      · intro a ha
        rcases htopo1 a ha with h1 | h1
        · exact Or.inl h1
        · exact Or.inr (hcov a h1)
      · refine ih (n.out :: A) (n.out :: A') htopo2 ?_ ?_
        · intro a ha
          rcases List.mem_cons.mp ha with h1 | h1
          · rw [h1]; exact List.mem_cons_self _ _
          · exact List.mem_cons_of_mem _ (hcov a h1)
        · intro m hm hpm
          exact List.mem_cons_of_mem _ (hdrop m (List.mem_cons_of_mem n hm) hpm)
    | false =>
      rw [List.filter_cons_of_neg (by rw [hp]; decide)]
      refine ih (n.out :: A) A' htopo2 ?_ ?_
      · intro a ha
        rcases List.mem_cons.mp ha with h1 | h1
        · rw [h1]
          exact hdrop n (List.mem_cons_self n ns) hp
        · exact hcov a h1
      · intro m hm hpm
        exact hdrop m (List.mem_cons_of_mem n hm) hpm

theorem kahn_ok_of_topo (g : Graph) :
    ∀ (fuel : Nat) (rem : List Net) (avail A : List Nat),
      topoB g rem A = true →
      (∀ a, isSourceB g a = true → a ∈ avail) →
      (∀ a ∈ A, a ∈ avail) →
      rem.length ≤ fuel →
      ∃ l, kahnE fuel rem avail = .ok l := by
  intro fuel
  induction fuel with
  | zero =>
    intro rem avail A _ _ _ hlen
    cases rem with
    | nil => exact ⟨[], rfl⟩
    | cons n t => simp at hlen
  | succ fuel ih =>
    intro rem avail A htopo hsrc hA hlen
    cases hrem : rem.isEmpty with
    | true =>
      refine ⟨[], ?_⟩
      rw [kahnE_succ, hrem, if_pos rfl]
    | false =>
      have hne : rem ≠ [] := by
        intro hc
        rw [hc] at hrem
        cases hrem
      obtain ⟨n, hn⟩ := List.exists_mem_of_ne_nil rem hne
      have hheadready : ∃ m ∈ rem, insAvailB avail m = true := by
        cases hrc : rem with
        | nil => exact absurd hrc hne
        | cons n0 rem2 =>
          refine ⟨n0, List.mem_cons_self _ _, ?_⟩
          have htopo0 : topoB g (n0 :: rem2) A = true := by rw [← hrc]; exact htopo
          obtain ⟨h1, _⟩ := (topoB_cons g n0 rem2 A).mp htopo0
          unfold insAvailB
          rw [List.all_eq_true]
          intro a ha
          refine contains_of_mem _ _ ?_
          rcases h1 a ha with h2 | h2
          · exact hsrc a h2
          · exact hA a h2
      obtain ⟨m0, hm0, hm0r⟩ := hheadready
      have hready : (rem.filter (insAvailB avail)).isEmpty = false :=
        isEmpty_false_of_mem _ m0 (List.mem_filter.mpr ⟨hm0, hm0r⟩)
      have htopo' : topoB g (rem.filter (fun n => !insAvailB avail n))
          (A ++ (rem.filter (insAvailB avail)).map (fun n => n.out)) = true := by
        refine topoB_filter_avail g _ rem A _ htopo ?_ ?_
        · intro a ha
          exact List.mem_append_left _ ha
        · intro m hm hpm
          refine List.mem_append_right _ ?_
          refine List.mem_map_of_mem _ (List.mem_filter.mpr ⟨hm, ?_⟩)
          rw [Bool.not_eq_false'] at hpm
          exact hpm
      obtain ⟨rest, hrest⟩ := ih (rem.filter (fun n => !insAvailB avail n))
        (avail ++ (rem.filter (insAvailB avail)).map (fun n => n.out))
        (A ++ (rem.filter (insAvailB avail)).map (fun n => n.out))
        htopo'
        (fun a ha => List.mem_append_left _ (hsrc a ha))
        (by
          intro a ha
          rcases List.mem_append.mp ha with h1 | h1
          · exact List.mem_append_left _ (hA a h1)
          · exact List.mem_append_right _ h1)
        (by
          have hpart := length_filter_partition (insAvailB avail) rem
          have hge : (rem.filter (insAvailB avail)).length ≥ 1 := by
            cases hx : rem.filter (insAvailB avail) with
            | nil => rw [hx] at hready; cases hready
            | cons y t => simp
          omega)
      refine ⟨rem.filter (insAvailB avail) ++ rest, ?_⟩
      rw [kahnE_succ, hrem]
      rw [if_neg (by rw [show (false = true) ↔ False from by simp]; exact id)]
      rw [hready]
      rw [if_neg (by rw [show (false = true) ↔ False from by simp]; exact id)]
      rw [hrest]

theorem find?_wid_of_mem (w : Wire) :
    ∀ ws : List Wire, nodupB (ws.map (fun w => w.wid)) = true → w ∈ ws →
      ws.find? (fun w2 => w2.wid = w.wid) = some w := by
  intro ws
  induction ws with
  | nil => intro _ hw; cases hw
  | cons w0 ws ih =>
    intro hndw hw
    obtain ⟨hno, hnd2⟩ := nodupB_head _ _ (by rw [List.map_cons] at hndw; exact hndw)
    rcases List.mem_cons.mp hw with he | he
    · rw [he]
      rw [List.find?_cons_of_pos _ (by simp)]
    · have hne : w0.wid ≠ w.wid := by
        intro hc
        exact hno (by rw [hc]; exact List.mem_map_of_mem (fun w => w.wid) he)
      rw [List.find?_cons_of_neg _ (by simp only [decide_eq_true_eq]; exact hne)]
      exact ih hnd2 he

theorem wire?_of_mem (g : Graph) (w : Wire)
    (hndw : nodupB (g.wires.map (fun w => w.wid)) = true) (hw : w ∈ g.wires) :
    g.wire? w.wid = some w :=
  find?_wid_of_mem w g.wires hndw hw

theorem mem_sourceIds_isSourceB (g : Graph) (a : Nat)
    (hndw : nodupB (g.wires.map (fun w => w.wid)) = true)
    (h : a ∈ sourceIds g) : isSourceB g a = true := by
  unfold sourceIds at h
  obtain ⟨w, hwf, he⟩ := List.mem_map.mp h
  have hmem := List.mem_of_mem_filter hwf
  have hkind := List.of_mem_filter hwf
  unfold isSourceB
  rw [← he, wire?_of_mem g w hndw hmem]
  exact hkind

theorem topoB_pe (g : Graph) :
    ∀ (ns : List Net) (A : List Nat), topoB g ns A = true →
      ∀ n ∈ ns, ∀ a ∈ n.ins,
        isSourceB g a = true ∨ a ∈ A ∨ ∃ m ∈ ns, m.out = a := by
  intro ns
  induction ns with
  | nil => intro A _ n hn; cases hn
  | cons n ns ih =>
    intro A htopo n2 hn2 a ha
    obtain ⟨htopo1, htopo2⟩ := (topoB_cons g n ns A).mp htopo
    rcases List.mem_cons.mp hn2 with he | he
    · rcases htopo1 a (by rw [← he]; exact ha) with h1 | h1
      · exact Or.inl h1
      · exact Or.inr (Or.inl h1)
    · rcases ih (n.out :: A) htopo2 n2 he a ha with h1 | h1 | ⟨m, hm, hma⟩
      · exact Or.inl h1
      · rcases List.mem_cons.mp h1 with h2 | h2
        · exact Or.inr (Or.inr ⟨n, List.mem_cons_self n ns, h2.symm⟩)
        · exact Or.inr (Or.inl h2)
      · exact Or.inr (Or.inr ⟨m, List.mem_cons_of_mem n hm, hma⟩)

/-- C9: the Timing Analyzer's defensive structural check fails with the
`CyclicCombinationalLogic` error exactly when the purely combinational
subgraph of the input graph contains a dependence cycle (stated under the
single-driver and producer-existence structural hypotheses, which hold for
every well-formed graph), and on a well-formed graph it never raises this
error but returns a topological order. -/
theorem timing_cyclic_error (g : Graph)
    (hndw : nodupB (g.wires.map (fun w => w.wid)) = true)
    (hnd : nodupB (g.nets.map (fun n => n.out)) = true)
    (hpe : ∀ n ∈ g.nets, ∀ a ∈ n.ins,
      isSourceB g a = true ∨ ∃ m ∈ g.nets, m.out = a) :
    ((timingSort g = .error .cyclicCombinationalLogic) ↔ HasCombCycle g) ∧
    (g.WF → ∃ l, timingSort g = .ok l) := by
  constructor
  · constructor
    · intro herr
      refine kahn_err_cycle g g.nets.length g.nets (sourceIds g) .cyclicCombinationalLogic
        (fun n h => h) ?_ (Nat.le_refl _) herr
      intro n hn a ha
      cases hsrcb : isSourceB g a with
      | true => exact Or.inl (isSourceB_mem_sourceIds g a hsrcb)
      | false =>
        rcases hpe n hn a ha with hsrc | ⟨m, hm, hma⟩
        · rw [hsrc] at hsrcb; cases hsrcb
        · exact Or.inr ⟨m, hm, hma, rfl⟩
    · intro hcyc
      obtain ⟨n0, hn0cyc⟩ := hcyc
      have hn0mem : n0 ∈ g.nets := by
        cases hn0cyc with
        | single h => exact h.1
        | tail htr hlast => exact hlast.2.1
      have hblocked := kahn_blocked g.nets.length g.nets (sourceIds g)
        (fun m => m ∈ g.nets ∧ Relation.TransGen (edgeN g) m n0 ∧
          Relation.TransGen (edgeN g) n0 m)
        ⟨n0, hn0mem, hn0cyc, hn0cyc⟩ (fun n hn => hn.1)
        (by
          intro n hn
          obtain ⟨hnm, hn1, hn2⟩ := hn
          have hpred : ∃ c, (c ∈ g.nets ∧ Relation.TransGen (edgeN g) c n0 ∧
              Relation.TransGen (edgeN g) n0 c) ∧ edgeN g c n := by
            cases hn2 with
            | single h =>
              exact ⟨n0, ⟨hn0mem, hn0cyc, hn0cyc⟩, h⟩
            | tail htr hlast =>
              rename_i c
              refine ⟨c, ⟨hlast.1, ?_, htr⟩, hlast⟩
              exact Relation.TransGen.trans (Relation.TransGen.single hlast) hn1
          obtain ⟨c, hSc, hce⟩ := hpred
          refine ⟨c, hSc, hce.2.2.1, ?_, ?_⟩
          · intro hc
            have := mem_sourceIds_isSourceB g c.out hndw hc
            rw [hce.2.2.2] at this
            cases this
          · intro m2 hm2 he2
            rw [outs_inj_of_nodup g.nets hnd m2 hm2 c hce.1 he2]
            exact hSc)
      cases hts : timingSort g with
      | ok l => exact absurd hts (fun h => hblocked l h)
      | error e =>
        cases e
        rfl
  · intro hwf
    obtain ⟨_, _, _, _, htopo, _⟩ := wf_parts g hwf
    exact kahn_ok_of_topo g g.nets.length g.nets (sourceIds g) [] htopo
      (fun a ha => isSourceB_mem_sourceIds g a ha)
      (fun a ha => absurd ha (List.not_mem_nil a))
      (Nat.le_refl _)

/-- Witness for C9: the notebook's graph satisfies the structural hypotheses,
and the theorem applies to it. -/
theorem timing_cyclic_error_witness :
    (nodupB (exampleGraph.wires.map (fun w => w.wid)) = true ∧
      nodupB (exampleGraph.nets.map (fun n => n.out)) = true ∧
      ∀ n ∈ exampleGraph.nets, ∀ a ∈ n.ins,
        isSourceB exampleGraph a = true ∨ ∃ m ∈ exampleGraph.nets, m.out = a) ∧
    (((timingSort exampleGraph = .error .cyclicCombinationalLogic) ↔
        HasCombCycle exampleGraph) ∧
      (exampleGraph.WF → ∃ l, timingSort exampleGraph = .ok l)) :=
  ⟨⟨by decide, by decide, by decide⟩,
    timing_cyclic_error exampleGraph (by decide) (by decide) (by decide)⟩
